import Mathlib

/-!
# Shortest paths: Floyd's algorithm and priority-queue Dijkstra

A shallow embedding of `shortest-paths.cpp`.  Matrices (`int**`) and arrays
(`int*`) are total maps from indices to machine integers, of which the code
only touches the indices below `num_verts`; `int` values are mathematical
integers with the 32-bit wrap applied at every addition the code performs.
-/

namespace ShortestPaths

/-! ## Machine integers -/

/-- The constant `INF = std::numeric_limits<int>::max() / 2`. -/
def INF : Int := (2 ^ 31 - 1) / 2

/-- Two's-complement wrap of a mathematical integer into the 32-bit `int` range. -/
def wrap32 (x : Int) : Int := (x + 2 ^ 31) % 2 ^ 32 - 2 ^ 31

/-- The library function `std::min(a, b)`: `b` when `b < a`, otherwise `a`. -/
def stdMin (a b : Int) : Int := if b < a then b else a

/-! ## Matrices and arrays -/

/-- An `int**` matrix, read at row `i`, column `j`. -/
abbrev IntMatrix := Nat → Nat → Int

/-- An `int*` array. -/
abbrev IntArray := Nat → Int

/-- The assignment `w[i][j] = v`. -/
def setEntry (w : IntMatrix) (i j : Nat) (v : Int) : IntMatrix :=
  fun a b => if a = i ∧ b = j then v else w a b

/-- The assignment `cost[i] = v`. -/
def setCost (cost : IntArray) (i : Nat) (v : Int) : IntArray :=
  fun a => if a = i then v else cost a

/-! ## floyd -/

/-- Freshly allocated storage; the code writes every cell before reading it. -/
def freshMatrix : IntMatrix := fun _ _ => 0

/-- Inner copy loop of `floyd`: `for j: w[i][j] = W[i][j]`. -/
def copyRow (n : Nat) (W : IntMatrix) (w : IntMatrix) (i : Nat) : IntMatrix :=
  (List.range n).foldl (fun w j => setEntry w i j (W i j)) w

/-- Copy loops of `floyd` (lines 155-161). -/
def copyMatrix (n : Nat) (W : IntMatrix) : IntMatrix :=
  (List.range n).foldl (copyRow n W) freshMatrix

/-- Body of the innermost loop: `w[j][k] = std::min(w[j][k], w[j][i] + w[i][k])`. -/
def floydRelax (i j : Nat) (w : IntMatrix) (k : Nat) : IntMatrix :=
  setEntry w j k (stdMin (w j k) (wrap32 (w j i + w i k)))

/-- The loop over `k` for fixed `i`, `j`. -/
def floydRow (n i : Nat) (w : IntMatrix) (j : Nat) : IntMatrix :=
  (List.range n).foldl (floydRelax i j) w

/-- The loop over `j` for a fixed intermediate vertex `i`. -/
def floydPass (n : Nat) (w : IntMatrix) (i : Nat) : IntMatrix :=
  (List.range n).foldl (floydRow n i) w

/-- The function `floyd(W)` with `num_verts = n`. -/
def floyd (n : Nat) (W : IntMatrix) : IntMatrix :=
  (List.range n).foldl (floydPass n) (copyMatrix n W)

/-! ## The priority queue of `Vertex` entries -/

/-- The struct `Vertex`: a tentative distance and a vertex index. -/
structure Vertex where
  weight : Int
  vertex : Nat
deriving DecidableEq, Repr

/-- The member `operator <` of `Vertex`: `weight > other.weight`. -/
def Vertex.lt (a other : Vertex) : Prop := a.weight > other.weight

instance (a b : Vertex) : Decidable (Vertex.lt a b) := by
  unfold Vertex.lt; infer_instance

/-- A `std::priority_queue<Vertex>`.  The container is library code and is taken
as a parameter.  `pop` is `top()` followed by `pop()` and is `none` on an empty
queue; `contents` lists the entries held. -/
structure PriorityQueue where
  Q : Type
  empty : Q
  push : Q → Vertex → Q
  pop : Q → Option (Vertex × Q)
  contents : Q → List Vertex

/-- What the C++ standard guarantees of `std::priority_queue`: the queue holds
exactly the entries pushed and not yet popped, and `top()` is an entry that is
not `operator <` any entry held.  Which of several such entries is on top is
left to the implementation. -/
structure PriorityQueue.Lawful (P : PriorityQueue) : Prop where
  contents_empty : P.contents P.empty = []
  contents_push : ∀ q v, (P.contents (P.push q v)).Perm (v :: P.contents q)
  pop_none : ∀ q, P.pop q = none ↔ P.contents q = []
  pop_some : ∀ q v q1, P.pop q = some (v, q1) →
    (v :: P.contents q1).Perm (P.contents q) ∧ ∀ e ∈ P.contents q, ¬ Vertex.lt v e

/-- Removes the first entry of least weight from a list of entries. -/
def popMin : List Vertex → Option (Vertex × List Vertex)
  | [] => none
  | v :: rest =>
    match popMin rest with
    | none => some (v, [])
    | some (m, rest1) =>
      if v.weight ≤ m.weight then some (v, rest) else some (m, v :: rest1)

/-- A priority queue kept as a plain list: `push` prepends and `pop` removes the
first entry of least weight. -/
def listQueue : PriorityQueue where
  Q := List Vertex
  empty := []
  push := fun q v => v :: q
  pop := popMin
  contents := fun q => q

/-! ## dijkstra -/

/-- The array `cost` after lines 193-197: `INF` everywhere, then `cost[sv] = 0`. -/
def initCost (n sv : Nat) : IntArray :=
  setCost ((List.range n).foldl (fun c i => setCost c i INF) (fun _ => 0)) sv 0

/-- The local state of `dijkstra`: `cost`, `visited` and `pq`. -/
structure DState (P : PriorityQueue) where
  cost : IntArray
  visited : List Nat
  pq : P.Q

/-- Body of the loop over `adjacent` (lines 207-217), acting on `cost` and `pq`. -/
def relaxEdge (P : PriorityQueue) (W : IntMatrix) (visited : List Nat) (current : Nat)
    (s : IntArray × P.Q) (adjacent : Nat) : IntArray × P.Q :=
  if W current adjacent ≠ 0 ∧ W current adjacent ≠ INF then
    if adjacent ∉ visited then
      if wrap32 (s.1 current + W current adjacent) < s.1 adjacent then
        (setCost s.1 adjacent (wrap32 (s.1 current + W current adjacent)),
          P.push s.2 ⟨wrap32 (s.1 current + W current adjacent), adjacent⟩)
      else s
    else s
  else s

/-- One iteration of the `while` loop after the pop: mark `current` visited and
run the loop over `adjacent`. -/
def visit (P : PriorityQueue) (n : Nat) (W : IntMatrix) (s : DState P)
    (top : Vertex) (rest : P.Q) : DState P :=
  let r := (List.range n).foldl (relaxEdge P W (top.vertex :: s.visited) top.vertex)
    (s.cost, rest)
  ⟨r.1, top.vertex :: s.visited, r.2⟩

/-- The `while (!pq.empty())` loop, run for at most `fuel` pops; `none` when the
queue is still non-empty after `fuel` pops. -/
def dijkstraLoop (P : PriorityQueue) (n : Nat) (W : IntMatrix) :
    Nat → DState P → Option (DState P)
  | 0, s =>
    match P.pop s.pq with
    | none => some s
    | some _ => none
  | fuel + 1, s =>
    match P.pop s.pq with
    | none => some s
    | some (top, rest) => dijkstraLoop P n W fuel (visit P n W s top rest)

/-- The state of `dijkstra` on entry to the `while` loop. -/
def dijkstraInit (P : PriorityQueue) (n sv : Nat) : DState P :=
  ⟨initCost n sv, [], P.push P.empty ⟨0, sv⟩⟩

/-- The function `dijkstra(W, sv)` with `num_verts = n`, over the priority queue
`P`.  The loop is run for `n * (n - 1) + 1` pops, which always empties the queue
(`dijkstraLoop_terminates`). -/
def dijkstra (P : PriorityQueue) (n : Nat) (W : IntMatrix) (sv : Nat) : Option IntArray :=
  (dijkstraLoop P n W (n * (n - 1) + 1) (dijkstraInit P n sv)).map (fun s => s.cost)

/-! ## Paths and distances (specification side) -/

/-- Total weight of the walk that starts at `u` and then visits the vertices of
the list in order. -/
def walkWeight (W : IntMatrix) : Nat → List Nat → Int
  | _, [] => 0
  | u, v :: p => W u v + walkWeight W v p

/-- Last vertex of the walk that starts at `u` and visits the listed vertices. -/
def walkEnd : Nat → List Nat → Nat
  | u, [] => u
  | _, v :: p => walkEnd v p

/-- The list is a directed walk from `u` in the graph on vertices below `n` with
edge relation `E`; the empty list is the empty walk. -/
def IsWalk (n : Nat) (E : Nat → Nat → Prop) : Nat → List Nat → Prop
  | _, [] => True
  | u, v :: p => v < n ∧ E u v ∧ IsWalk n E v p

/-- Edges as `floyd` sees them: the entries below `INF`. -/
def floydEdge (W : IntMatrix) (u v : Nat) : Prop := W u v < INF

/-- Edges as `dijkstra` sees them: the entries that are neither `0` nor `INF`. -/
def dijkstraEdge (W : IntMatrix) (u v : Nat) : Prop := W u v ≠ 0 ∧ W u v ≠ INF

/-- The value `d` is the least total weight of a directed walk from `i` to `j`
over the edges `E`, capped at `INF`: it is at most `INF`, it is a lower bound of
the weight of every walk from `i` to `j`, and when it is below `INF` some walk
from `i` to `j` has exactly that weight. -/
def IsCappedDistance (n : Nat) (W : IntMatrix) (E : Nat → Nat → Prop) (i j : Nat)
    (d : Int) : Prop :=
  d ≤ INF ∧
  (∀ p, IsWalk n E i p → walkEnd i p = j → d ≤ walkWeight W i p) ∧
  (d < INF → ∃ p, IsWalk n E i p ∧ walkEnd i p = j ∧ walkWeight W i p = d)

/-- The weight matrices of the data model: entries in `[0, INF]`. -/
def InRange (n : Nat) (W : IntMatrix) : Prop :=
  ∀ i j, i < n → j < n → 0 ≤ W i j ∧ W i j ≤ INF

/-- The diagonal of the matrix is zero. -/
def ZeroDiag (n : Nat) (W : IntMatrix) : Prop := ∀ i, i < n → W i i = 0

/-! ## Invariants of the loops of floyd -/

/-- Every entry below `INF` is the weight of a walk over `floydEdge W`. -/
def Realized (n : Nat) (W w : IntMatrix) : Prop :=
  ∀ a b, a < n → b < n → w a b < INF →
    ∃ p, IsWalk n (floydEdge W) a p ∧ walkEnd a p = b ∧ walkWeight W a p = w a b

/-- Every entry is a lower bound of the weight of each walk between its indices
whose intermediate vertices are all below `m`. -/
def Complete (n : Nat) (W : IntMatrix) (m : Nat) (w : IntMatrix) : Prop :=
  ∀ j k, j < n → k < n → ∀ vs : List Nat, (∀ v ∈ vs, v < m) →
    w j k ≤ walkWeight W j (vs ++ [k])

/-- Every entry below `INF` is the weight of a walk of at least one step between
its indices, over vertices below `n`. -/
def RealizedSteps (n : Nat) (W w : IntMatrix) : Prop :=
  ∀ a b, a < n → b < n → w a b < INF →
    ∃ vs : List Nat, (∀ v ∈ vs, v < n) ∧ walkWeight W a (vs ++ [b]) = w a b

/-! ## floyd as a sequence of assignments, and on a store -/

/-- The triples `(i, j, k)` in the order in which the three nested loops of
`floyd` (lines 162-168) reach the assignment of line 165. -/
def floydSteps (n : Nat) : List (Nat × Nat × Nat) :=
  ((List.range n).map fun i =>
    ((List.range n).map fun j => (List.range n).map fun k => (i, j, k)).flatten).flatten

/-- The assignment of line 165 at the loop indices `(i, j, k)`. -/
def floydStep (w : IntMatrix) (s : Nat × Nat × Nat) : IntMatrix :=
  floydRelax s.1 s.2.1 w s.2.2

/-- The assignment of line 165 with the sum taken in exact integer arithmetic. -/
def floydStepExact (w : IntMatrix) (s : Nat × Nat × Nat) : IntMatrix :=
  setEntry w s.2.1 s.2.2 (stdMin (w s.2.1 s.2.2) (w s.2.1 s.1 + w s.1 s.2.2))

/-- The matrix `w` of `floyd` after the assignments of the listed loop indices. -/
def floydAfter (n : Nat) (W : IntMatrix) (pre : List (Nat × Nat × Nat)) : IntMatrix :=
  pre.foldl floydStep (copyMatrix n W)

/-- The pair of matrices `floyd` works with: the argument `W` and the local `w`. -/
structure FloydStore where
  W : IntMatrix
  w : IntMatrix

/-- The statement `w[i][j] = W[i][j]` on the store. -/
def FloydStore.copyCell (s : FloydStore) (i j : Nat) : FloydStore :=
  { s with w := setEntry s.w i j (s.W i j) }

/-- The statement `w[j][k] = std::min(w[j][k], w[j][i] + w[i][k])` on the store. -/
def FloydStore.relax (s : FloydStore) (i j k : Nat) : FloydStore :=
  { s with w := setEntry s.w j k (stdMin (s.w j k) (wrap32 (s.w j i + s.w i k))) }

/-- The body of `floyd` as a transformation of the store: the copy loops followed
by the three relaxation loops. -/
def floydStore (n : Nat) (s : FloydStore) : FloydStore :=
  (List.range n).foldl (fun s i =>
    (List.range n).foldl (fun s j =>
      (List.range n).foldl (fun s k => s.relax i j k) s) s)
    ((List.range n).foldl (fun s i =>
      (List.range n).foldl (fun s j => s.copyCell i j) s) s)

/-- Two matrices have the same `n × n` entries. -/
def AgreeOn (n : Nat) (w v : IntMatrix) : Prop := ∀ a b, a < n → b < n → w a b = v a b

/-! ## Invariants of the loops of dijkstra -/

/-- The state of the loop over `adjacent` after its first `m` iterations, related
to the state `(c, q)` on entry, for the popped vertex `cur` and the visited set
`vis` (which holds `cur`). -/
structure RelaxInv (P : PriorityQueue) (W : IntMatrix) (vis : List Nat) (cur : Nat)
    (c : IntArray) (q : P.Q) (m : Nat) (t : IntArray × P.Q) : Prop where
  visited_eq : ∀ x, x ∈ vis → t.1 x = c x
  le : ∀ x, t.1 x ≤ c x
  changed : ∀ x, t.1 x ≠ c x → x < m ∧ x ∉ vis ∧ dijkstraEdge W cur x ∧
    t.1 x = wrap32 (c cur + W cur x) ∧ (⟨t.1 x, x⟩ : Vertex) ∈ P.contents t.2
  pushed : ∀ e ∈ P.contents t.2, e ∈ P.contents q ∨
    (e.vertex < m ∧ e.vertex ∉ vis ∧ dijkstraEdge W cur e.vertex ∧
      e.weight = wrap32 (c cur + W cur e.vertex) ∧ e.weight = t.1 e.vertex ∧
      e.weight < c e.vertex)
  kept : ∀ e ∈ P.contents q, e ∈ P.contents t.2
  relaxed : ∀ adj, adj < m → dijkstraEdge W cur adj → adj ∉ vis →
    t.1 adj ≤ wrap32 (c cur + W cur adj)
  size : (P.contents t.2).length ≤ (P.contents q).length + (if cur < m then m - 1 else m)

/-- What holds of the state of `dijkstra` at the head of the `while` loop for
every matrix of `int` values: queue entries name vertices below `n`, and no edge
from a visited vertex to an unvisited one can still lower a cost. -/
structure TermInv (P : PriorityQueue) (n : Nat) (W : IntMatrix) (s : DState P) : Prop where
  vertex_lt : ∀ e ∈ P.contents s.pq, e.vertex < n
  relaxed : ∀ u ∈ s.visited, ∀ v, v < n → dijkstraEdge W u v → v ∉ s.visited →
    s.cost v ≤ wrap32 (s.cost u + W u v)

/-- Number of vertices below `n` that are not in the visited set. -/
def unvisitedCount (n : Nat) (vis : List Nat) : Nat :=
  ((Finset.range n).filter (fun v => v ∉ vis)).card

/-- The quantity that every iteration of the `while` loop decreases: the size
of the queue plus `n - 1` for every vertex not yet visited. -/
def potential (P : PriorityQueue) (n : Nat) (s : DState P) : Nat :=
  (P.contents s.pq).length + (n - 1) * unvisitedCount n s.visited

/-- The invariant of the `while` loop of `dijkstra` on matrices with entries in
`[0, INF]`, for the source `sv`. -/
structure DijInv (P : PriorityQueue) (n : Nat) (W : IntMatrix) (sv : Nat) (s : DState P) :
    Prop where
  range : ∀ v, v < n → 0 ≤ s.cost v ∧ s.cost v ≤ INF
  source : s.cost sv = 0
  realized : ∀ v, v < n → s.cost v < INF →
    ∃ p, IsWalk n (dijkstraEdge W) sv p ∧ walkEnd sv p = v ∧ walkWeight W sv p = s.cost v
  vertex_lt : ∀ e ∈ P.contents s.pq, e.vertex < n
  visited_lt : ∀ u ∈ s.visited, u < n
  relaxed : ∀ u ∈ s.visited, ∀ v, v < n → dijkstraEdge W u v → s.cost v ≤ s.cost u + W u v
  queued : ∀ v, v < n → v ∉ s.visited → s.cost v < INF →
    (⟨s.cost v, v⟩ : Vertex) ∈ P.contents s.pq
  entry : ∀ e ∈ P.contents s.pq, s.cost e.vertex ≤ e.weight ∧ e.weight < INF
  visited_le : ∀ u ∈ s.visited, ∀ e ∈ P.contents s.pq, s.cost u ≤ e.weight

/-! ## Classes of inputs and example graphs -/

/-- Off the diagonal every entry is `INF` or a positive weight below `INF`. -/
def PositiveWeights (n : Nat) (W : IntMatrix) : Prop :=
  ∀ i j, i < n → j < n → i ≠ j → W i j = INF ∨ (1 ≤ W i j ∧ W i j < INF)

/-- Off the diagonal every entry is `INF` or a non-negative weight below `INF`. -/
def NonNegWeights (n : Nat) (W : IntMatrix) : Prop :=
  ∀ i j, i < n → j < n → i ≠ j → W i j = INF ∨ (0 ≤ W i j ∧ W i j < INF)

/-- The matrix with every entry equal to `0` replaced by `INF`. -/
def zeroToInf (W : IntMatrix) : IntMatrix := fun a b => if W a b = 0 then INF else W a b

/-- The matrix with every entry equal to `INF` replaced by `0`. -/
def infToZero (W : IntMatrix) : IntMatrix := fun a b => if W a b = INF then 0 else W a b

/-- The graph on two vertices whose only edge is `0 → 1`, of weight `0`. -/
def zeroEdgeGraph : IntMatrix := fun i j =>
  if i = j then 0 else if i = 0 ∧ j = 1 then 0 else INF

/-- The graph with edges `0 → 1` (2), `1 → 2` (3), `0 → 2` (10) and `2 → 3` (1). -/
def scenarioGraph : IntMatrix := fun i j =>
  if i = j then 0
  else if i = 0 ∧ j = 1 then 2
  else if i = 1 ∧ j = 2 then 3
  else if i = 0 ∧ j = 2 then 10
  else if i = 2 ∧ j = 3 then 1
  else INF

/-- The graph without edges: `0` on the diagonal and `INF` elsewhere. -/
def noEdges : IntMatrix := fun i j => if i = j then 0 else INF

/-- The graph on three vertices with the edges `0 → 1` and `1 → 2`, both of
weight `INF - 1`. -/
def longPathGraph : IntMatrix := fun i j =>
  if i = j then 0
  else if i = 0 ∧ j = 1 then INF - 1
  else if i = 1 ∧ j = 2 then INF - 1
  else INF

/-- The matrix with every entry equal to `5`, its diagonal included. -/
def allFive : IntMatrix := fun _ _ => 5

/-! ## dijkstra: reachable states, pop count and the skipping variant -/

/-- The states of `dijkstra(W, sv)` at the head of the `while` loop: the state on
entry, and the state after one more iteration from such a state. -/
inductive DReach (P : PriorityQueue) (n : Nat) (W : IntMatrix) (sv : Nat) : DState P → Prop
  | init : DReach P n W sv (dijkstraInit P n sv)
  | step (s : DState P) (top : Vertex) (rest : P.Q) :
      DReach P n W sv s → P.pop s.pq = some (top, rest) →
      DReach P n W sv (visit P n W s top rest)

/-- Number of pops the `while` loop performs before it finds the queue empty;
`none` when that takes more than `fuel` pops. -/
def dijkstraPops (P : PriorityQueue) (n : Nat) (W : IntMatrix) : Nat → DState P → Option Nat
  | 0, s =>
    match P.pop s.pq with
    | none => some 0
    | some _ => none
  | fuel + 1, s =>
    match P.pop s.pq with
    | none => some 0
    | some (top, rest) => (dijkstraPops P n W fuel (visit P n W s top rest)).map (fun k => k + 1)

/-- The `while` loop with `if (visited.find(current) != visited.end()) continue;`
added after the pop: an entry whose vertex is visited already is dropped. -/
def dijkstraLoopSkip (P : PriorityQueue) (n : Nat) (W : IntMatrix) :
    Nat → DState P → Option (DState P)
  | 0, s =>
    match P.pop s.pq with
    | none => some s
    | some _ => none
  | fuel + 1, s =>
    match P.pop s.pq with
    | none => some s
    | some (top, rest) =>
      if top.vertex ∈ s.visited then dijkstraLoopSkip P n W fuel ⟨s.cost, s.visited, rest⟩
      else dijkstraLoopSkip P n W fuel (visit P n W s top rest)

/-- The variant of `dijkstra` that skips popped vertices already visited. -/
def dijkstraSkip (P : PriorityQueue) (n : Nat) (W : IntMatrix) (sv : Nat) : Option IntArray :=
  (dijkstraLoopSkip P n W (n * (n - 1) + 1) (dijkstraInit P n sv)).map (fun s => s.cost)

/-- The pair `(cost, pq)` when the loop over `adjacent`, run after popping `top`
in state `s`, reaches the iteration `adjacent = adj`. -/
def relaxPrefix (P : PriorityQueue) (W : IntMatrix) (s : DState P) (top : Vertex)
    (rest : P.Q) (adj : Nat) : IntArray × P.Q :=
  (List.range adj).foldl (relaxEdge P W (top.vertex :: s.visited) top.vertex) (s.cost, rest)

/-! ## readAdjMatrix -/

/-- How a run of the loader ends: normally, by an exception thrown (by `std::stoi`
or by `new`), by an assignment outside the allocated matrix, or, for the loop of
`parsePairs` only, by exhausting its iteration bound. -/
inductive Outcome where
  | ok
  | raised
  | outOfBounds
  | outOfFuel
deriving DecidableEq, Repr

/-- The result of a run of the loader: a value, or the way the run failed. -/
inductive Run (α : Type) where
  | ok : α → Run α
  | raised : Run α
  | outOfBounds : Run α
  | outOfFuel : Run α

/-- How the run ended. -/
def Run.outcome {α : Type} : Run α → Outcome
  | Run.ok _ => Outcome.ok
  | Run.raised => Outcome.raised
  | Run.outOfBounds => Outcome.outOfBounds
  | Run.outOfFuel => Outcome.outOfFuel

/-- The value of a run that ended normally. -/
def Run.value {α : Type} : Run α → Option α
  | Run.ok a => some a
  | _ => none

/-- The space character, the separator the loader searches for. -/
def spaceChar : Char := Char.ofNat 32

/-- The characters `isspace` accepts in the C locale: space and the codes 9 to 13. -/
def isSpace (c : Char) : Bool := c.toNat = 32 ∨ (9 ≤ c.toNat ∧ c.toNat ≤ 13)

/-- The decimal digits. -/
def isDigit (c : Char) : Bool := 48 ≤ c.toNat ∧ c.toNat ≤ 57

/-- The value of a string of decimal digits. -/
def digitsValue (ds : List Char) : Nat := ds.foldl (fun a c => 10 * a + (c.toNat - 48)) 0

/-- The library function `std::stoi(s)` in base 10: skips leading whitespace,
reads an optional sign and the longest run of digits after it, and ignores what
follows; `none` when it throws, which it does when there is no digit to read
(`std::invalid_argument`) or the value is not an `int` (`std::out_of_range`). -/
def stoi (s : List Char) : Option Int :=
  let s1 := s.dropWhile isSpace
  let s2 := if s1.head? = some (Char.ofNat 45) ∨ s1.head? = some (Char.ofNat 43)
    then s1.tail else s1
  let ds := s2.takeWhile isDigit
  if ds = [] then none
  else
    let v : Int := if s1.head? = some (Char.ofNat 45) then -(digitsValue ds : Int)
      else (digitsValue ds : Int)
    if -2 ^ 31 ≤ v ∧ v ≤ 2 ^ 31 - 1 then some v else none

/-- The call `line.find(" ")`: the position of the first space, `none` for `npos`. -/
def findSpace : List Char → Option Nat
  | [] => none
  | c :: cs => if c = spaceChar then some 0 else (findSpace cs).map (fun p => p + 1)

/-- The expression `line.substr(0, line.find(" "))`: the whole line when there is
no space. -/
def substrTo (line : List Char) : List Char :=
  match findSpace line with
  | none => line
  | some p => line.take p

/-- The statement `line.erase(0, line.find(" ") + 1)`: when there is no space,
`npos + 1` wraps to `0` and nothing is erased. -/
def eraseTo (line : List Char) : List Char :=
  match findSpace line with
  | none => line
  | some p => line.drop (p + 1)

/-- The matrix under construction, with the list of the assignments
`W[current][neighbor] = weight` made so far, in order. -/
structure LoadState where
  W : IntMatrix
  records : List (Nat × Nat × Int)

/-- The assignment `W[current][neighbor] = weight` of line 113, on a matrix
allocated with `n` rows and columns. -/
def assign (n : Nat) (st : LoadState) (current neighbor weight : Int) : Run LoadState :=
  if 0 ≤ current ∧ current < n ∧ 0 ≤ neighbor ∧ neighbor < n then
    Run.ok ⟨setEntry st.W current.toNat neighbor.toNat weight,
      st.records ++ [(current.toNat, neighbor.toNat, weight)]⟩
  else Run.outOfBounds

/-- The loop `while (line.find(" ") != npos)` of lines 108-114, run for at most
`fuel` iterations. -/
def parsePairs (n : Nat) (current : Int) : Nat → List Char → LoadState → Run LoadState
  | 0, line, st =>
    match findSpace line with
    | none => Run.ok st
    | some _ => Run.outOfFuel
  | fuel + 1, line, st =>
    match findSpace line with
    | none => Run.ok st
    | some _ =>
      match stoi (substrTo line) with
      | none => Run.raised
      | some neighbor =>
        match stoi (substrTo (eraseTo line)) with
        | none => Run.raised
        | some weight =>
          match assign n st current neighbor weight with
          | Run.ok st1 => parsePairs n current fuel (eraseTo (eraseTo line)) st1
          | Run.raised => Run.raised
          | Run.outOfBounds => Run.outOfBounds
          | Run.outOfFuel => Run.outOfFuel

/-- The body of the loop over the lines of the file (lines 105-114).  Every
iteration of the inner loop shortens the line, so its length bounds their number
(`parsePairs_fuel`). -/
def parseLine (n : Nat) (line : List Char) (st : LoadState) : Run LoadState :=
  match stoi (substrTo line) with
  | none => Run.raised
  | some current => parsePairs n current line.length (eraseTo line) st

/-- The loop `while (std::getline(file, line))` over the remaining lines. -/
def readLines (n : Nat) : List (List Char) → LoadState → Run LoadState
  | [], st => Run.ok st
  | line :: rest, st =>
    match parseLine n line st with
    | Run.ok st1 => readLines n rest st1
    | Run.raised => Run.raised
    | Run.outOfBounds => Run.outOfBounds
    | Run.outOfFuel => Run.outOfFuel

/-- The inner loop of lines 96-102: row `i` gets `0` on the diagonal and `INF`
elsewhere. -/
def initRow (n : Nat) (W : IntMatrix) (i : Nat) : IntMatrix :=
  (List.range n).foldl (fun W j => setEntry W i j (if i = j then 0 else INF)) W

/-- The matrix after the loops of lines 94-103. -/
def initMatrix (n : Nat) : IntMatrix :=
  (List.range n).foldl (initRow n) freshMatrix

/-- What `readAdjMatrix` leaves behind: the global `num_verts`, the matrix
returned, and the assignments made while parsing. -/
structure Loaded where
  numVerts : Nat
  W : IntMatrix
  records : List (Nat × Nat × Int)

/-- The function `readAdjMatrix(filename)`.  The file is `none` when it cannot be
opened, and otherwise the list of the lines `std::getline` yields.  When the file
does not open `num_verts` stays `0` and the null pointer is returned, which stands
here as a matrix none of whose entries is allocated. -/
def readAdjMatrix (file : Option (List (List Char))) : Run Loaded :=
  match file with
  | none => Run.ok ⟨0, freshMatrix, []⟩
  | some lines =>
    match stoi (lines.headD []) with
    | none => Run.raised
    | some numVerts =>
      if numVerts < 0 then Run.raised
      else
        match readLines numVerts.toNat lines.tail ⟨initMatrix numVerts.toNat, []⟩ with
        | Run.ok st => Run.ok ⟨numVerts.toNat, st.W, st.records⟩
        | Run.raised => Run.raised
        | Run.outOfBounds => Run.outOfBounds
        | Run.outOfFuel => Run.outOfFuel

/-! ## readAdjMatrix: records and lines of tokens (specification side) -/

/-- The assignments `W[source][neighbor] = weight` of a list of records, in order. -/
def applyRecords (recs : List (Nat × Nat × Int)) (W : IntMatrix) : IntMatrix :=
  recs.foldl (fun W r => setEntry W r.1 r.2.1 r.2.2) W

/-- The weight of the last record with source `i` and neighbor `j`, if any. -/
def lastWeight (recs : List (Nat × Nat × Int)) (i j : Nat) : Option Int :=
  (recs.reverse.find? (fun r => r.1 = i ∧ r.2.1 = j)).map (fun r => r.2.2)

/-- The matrix is the initial matrix with the recorded assignments applied, and
every recorded assignment is inside the matrix. -/
def LoadInv (n : Nat) (st : LoadState) : Prop :=
  st.W = applyRecords st.records (initMatrix n) ∧ ∀ r ∈ st.records, r.1 < n ∧ r.2.1 < n

/-- Tokens written on a line, separated by single spaces, with no space after the
last one. -/
def joinTokens : List (List Char) → List Char
  | [] => []
  | [t] => t
  | t :: u :: ts => t ++ spaceChar :: joinTokens (u :: ts)

/-- The token holds no space and `std::stoi` reads the integer `v` from it. -/
def IsIntToken (t : List Char) (v : Int) : Prop := spaceChar ∉ t ∧ stoi t = some v

instance (t : List Char) (v : Int) : Decidable (IsIntToken t v) := by
  unfold IsIntToken; infer_instance

/-- The tokens of a list of (neighbor, weight) pairs of tokens with their values. -/
def pairTokens (pairs : List ((List Char × Int) × (List Char × Int))) : List (List Char) :=
  (pairs.map (fun p => [p.1.1, p.2.1])).flatten

/-- The records the loader makes of a list of (neighbor, weight) pairs on a line
with source `src`. -/
def pairRecords (src : Int) (pairs : List ((List Char × Int) × (List Char × Int))) :
    List (Nat × Nat × Int) :=
  pairs.map (fun p => (src.toNat, p.1.2.toNat, p.2.2))

/-! ## The driver -/

/-- The constant `start_vert` of `main` (line 40). -/
def startVert : Nat := 2

/-- The source vertices `main` passes to `dijkstra`, in the order of the calls:
the demo call `dijkstra(W, start_vert)` of line 41, then the calls of the loop
`for (sv = 0; sv < num_verts; sv++)` of lines 51-53. -/
def driverSources (numVerts : Nat) : List Nat := startVert :: List.range numVerts

/-- The loop over `j` of lines 65-70 from a given list of columns on: at the
first entry that differs `equal` becomes `false` and the `break` leaves the loop. -/
def compareRow (A B : IntMatrix) (i : Nat) : List Nat → Bool → Bool
  | [], equal => equal
  | j :: js, equal => if A i j ≠ B i j then false else compareRow A B i js equal

/-- The flag `equal` after the loops of lines 63-71, for `res_dijkstra = A` and
`res_floyds = B`. -/
def compareAll (n : Nat) (A B : IntMatrix) : Bool :=
  (List.range n).foldl (fun equal i => compareRow A B i (List.range n) equal) true

/-- The word `main` prints for the flag (line 72). -/
def report (equal : Bool) : String := if equal then "equal" else "different"

/-! ## Example files -/

/-- A file for one vertex whose only edge line lists the source as its own
neighbor: the lines `1` and `0 0 5`. -/
def selfLoopFile : Option (List (List Char)) := some ["1".toList, "0 0 5".toList]

/-- A file for two vertices: the lines `2`, `0 1 5`, `1 1 0` and `0 1 7`. -/
def twoVertexFile : Option (List (List Char)) :=
  some ["2".toList, "0 1 5".toList, "1 1 0".toList, "0 1 7".toList]

/-- The edge line `0 1 5 2`: source `0`, the pair `(1, 5)` and the unpaired `2`. -/
def oddLine : List Char := "0 1 5 2".toList

/-! ## The records written in a file (specification side) -/

/-- The fields of a line: the pieces between its spaces, empty pieces included. -/
def splitSpaces : List Char → List (List Char)
  | [] => [[]]
  | c :: cs =>
    if c = spaceChar then [] :: splitSpaces cs
    else
      match splitSpaces cs with
      | [] => [[c]]
      | f :: fs => (c :: f) :: fs

/-- Consecutive fields taken two by two; a field left over at the end is dropped. -/
def pairUp : List (List Char) → List (List Char × List Char)
  | a :: b :: rest => (a, b) :: pairUp rest
  | _ => []

/-- The source vertex written on a line: the integer of its first field. -/
def lineSource (line : List Char) : Option Int := stoi ((splitSpaces line).headD [])

/-- The (neighbor, weight) pairs of fields written on a line after its source. -/
def linePairs (line : List Char) : List (List Char × List Char) :=
  pairUp (splitSpaces line).tail

/-- The integers of a (neighbor, weight) pair of fields. -/
def pairValues (p : List Char × List Char) : Option (Int × Int) :=
  match stoi p.1, stoi p.2 with
  | some neighbor, some weight => some (neighbor, weight)
  | _, _ => none

/-- The records of a list of (neighbor, weight) pairs of fields written on a line
with source `src`. -/
def pairsRecords (src : Int) (ps : List (List Char × List Char)) : List (Nat × Nat × Int) :=
  ps.filterMap (fun p => (pairValues p).map (fun v => (src.toNat, v.1.toNat, v.2)))

/-- The records (source, neighbor, weight) written on a line. -/
def lineRecords (line : List Char) : List (Nat × Nat × Int) :=
  match lineSource line with
  | none => []
  | some src => pairsRecords src (linePairs line)

/-- The records written in a file, in the order of its lines after the first; a
file that cannot be opened has none. -/
def fileRecords (file : Option (List (List Char))) : List (Nat × Nat × Int) :=
  match file with
  | none => []
  | some lines => (lines.tail.map lineRecords).flatten

/-- The line is an edge line for `n` vertices: its first field is an integer, and
each pair of fields after it is a pair of integers, with the neighbor and the
source in `[0, n)`. -/
def LineParses (n : Nat) (line : List Char) : Prop :=
  ∃ src, lineSource line = some src ∧
    ∀ p ∈ linePairs line, ∃ v, pairValues p = some v ∧
      0 ≤ src ∧ src < n ∧ 0 ≤ v.1 ∧ v.1 < n

/-- The file is a graph file for `n` vertices: its first line is the integer `n`
and every other line is an edge line for `n` vertices; a file that cannot be
opened counts as one for `0` vertices. -/
def FileParses (file : Option (List (List Char))) (n : Nat) : Prop :=
  match file with
  | none => n = 0
  | some lines => stoi (lines.headD []) = some (n : Int) ∧ ∀ line ∈ lines.tail, LineParses n line

/-- The loop of lines 108-114 told over the pairs of fields of the rest of the
line: each pair is read with `std::stoi` and assigned. -/
def evalPairs (n : Nat) (current : Int) :
    List (List Char × List Char) → LoadState → Run LoadState
  | [], st => Run.ok st
  | p :: ps, st =>
    match stoi p.1 with
    | none => Run.raised
    | some neighbor =>
      match stoi p.2 with
      | none => Run.raised
      | some weight =>
        if 0 ≤ current ∧ current < n ∧ 0 ≤ neighbor ∧ neighbor < n then
          evalPairs n current ps ⟨setEntry st.W current.toNat neighbor.toNat weight,
            st.records ++ [(current.toNat, neighbor.toNat, weight)]⟩
        else Run.outOfBounds

/-! # Theorems -/

/-! ## Machine integers and loops -/

theorem INF_eq : INF = 1073741823 := by decide

theorem wrap32_of_range (x : Int) (h0 : -2147483648 ≤ x) (h1 : x ≤ 2147483647) :
    wrap32 x = x := by
  unfold wrap32
  have : (x + 2 ^ 31) % 2 ^ 32 = x + 2 ^ 31 := by
    apply Int.emod_eq_of_lt <;> norm_num <;> omega
  rw [this]; ring

theorem stdMin_eq_min (a b : Int) : stdMin a b = min a b := by
  unfold stdMin
  split_ifs with h
  · exact (min_eq_right (le_of_lt h)).symm
  · exact (min_eq_left (not_lt.1 h)).symm

/-- Loop rule for `for (k = 0; k < n; k++)`: an invariant indexed by the number
of iterations done. -/
theorem foldl_range_inv {α : Type} (f : α → Nat → α) (I : Nat → α → Prop) (n : Nat)
    (s : α) (h0 : I 0 s) (hstep : ∀ k t, k < n → I k t → I (k + 1) (f t k)) :
    I n ((List.range n).foldl f s) := by
  induction n with
  | zero => simpa using h0
  | succ m ih =>
    rw [List.range_succ, List.foldl_append]
    simp only [List.foldl_cons, List.foldl_nil]
    apply hstep m _ (Nat.lt_succ_self m)
    exact ih (fun k t hk => hstep k t (Nat.lt_succ_of_lt hk))

theorem copyRow_spec (n : Nat) (W w : IntMatrix) (i : Nat) (a b : Nat) :
    copyRow n W w i a b = if a = i ∧ b < n then W i b else w a b := by
  unfold copyRow
  refine foldl_range_inv (fun w j => setEntry w i j (W i j))
    (fun m t => t a b = if a = i ∧ b < m then W i b else w a b) n w (by simp) ?_
  intro k t hk ht
  simp only [setEntry]
  by_cases h : a = i ∧ b = k
  · obtain ⟨rfl, rfl⟩ := h; simp
  · rw [if_neg h, ht]
    by_cases ha : a = i
    · subst ha
      have hb : b ≠ k := fun hb => h ⟨rfl, hb⟩
      have : (b < k + 1) ↔ b < k := by omega
      simp [this]
    · simp [ha]

theorem copyMatrix_spec (n : Nat) (W : IntMatrix) (a b : Nat) :
    copyMatrix n W a b = if a < n ∧ b < n then W a b else 0 := by
  unfold copyMatrix
  refine foldl_range_inv (copyRow n W)
    (fun m t => t a b = if a < m ∧ b < n then W a b else 0) n freshMatrix
    (by simp [freshMatrix]) ?_
  intro k t hk ht
  rw [copyRow_spec, ht]
  by_cases ha : a = k
  · subst ha
    by_cases hb : b < n <;> simp [hb]
  · have : (a < k + 1) ↔ a < k := by omega
    simp [ha, this]

/-! ## Walks -/

theorem walkWeight_append (W : IntMatrix) (u : Nat) (p q : List Nat) :
    walkWeight W u (p ++ q) = walkWeight W u p + walkWeight W (walkEnd u p) q := by
  induction p generalizing u with
  | nil => simp [walkWeight, walkEnd]
  | cons v p ih => simp [walkWeight, walkEnd, ih, add_assoc]

theorem walkEnd_append (u : Nat) (p q : List Nat) :
    walkEnd u (p ++ q) = walkEnd (walkEnd u p) q := by
  induction p generalizing u with
  | nil => simp [walkEnd]
  | cons v p ih => simp [walkEnd, ih]

theorem IsWalk_append (n : Nat) (E : Nat → Nat → Prop) (u : Nat) (p q : List Nat)
    (hp : IsWalk n E u p) (hq : IsWalk n E (walkEnd u p) q) : IsWalk n E u (p ++ q) := by
  induction p generalizing u with
  | nil => simpa [walkEnd] using hq
  | cons v p ih =>
    obtain ⟨h1, h2, h3⟩ := hp
    exact ⟨h1, h2, ih v h3 hq⟩

theorem walkEnd_lt (n : Nat) (E : Nat → Nat → Prop) (u : Nat) (p : List Nat) (hu : u < n)
    (hp : IsWalk n E u p) : walkEnd u p < n := by
  induction p generalizing u with
  | nil => simpa [walkEnd] using hu
  | cons v p ih =>
    obtain ⟨h1, _, h3⟩ := hp
    exact ih v h1 h3

/-! ## floyd: one relaxation -/

theorem floydRelax_apply (n : Nat) (w : IntMatrix) (hw : InRange n w) (i j k : Nat)
    (hi : i < n) (hj : j < n) (hk : k < n) (a b : Nat) :
    floydRelax i j w k a b = if a = j ∧ b = k then min (w j k) (w j i + w i k) else w a b := by
  have h1 := hw j i hj hi
  have h2 := hw i k hi hk
  have hI := INF_eq
  unfold floydRelax setEntry
  rw [stdMin_eq_min, wrap32_of_range _ (by omega) (by omega)]

theorem floydRelax_inRange (n : Nat) (w : IntMatrix) (hw : InRange n w) (i j k : Nat)
    (hi : i < n) (hj : j < n) (hk : k < n) : InRange n (floydRelax i j w k) := by
  intro a b ha hb
  rw [floydRelax_apply n w hw i j k hi hj hk]
  have h1 := hw j i hj hi
  have h2 := hw i k hi hk
  have h3 := hw j k hj hk
  have h4 := hw a b ha hb
  split_ifs with h
  · constructor
    · exact le_min h3.1 (by omega)
    · exact le_trans (min_le_left _ _) h3.2
  · exact h4

theorem floydRelax_le (n : Nat) (w : IntMatrix) (hw : InRange n w) (i j k : Nat)
    (hi : i < n) (hj : j < n) (hk : k < n) (a b : Nat) :
    floydRelax i j w k a b ≤ w a b := by
  rw [floydRelax_apply n w hw i j k hi hj hk]
  split_ifs with h
  · obtain ⟨rfl, rfl⟩ := h; exact min_le_left _ _
  · exact le_refl _

theorem floydRelax_post (n : Nat) (w : IntMatrix) (hw : InRange n w) (i j k : Nat)
    (hi : i < n) (hj : j < n) (hk : k < n) :
    floydRelax i j w k j k ≤ w j i + w i k := by
  rw [floydRelax_apply n w hw i j k hi hj hk]
  simp

theorem floydRelax_realized (n : Nat) (W w : IntMatrix) (hw : InRange n w)
    (hr : Realized n W w) (i j k : Nat) (hi : i < n) (hj : j < n) (hk : k < n) :
    Realized n W (floydRelax i j w k) := by
  intro a b ha hb
  rw [floydRelax_apply n w hw i j k hi hj hk]
  split_ifs with h
  · obtain ⟨rfl, rfl⟩ := h
    intro hlt
    have h1 := hw a i ha hi
    have h2 := hw i b hi hb
    rcases le_total (w a b) (w a i + w i b) with hle | hle
    · rw [min_eq_left hle] at hlt ⊢
      exact hr a b ha hb hlt
    · rw [min_eq_right hle] at hlt ⊢
      obtain ⟨p, hp1, hp2, hp3⟩ := hr a i ha hi (by omega)
      obtain ⟨q, hq1, hq2, hq3⟩ := hr i b hi hb (by omega)
      refine ⟨p ++ q, IsWalk_append n _ a p q hp1 (by rw [hp2]; exact hq1), ?_, ?_⟩
      · rw [walkEnd_append, hp2, hq2]
      · rw [walkWeight_append, hp2, hp3, hq3]
  · exact hr a b ha hb

theorem IsWalk_mem_lt (n : Nat) (E : Nat → Nat → Prop) (u : Nat) (p : List Nat)
    (hp : IsWalk n E u p) : ∀ v ∈ p, v < n := by
  induction p generalizing u with
  | nil => simp
  | cons a p ih =>
    obtain ⟨h1, _, h3⟩ := hp
    intro v hv
    rcases List.mem_cons.1 hv with rfl | hv
    · exact h1
    · exact ih a h3 v hv

theorem walkWeight_nonneg_of_mem (n : Nat) (W : IntMatrix) (hW : InRange n W) (u : Nat)
    (p : List Nat) (hu : u < n) (hp : ∀ v ∈ p, v < n) : 0 ≤ walkWeight W u p := by
  induction p generalizing u with
  | nil => simp [walkWeight]
  | cons v p ih =>
    have h1 : v < n := hp v (List.mem_cons_self _ _)
    have := (hW u v hu h1).1
    have := ih v h1 (fun x hx => hp x (List.mem_cons_of_mem _ hx))
    simp only [walkWeight]; omega

theorem walkEnd_concat (u : Nat) (p : List Nat) (k : Nat) : walkEnd u (p ++ [k]) = k := by
  rw [walkEnd_append]; rfl

/-! ## floyd: the loops -/

theorem floydRow_spec (n : Nat) (W t : IntMatrix) (ht : InRange n t) (hr : Realized n W t)
    (i j : Nat) (hi : i < n) (hj : j < n) :
    InRange n (floydRow n i t j) ∧ Realized n W (floydRow n i t j) ∧
    (∀ a b, floydRow n i t j a b ≤ t a b) ∧
    ∀ k, k < n → floydRow n i t j j k ≤ t j i + t i k := by
  unfold floydRow
  refine foldl_range_inv (floydRelax i j)
    (fun m s => InRange n s ∧ Realized n W s ∧ (∀ a b, s a b ≤ t a b) ∧
      ∀ k, k < m → s j k ≤ t j i + t i k) n t
    ⟨ht, hr, fun _ _ => le_refl _, fun k hk => absurd hk (Nat.not_lt_zero k)⟩ ?_
  rintro k s hk ⟨hs, hsr, hle, hpost⟩
  refine ⟨floydRelax_inRange n s hs i j k hi hj hk,
    floydRelax_realized n W s hs hsr i j k hi hj hk,
    fun a b => le_trans (floydRelax_le n s hs i j k hi hj hk a b) (hle a b), ?_⟩
  intro k1 hk1
  rcases Nat.lt_succ_iff_lt_or_eq.1 hk1 with h | h
  · exact le_trans (floydRelax_le n s hs i j k hi hj hk j k1) (hpost k1 h)
  · subst h
    have := floydRelax_post n s hs i j k1 hi hj hk
    have := hle j i
    have := hle i k1
    omega

theorem floydPass_spec (n : Nat) (W w : IntMatrix) (hw : InRange n w) (hr : Realized n W w)
    (i : Nat) (hi : i < n) :
    InRange n (floydPass n w i) ∧ Realized n W (floydPass n w i) ∧
    (∀ a b, floydPass n w i a b ≤ w a b) ∧
    ∀ j k, j < n → k < n → floydPass n w i j k ≤ w j i + w i k := by
  unfold floydPass
  refine foldl_range_inv (floydRow n i)
    (fun m s => InRange n s ∧ Realized n W s ∧ (∀ a b, s a b ≤ w a b) ∧
      ∀ j k, j < m → k < n → s j k ≤ w j i + w i k) n w
    ⟨hw, hr, fun _ _ => le_refl _, fun j k hj => absurd hj (Nat.not_lt_zero j)⟩ ?_
  rintro j s hj ⟨hs, hsr, hle, hpost⟩
  obtain ⟨h1, h2, h3, h4⟩ := floydRow_spec n W s hs hsr i j hi hj
  refine ⟨h1, h2, fun a b => le_trans (h3 a b) (hle a b), ?_⟩
  intro j1 k hj1 hk
  rcases Nat.lt_succ_iff_lt_or_eq.1 hj1 with h | h
  · exact le_trans (h3 j1 k) (hpost j1 k h hk)
  · subst h
    have := h4 k hk
    have := hle j1 i
    have := hle i k
    omega

theorem complete_from_mid (n : Nat) (W : IntMatrix) (hW : InRange n W) (m : Nat) (hm : m < n)
    (s : IntMatrix) (hC : Complete n W m s) (len : Nat) :
    ∀ vs : List Nat, vs.length ≤ len → (∀ v ∈ vs, v < m + 1) → ∀ k, k < n →
      s m k ≤ walkWeight W m (vs ++ [k]) := by
  induction len with
  | zero =>
    intro vs hlen _ k hk
    have : vs = [] := List.length_eq_zero.1 (Nat.le_zero.1 hlen)
    subst this
    exact hC m k hm hk [] (by simp)
  | succ len ih =>
    intro vs hlen hvs k hk
    by_cases hmem : m ∈ vs
    · obtain ⟨a, b, rfl, hma⟩ := List.eq_append_cons_of_mem hmem
      have hb : b.length ≤ len := by
        simp only [List.length_append, List.length_cons] at hlen; omega
      have hbv : ∀ v ∈ b, v < m + 1 := fun v hv => hvs v (by simp [hv])
      have h1 := ih b hb hbv k hk
      have hsplit : (a ++ m :: b) ++ [k] = (a ++ [m]) ++ (b ++ [k]) := by simp
      rw [hsplit, walkWeight_append, walkEnd_concat]
      have h0 : 0 ≤ walkWeight W m (a ++ [m]) := by
        apply walkWeight_nonneg_of_mem n W hW m _ hm
        intro v hv
        rcases List.mem_append.1 hv with hv | hv
        · have := hvs v (by simp [hv]); omega
        · simp only [List.mem_singleton] at hv; omega
      omega
    · apply hC m k hm hk vs
      intro v hv
      have := hvs v hv
      have : v ≠ m := fun h => hmem (h ▸ hv)
      omega

theorem complete_step (n : Nat) (W : IntMatrix) (hW : InRange n W) (m : Nat) (hm : m < n)
    (w : IntMatrix) (hw : InRange n w) (hr : Realized n W w) (hC : Complete n W m w) :
    Complete n W (m + 1) (floydPass n w m) := by
  obtain ⟨_, _, hle, hpost⟩ := floydPass_spec n W w hw hr m hm
  intro j k hj hk vs hvs
  by_cases hmem : m ∈ vs
  · obtain ⟨a, b, rfl, hma⟩ := List.eq_append_cons_of_mem hmem
    have hsplit : (a ++ m :: b) ++ [k] = (a ++ [m]) ++ (b ++ [k]) := by simp
    rw [hsplit, walkWeight_append, walkEnd_concat]
    have h1 : w j m ≤ walkWeight W j (a ++ [m]) := by
      apply hC j m hj hm a
      intro v hv
      have := hvs v (by simp [hv])
      have : v ≠ m := fun h => hma (h ▸ hv)
      omega
    have h2 := complete_from_mid n W hW m hm w hC b.length b (le_refl _)
      (fun v hv => hvs v (by simp [hv])) k hk
    have := hpost j k hj hk
    omega
  · have h1 : w j k ≤ walkWeight W j (vs ++ [k]) := by
      apply hC j k hj hk vs
      intro v hv
      have := hvs v hv
      have : v ≠ m := fun h => hmem (h ▸ hv)
      omega
    exact le_trans (hle j k) h1

theorem copyMatrix_apply (n : Nat) (W : IntMatrix) (a b : Nat) (ha : a < n) (hb : b < n) :
    copyMatrix n W a b = W a b := by
  rw [copyMatrix_spec, if_pos ⟨ha, hb⟩]

theorem copyMatrix_inRange (n : Nat) (W : IntMatrix) (hW : InRange n W) :
    InRange n (copyMatrix n W) := by
  intro a b ha hb
  rw [copyMatrix_apply n W a b ha hb]
  exact hW a b ha hb

theorem copyMatrix_realized (n : Nat) (W : IntMatrix) : Realized n W (copyMatrix n W) := by
  intro a b ha hb hlt
  rw [copyMatrix_apply n W a b ha hb] at hlt ⊢
  exact ⟨[b], ⟨hb, hlt, trivial⟩, rfl, by simp [walkWeight]⟩

theorem copyMatrix_complete (n : Nat) (W : IntMatrix) : Complete n W 0 (copyMatrix n W) := by
  intro j k hj hk vs hvs
  have : vs = [] := by
    cases vs with
    | nil => rfl
    | cons v vs => exact absurd (hvs v (List.mem_cons_self _ _)) (Nat.not_lt_zero v)
  subst this
  rw [copyMatrix_apply n W j k hj hk]
  simp [walkWeight]

/-- The invariant of the outer loop of `floyd`, at its exit. -/
theorem floyd_main (n : Nat) (W : IntMatrix) (hW : InRange n W) :
    InRange n (floyd n W) ∧ Realized n W (floyd n W) ∧
    (∀ a b, a < n → b < n → floyd n W a b ≤ W a b) ∧ Complete n W n (floyd n W) := by
  unfold floyd
  refine foldl_range_inv (floydPass n)
    (fun m s => InRange n s ∧ Realized n W s ∧ (∀ a b, a < n → b < n → s a b ≤ W a b) ∧
      Complete n W m s) n (copyMatrix n W)
    ⟨copyMatrix_inRange n W hW, copyMatrix_realized n W,
      fun a b ha hb => le_of_eq (copyMatrix_apply n W a b ha hb),
      copyMatrix_complete n W⟩ ?_
  rintro m s hm ⟨hs, hsr, hle, hC⟩
  obtain ⟨h1, h2, h3, _⟩ := floydPass_spec n W s hs hsr m hm
  exact ⟨h1, h2, fun a b ha hb => le_trans (h3 a b) (hle a b ha hb),
    complete_step n W hW m hm s hs hsr hC⟩

theorem floyd_le_walk (n : Nat) (W : IntMatrix) (hW : InRange n W) (hD : ZeroDiag n W)
    (i : Nat) (hi : i < n) (p : List Nat) (hp : ∀ v ∈ p, v < n) :
    floyd n W i (walkEnd i p) ≤ walkWeight W i p := by
  obtain ⟨hR, _, hle, hC⟩ := floyd_main n W hW
  rcases List.eq_nil_or_concat p with rfl | ⟨vs, k, rfl⟩
  · simp only [walkEnd, walkWeight]
    have := hle i i hi hi
    rw [hD i hi] at this
    exact this
  · rw [List.concat_eq_append] at hp ⊢
    rw [walkEnd_concat]
    exact hC i k hi (hp k (by simp)) vs (fun v hv => hp v (by simp [hv]))

theorem floyd_capped_distance (n : Nat) (W : IntMatrix) (hW : InRange n W)
    (hD : ZeroDiag n W) (i j : Nat) (hi : i < n) (hj : j < n) :
    IsCappedDistance n W (floydEdge W) i j (floyd n W i j) := by
  obtain ⟨hR, hreal, _, _⟩ := floyd_main n W hW
  refine ⟨(hR i j hi hj).2, ?_, hreal i j hi hj⟩
  intro p hp hend
  rw [← hend]
  exact floyd_le_walk n W hW hD i hi p (IsWalk_mem_lt n _ i p hp)

theorem floyd_diag (n : Nat) (W : IntMatrix) (hW : InRange n W) (hD : ZeroDiag n W)
    (i : Nat) (hi : i < n) : floyd n W i i = 0 := by
  obtain ⟨hR, _, hle, _⟩ := floyd_main n W hW
  have h1 := (hR i i hi hi).1
  have h2 := hle i i hi hi
  rw [hD i hi] at h2
  omega

theorem floyd_unreachable (n : Nat) (W : IntMatrix) (hW : InRange n W) (i j : Nat)
    (hi : i < n) (hj : j < n)
    (hno : ¬ ∃ p, IsWalk n (floydEdge W) i p ∧ walkEnd i p = j) :
    floyd n W i j = INF := by
  obtain ⟨hR, hreal, _, _⟩ := floyd_main n W hW
  have h1 := (hR i j hi hj).2
  by_contra hne
  have hlt : floyd n W i j < INF := lt_of_le_of_ne h1 hne
  obtain ⟨p, hp, hend, _⟩ := hreal i j hi hj hlt
  exact hno ⟨p, hp, hend⟩

theorem floyd_triangle_aux (n : Nat) (W : IntMatrix) (hW : InRange n W) (hD : ZeroDiag n W)
    (i j k : Nat) (hi : i < n) (hj : j < n) (hk : k < n) :
    floyd n W i j ≤ floyd n W i k + floyd n W k j := by
  obtain ⟨hR, hreal, _, _⟩ := floyd_main n W hW
  have hij := hR i j hi hj
  have hik := hR i k hi hk
  have hkj := hR k j hk hj
  by_cases h1 : floyd n W i k < INF
  · by_cases h2 : floyd n W k j < INF
    · obtain ⟨p, hp, hpe, hpw⟩ := hreal i k hi hk h1
      obtain ⟨q, hq, hqe, hqw⟩ := hreal k j hk hj h2
      have hmem : ∀ v ∈ p ++ q, v < n := by
        intro v hv
        rcases List.mem_append.1 hv with hv | hv
        · exact IsWalk_mem_lt n _ i p hp v hv
        · exact IsWalk_mem_lt n _ k q hq v hv
      have := floyd_le_walk n W hW hD i hi (p ++ q) hmem
      rw [walkEnd_append, hpe, hqe, walkWeight_append, hpe, hpw, hqw] at this
      exact this
    · omega
  · omega

theorem floyd_eq_steps (n : Nat) (W : IntMatrix) :
    floyd n W = floydAfter n W (floydSteps n) := by
  unfold floyd floydAfter floydSteps
  rw [List.foldl_flatten, List.foldl_map]
  congr 1
  funext w i
  unfold floydPass
  rw [List.foldl_flatten, List.foldl_map]
  congr 1
  funext w j
  unfold floydRow
  rw [List.foldl_map]
  rfl

theorem mem_floydSteps (n : Nat) (s : Nat × Nat × Nat) (h : s ∈ floydSteps n) :
    s.1 < n ∧ s.2.1 < n ∧ s.2.2 < n := by
  unfold floydSteps at h
  rw [List.mem_flatten] at h
  obtain ⟨l, hl, hs⟩ := h
  rw [List.mem_map] at hl
  obtain ⟨i, hi, rfl⟩ := hl
  rw [List.mem_flatten] at hs
  obtain ⟨l2, hl2, hs⟩ := hs
  rw [List.mem_map] at hl2
  obtain ⟨j, hj, rfl⟩ := hl2
  rw [List.mem_map] at hs
  obtain ⟨k, hk, rfl⟩ := hs
  exact ⟨List.mem_range.1 hi, List.mem_range.1 hj, List.mem_range.1 hk⟩

theorem foldl_floydStep_inRange (n : Nat) (l : List (Nat × Nat × Nat))
    (hl : ∀ s ∈ l, s.1 < n ∧ s.2.1 < n ∧ s.2.2 < n) (w : IntMatrix) (hw : InRange n w) :
    InRange n (l.foldl floydStep w) := by
  induction l generalizing w with
  | nil => exact hw
  | cons s l ih =>
    obtain ⟨h1, h2, h3⟩ := hl s (List.mem_cons_self _ _)
    simp only [List.foldl_cons]
    exact ih (fun t ht => hl t (List.mem_cons_of_mem _ ht)) _
      (floydRelax_inRange n w hw s.1 s.2.1 s.2.2 h1 h2 h3)

theorem floyd_sum_bound (n : Nat) (W : IntMatrix) (hW : InRange n W)
    (pre post : List (Nat × Nat × Nat)) (i j k : Nat)
    (hsplit : floydSteps n = pre ++ (i, j, k) :: post) :
    0 ≤ floydAfter n W pre j i + floydAfter n W pre i k ∧
    floydAfter n W pre j i + floydAfter n W pre i k ≤ 2 ^ 31 - 1 ∧
    wrap32 (floydAfter n W pre j i + floydAfter n W pre i k) =
      floydAfter n W pre j i + floydAfter n W pre i k := by
  have hmem : (i, j, k) ∈ floydSteps n := by rw [hsplit]; simp
  obtain ⟨hi, hj, hk⟩ := mem_floydSteps n _ hmem
  simp only at hi hj hk
  have hpre : ∀ s ∈ pre, s.1 < n ∧ s.2.1 < n ∧ s.2.2 < n := by
    intro s hs
    exact mem_floydSteps n s (by rw [hsplit]; simp [hs])
  have hR : InRange n (floydAfter n W pre) :=
    foldl_floydStep_inRange n pre hpre _ (copyMatrix_inRange n W hW)
  have h1 := hR j i hj hi
  have h2 := hR i k hi hk
  have hI := INF_eq
  refine ⟨by omega, by norm_num; omega, wrap32_of_range _ (by omega) (by omega)⟩

/-! ## floyd on the store -/

theorem floydStore_copy_inner (n i : Nat) (s : FloydStore) :
    (List.range n).foldl (fun s j => s.copyCell i j) s = ⟨s.W, copyRow n s.W s.w i⟩ := by
  unfold copyRow
  refine foldl_range_inv (fun (s : FloydStore) j => s.copyCell i j)
    (fun m t => t = ⟨s.W, (List.range m).foldl (fun w j => setEntry w i j (s.W i j)) s.w⟩)
    n s (by simp) ?_
  intro k t _ ht
  subst ht
  rw [List.range_succ, List.foldl_append]
  rfl

theorem floydStore_relax_inner (n i j : Nat) (s : FloydStore) :
    (List.range n).foldl (fun s k => s.relax i j k) s = ⟨s.W, floydRow n i s.w j⟩ := by
  unfold floydRow
  refine foldl_range_inv (fun (s : FloydStore) k => s.relax i j k)
    (fun m t => t = ⟨s.W, (List.range m).foldl (floydRelax i j) s.w⟩)
    n s (by simp) ?_
  intro k t _ ht
  subst ht
  rw [List.range_succ, List.foldl_append]
  rfl

theorem floydStore_eq (n : Nat) (s : FloydStore) :
    floydStore n s =
      ⟨s.W, (List.range n).foldl (floydPass n) ((List.range n).foldl (copyRow n s.W) s.w)⟩ := by
  unfold floydStore
  have hcopy : (List.range n).foldl (fun (s : FloydStore) i =>
      (List.range n).foldl (fun s j => s.copyCell i j) s) s =
      ⟨s.W, (List.range n).foldl (copyRow n s.W) s.w⟩ := by
    refine foldl_range_inv (fun (s : FloydStore) i =>
        (List.range n).foldl (fun s j => s.copyCell i j) s)
      (fun m t => t = ⟨s.W, (List.range m).foldl (copyRow n s.W) s.w⟩) n s (by simp) ?_
    intro k t _ ht
    subst ht
    beta_reduce
    rw [floydStore_copy_inner, List.range_succ, List.foldl_append]
    rfl
  rw [hcopy]
  generalize (List.range n).foldl (copyRow n s.W) s.w = w1
  have hpass : ∀ (i : Nat) (t : FloydStore), (List.range n).foldl (fun (s : FloydStore) j =>
      (List.range n).foldl (fun s k => s.relax i j k) s) t = ⟨t.W, floydPass n t.w i⟩ := by
    intro i t
    unfold floydPass
    refine foldl_range_inv (fun (s : FloydStore) j =>
        (List.range n).foldl (fun s k => s.relax i j k) s)
      (fun m u => u = ⟨t.W, (List.range m).foldl (floydRow n i) t.w⟩) n t (by simp) ?_
    intro k u _ hu
    subst hu
    beta_reduce
    rw [floydStore_relax_inner, List.range_succ, List.foldl_append]
    rfl
  refine foldl_range_inv (fun (s : FloydStore) i => (List.range n).foldl (fun (s : FloydStore) j =>
      (List.range n).foldl (fun s k => s.relax i j k) s) s)
    (fun m t => t = ⟨s.W, (List.range m).foldl (floydPass n) w1⟩) n ⟨s.W, w1⟩ (by simp) ?_
  intro k t _ ht
  subst ht
  beta_reduce
  rw [hpass, List.range_succ, List.foldl_append]
  rfl

theorem floydStore_fresh (n : Nat) (W : IntMatrix) :
    (floydStore n ⟨W, freshMatrix⟩).w = floyd n W := by
  rw [floydStore_eq]; rfl

theorem copy_from_any (n : Nat) (W w0 : IntMatrix) (a b : Nat) :
    (List.range n).foldl (copyRow n W) w0 a b = if a < n ∧ b < n then W a b else w0 a b := by
  refine foldl_range_inv (copyRow n W)
    (fun m t => t a b = if a < m ∧ b < n then W a b else w0 a b) n w0 (by simp) ?_
  intro k t hk ht
  rw [copyRow_spec, ht]
  by_cases ha : a = k
  · subst ha
    by_cases hb : b < n <;> simp [hb]
  · have : (a < k + 1) ↔ a < k := by omega
    simp [ha, this]

theorem floydRelax_agree (n : Nat) (w v : IntMatrix) (h : AgreeOn n w v) (i j k : Nat)
    (hi : i < n) (hj : j < n) (hk : k < n) :
    AgreeOn n (floydRelax i j w k) (floydRelax i j v k) := by
  intro a b ha hb
  unfold floydRelax setEntry
  rw [h j k hj hk, h j i hj hi, h i k hi hk, h a b ha hb]

theorem foldl_range_agree (n m : Nat) (f : IntMatrix → Nat → IntMatrix)
    (hf : ∀ w v k, k < m → AgreeOn n w v → AgreeOn n (f w k) (f v k))
    (w v : IntMatrix) (h : AgreeOn n w v) :
    AgreeOn n ((List.range m).foldl f w) ((List.range m).foldl f v) := by
  induction m with
  | zero => simpa using h
  | succ m ih =>
    rw [List.range_succ, List.foldl_append, List.foldl_append]
    simp only [List.foldl_cons, List.foldl_nil]
    exact hf _ _ m (Nat.lt_succ_self m) (ih (fun w v k hk => hf w v k (Nat.lt_succ_of_lt hk)))

theorem floydPasses_agree (n : Nat) (w v : IntMatrix) (h : AgreeOn n w v) :
    AgreeOn n ((List.range n).foldl (floydPass n) w) ((List.range n).foldl (floydPass n) v) := by
  apply foldl_range_agree n n _ _ w v h
  intro w v i hi hwv
  unfold floydPass
  apply foldl_range_agree n n _ _ w v hwv
  intro w v j hj hwv
  unfold floydRow
  apply foldl_range_agree n n _ _ w v hwv
  intro w v k hk hwv
  exact floydRelax_agree n w v hwv i j k hi hj hk

theorem floydStore_agree (n : Nat) (W w0 : IntMatrix) :
    AgreeOn n (floydStore n ⟨W, w0⟩).w (floyd n W) := by
  rw [floydStore_eq]
  unfold floyd copyMatrix
  apply floydPasses_agree
  intro a b ha hb
  rw [copy_from_any, copy_from_any]
  simp [ha, hb]

/-! ## dijkstra: the loop over `adjacent` -/

theorem setCost_same (c : IntArray) (i : Nat) (v : Int) : setCost c i v i = v := by
  simp [setCost]

theorem setCost_other (c : IntArray) (i a : Nat) (v : Int) (h : a ≠ i) :
    setCost c i v a = c a := by
  simp [setCost, h]

theorem mem_contents_push (P : PriorityQueue) (hP : P.Lawful) (q : P.Q) (v e : Vertex) :
    e ∈ P.contents (P.push q v) ↔ e = v ∨ e ∈ P.contents q := by
  rw [(hP.contents_push q v).mem_iff, List.mem_cons]

theorem length_contents_push (P : PriorityQueue) (hP : P.Lawful) (q : P.Q) (v : Vertex) :
    (P.contents (P.push q v)).length = (P.contents q).length + 1 := by
  rw [(hP.contents_push q v).length_eq, List.length_cons]

theorem relaxEdge_unchanged (P : PriorityQueue) (W : IntMatrix) (vis : List Nat) (cur : Nat)
    (t : IntArray × P.Q) (adj : Nat)
    (h : ¬ (dijkstraEdge W cur adj ∧ adj ∉ vis ∧
      wrap32 (t.1 cur + W cur adj) < t.1 adj)) :
    relaxEdge P W vis cur t adj = t := by
  unfold relaxEdge
  unfold dijkstraEdge at h
  by_cases h1 : W cur adj ≠ 0 ∧ W cur adj ≠ INF
  · by_cases h2 : adj ∉ vis
    · by_cases h3 : wrap32 (t.1 cur + W cur adj) < t.1 adj
      · exact absurd ⟨h1, h2, h3⟩ h
      · rw [if_pos h1, if_pos h2, if_neg h3]
    · rw [if_pos h1, if_neg h2]
  · rw [if_neg h1]

theorem relaxEdge_changed (P : PriorityQueue) (W : IntMatrix) (vis : List Nat) (cur : Nat)
    (t : IntArray × P.Q) (adj : Nat)
    (h : dijkstraEdge W cur adj ∧ adj ∉ vis ∧ wrap32 (t.1 cur + W cur adj) < t.1 adj) :
    relaxEdge P W vis cur t adj =
      (setCost t.1 adj (wrap32 (t.1 cur + W cur adj)),
        P.push t.2 ⟨wrap32 (t.1 cur + W cur adj), adj⟩) := by
  unfold relaxEdge
  unfold dijkstraEdge at h
  rw [if_pos h.1, if_pos h.2.1, if_pos h.2.2]

theorem relaxInv_init (P : PriorityQueue) (W : IntMatrix) (vis : List Nat) (cur : Nat)
    (c : IntArray) (q : P.Q) : RelaxInv P W vis cur c q 0 (c, q) where
  visited_eq := fun _ _ => rfl
  le := fun _ => le_refl _
  changed := fun x h => absurd rfl h
  pushed := fun e he => Or.inl he
  kept := fun e he => he
  relaxed := fun adj h => absurd h (Nat.not_lt_zero adj)
  size := by simp

theorem relaxInv_step (P : PriorityQueue) (hP : P.Lawful) (W : IntMatrix) (vis : List Nat)
    (cur : Nat) (hcur : cur ∈ vis) (c : IntArray) (q : P.Q) (m : Nat) (t : IntArray × P.Q)
    (ht : RelaxInv P W vis cur c q m t) :
    RelaxInv P W vis cur c q (m + 1) (relaxEdge P W vis cur t m) := by
  have hcc : t.1 cur = c cur := ht.visited_eq cur hcur
  have htm : t.1 m = c m := by
    by_contra hne
    exact absurd (ht.changed m hne).1 (Nat.lt_irrefl m)
  by_cases h : dijkstraEdge W cur m ∧ m ∉ vis ∧ wrap32 (t.1 cur + W cur m) < t.1 m
  · rw [relaxEdge_changed P W vis cur t m h]
    obtain ⟨hE, hmv, hlt⟩ := h
    have hcm : cur ≠ m := fun hc => hmv (hc ▸ hcur)
    rw [hcc] at hlt ⊢
    refine ⟨?_, ?_, ?_, ?_, ?_, ?_, ?_⟩
    · intro x hx
      have hxm : x ≠ m := fun hc => hmv (hc ▸ hx)
      simp only [setCost, if_neg hxm]
      exact ht.visited_eq x hx
    · intro x
      simp only [setCost]
      split_ifs with hx
      · subst hx; omega
      · exact ht.le x
    · intro x hx
      by_cases hxm : x = m
      · subst hxm
        simp only [setCost_same]
        refine ⟨Nat.lt_succ_self x, hmv, hE, trivial, ?_⟩
        rw [mem_contents_push P hP]
        exact Or.inl rfl
      · simp only [setCost_other _ _ _ _ hxm] at hx ⊢
        obtain ⟨h1, h2, h3, h4, h5⟩ := ht.changed x hx
        refine ⟨Nat.lt_succ_of_lt h1, h2, h3, h4, ?_⟩
        rw [mem_contents_push P hP]
        exact Or.inr h5
    · intro e he
      rw [mem_contents_push P hP] at he
      rcases he with rfl | he
      · right
        simp only [setCost_same]
        refine ⟨Nat.lt_succ_self m, hmv, hE, trivial, trivial, ?_⟩
        omega
      · rcases ht.pushed e he with h1 | ⟨h1, h2, h3, h4, h5, h6⟩
        · exact Or.inl h1
        · right
          have hne : e.vertex ≠ m := Nat.ne_of_lt h1
          simp only [setCost_other _ _ _ _ hne]
          exact ⟨Nat.lt_succ_of_lt h1, h2, h3, h4, h5, h6⟩
    · intro e he
      rw [mem_contents_push P hP]
      exact Or.inr (ht.kept e he)
    · intro adj hadj hEa hav
      simp only [setCost]
      split_ifs with hx
      · subst hx; exact le_refl _
      · exact ht.relaxed adj (by omega) hEa hav
    · rw [length_contents_push P hP]
      have := ht.size
      simp only at this ⊢
      split_ifs at this ⊢ <;> omega
  · rw [relaxEdge_unchanged P W vis cur t m h]
    refine ⟨ht.visited_eq, ht.le, ?_, ?_, ht.kept, ?_, ?_⟩
    · intro x hx
      obtain ⟨h1, h2⟩ := ht.changed x hx
      exact ⟨Nat.lt_succ_of_lt h1, h2⟩
    · intro e he
      rcases ht.pushed e he with h1 | ⟨h1, h2⟩
      · exact Or.inl h1
      · exact Or.inr ⟨Nat.lt_succ_of_lt h1, h2⟩
    · intro adj hadj hEa hav
      rcases Nat.lt_succ_iff_lt_or_eq.1 hadj with h1 | h1
      · exact ht.relaxed adj h1 hEa hav
      · subst h1
        rw [hcc] at h
        by_contra hc
        exact h ⟨hEa, hav, not_le.1 hc⟩
    · have := ht.size
      split_ifs at this ⊢ <;> omega

theorem relaxInv_loop (P : PriorityQueue) (hP : P.Lawful) (W : IntMatrix) (vis : List Nat)
    (cur : Nat) (hcur : cur ∈ vis) (c : IntArray) (q : P.Q) (n : Nat) :
    RelaxInv P W vis cur c q n ((List.range n).foldl (relaxEdge P W vis cur) (c, q)) :=
  foldl_range_inv (relaxEdge P W vis cur) (RelaxInv P W vis cur c q) n (c, q)
    (relaxInv_init P W vis cur c q)
    (fun k t _ ht => relaxInv_step P hP W vis cur hcur c q k t ht)

/-- A pass over `adjacent` from a vertex whose edges are all relaxed already
changes neither `cost` nor the queue. -/
theorem relax_loop_noop (P : PriorityQueue) (W : IntMatrix) (vis : List Nat) (cur : Nat)
    (c : IntArray) (q : P.Q) (n : Nat)
    (h : ∀ adj, adj < n → dijkstraEdge W cur adj → adj ∉ vis →
      c adj ≤ wrap32 (c cur + W cur adj)) :
    (List.range n).foldl (relaxEdge P W vis cur) (c, q) = (c, q) := by
  refine foldl_range_inv (relaxEdge P W vis cur) (fun _ t => t = (c, q)) n (c, q) rfl ?_
  intro k t hk ht
  subst ht
  apply relaxEdge_unchanged
  rintro ⟨h1, h2, h3⟩
  have := h k hk h1 h2
  simp only at h3
  omega

/-! ## dijkstra: termination of the `while` loop -/

theorem unvisitedCount_nil (n : Nat) : unvisitedCount n [] = n := by
  simp [unvisitedCount]

theorem unvisitedCount_cons_mem (n cur : Nat) (vis : List Nat) (h : cur ∈ vis) :
    unvisitedCount n (cur :: vis) = unvisitedCount n vis := by
  unfold unvisitedCount
  congr 1
  ext v
  simp only [Finset.mem_filter, List.mem_cons, not_or]
  constructor
  · rintro ⟨h1, _, h3⟩; exact ⟨h1, h3⟩
  · rintro ⟨h1, h3⟩; exact ⟨h1, fun hv => h3 (hv ▸ h), h3⟩

theorem unvisitedCount_cons_fresh (n cur : Nat) (vis : List Nat) (hn : cur < n)
    (h : cur ∉ vis) : unvisitedCount n (cur :: vis) + 1 = unvisitedCount n vis := by
  unfold unvisitedCount
  have hmem : cur ∈ (Finset.range n).filter (fun v => v ∉ vis) := by
    simp [hn, h]
  have heq : (Finset.range n).filter (fun v => v ∉ cur :: vis) =
      ((Finset.range n).filter (fun v => v ∉ vis)).erase cur := by
    ext v
    simp only [Finset.mem_filter, List.mem_cons, not_or, Finset.mem_erase, Finset.mem_range]
    tauto
  rw [heq, Finset.card_erase_of_mem hmem]
  have : 0 < ((Finset.range n).filter (fun v => v ∉ vis)).card := Finset.card_pos.2 ⟨cur, hmem⟩
  omega

theorem pop_mem (P : PriorityQueue) (hP : P.Lawful) (q : P.Q) (top : Vertex) (rest : P.Q)
    (h : P.pop q = some (top, rest)) (e : Vertex) :
    e ∈ P.contents q ↔ e = top ∨ e ∈ P.contents rest := by
  rw [← (hP.pop_some q top rest h).1.mem_iff, List.mem_cons]

theorem pop_length (P : PriorityQueue) (hP : P.Lawful) (q : P.Q) (top : Vertex) (rest : P.Q)
    (h : P.pop q = some (top, rest)) :
    (P.contents q).length = (P.contents rest).length + 1 := by
  rw [← (hP.pop_some q top rest h).1.length_eq, List.length_cons]

theorem visit_stale (P : PriorityQueue) (n : Nat) (W : IntMatrix) (s : DState P)
    (top : Vertex) (rest : P.Q) (hT : TermInv P n W s) (hst : top.vertex ∈ s.visited) :
    visit P n W s top rest = ⟨s.cost, top.vertex :: s.visited, rest⟩ := by
  unfold visit
  rw [relax_loop_noop P W (top.vertex :: s.visited) top.vertex s.cost rest n]
  intro adj hadj hE hav
  exact hT.relaxed top.vertex hst adj hadj hE (fun h => hav (List.mem_cons_of_mem _ h))

theorem visit_termInv (P : PriorityQueue) (hP : P.Lawful) (n : Nat) (W : IntMatrix)
    (s : DState P) (top : Vertex) (rest : P.Q) (hT : TermInv P n W s)
    (hpop : P.pop s.pq = some (top, rest)) :
    TermInv P n W (visit P n W s top rest) ∧
    potential P n (visit P n W s top rest) + 1 ≤ potential P n s := by
  have hlen := pop_length P hP s.pq top rest hpop
  have htop : top.vertex < n := hT.vertex_lt top ((pop_mem P hP s.pq top rest hpop top).2 (Or.inl rfl))
  by_cases hst : top.vertex ∈ s.visited
  · rw [visit_stale P n W s top rest hT hst]
    refine ⟨⟨?_, ?_⟩, ?_⟩
    · intro e he
      exact hT.vertex_lt e ((pop_mem P hP s.pq top rest hpop e).2 (Or.inr he))
    · intro u hu v hv hE hvv
      have hu1 : u ∈ s.visited := by
        rcases List.mem_cons.1 hu with rfl | hu
        · exact hst
        · exact hu
      exact hT.relaxed u hu1 v hv hE (fun h => hvv (List.mem_cons_of_mem _ h))
    · unfold potential
      simp only
      rw [unvisitedCount_cons_mem n top.vertex s.visited hst, hlen]
      omega
  · have hR := relaxInv_loop P hP W (top.vertex :: s.visited) top.vertex
      (List.mem_cons_self _ _) s.cost rest n
    refine ⟨⟨?_, ?_⟩, ?_⟩
    · intro e he
      rcases hR.pushed e he with h1 | h1
      · exact hT.vertex_lt e ((pop_mem P hP s.pq top rest hpop e).2 (Or.inr h1))
      · exact h1.1
    · intro u hu v hv hE hvv
      simp only [visit] at hu hvv ⊢
      rw [hR.visited_eq u hu]
      rcases List.mem_cons.1 hu with rfl | hu1
      · exact hR.relaxed v hv hE hvv
      · exact le_trans (hR.le v)
          (hT.relaxed u hu1 v hv hE (fun h => hvv (List.mem_cons_of_mem _ h)))
    · have hsz := hR.size
      rw [if_pos htop] at hsz
      have hU := unvisitedCount_cons_fresh n top.vertex s.visited htop hst
      unfold potential
      simp only [visit]
      rw [hlen, ← hU, Nat.mul_succ]
      omega

theorem dijkstraLoop_terminates (P : PriorityQueue) (hP : P.Lawful) (n : Nat) (W : IntMatrix)
    (fuel : Nat) : ∀ s : DState P, TermInv P n W s → potential P n s ≤ fuel →
      ∃ s1, dijkstraLoop P n W fuel s = some s1 := by
  induction fuel with
  | zero =>
    intro s _ hpot
    have hnil : P.contents s.pq = [] := by
      unfold potential at hpot
      exact List.length_eq_zero.1 (by omega)
    have := (hP.pop_none s.pq).2 hnil
    exact ⟨s, by simp [dijkstraLoop, this]⟩
  | succ fuel ih =>
    intro s hT hpot
    cases hpop : P.pop s.pq with
    | none => exact ⟨s, by simp [dijkstraLoop, hpop]⟩
    | some r =>
      obtain ⟨top, rest⟩ := r
      obtain ⟨hT1, hpot1⟩ := visit_termInv P hP n W s top rest hT hpop
      obtain ⟨s1, hs1⟩ := ih (visit P n W s top rest) hT1 (by omega)
      exact ⟨s1, by simp [dijkstraLoop, hpop, hs1]⟩

/-- Loop rule for the `while` loop: an invariant of the loop body holds of the
final state, whose queue is empty. -/
theorem dijkstraLoop_inv (P : PriorityQueue) (n : Nat) (W : IntMatrix)
    (I : DState P → Prop)
    (hstep : ∀ s top rest, I s → P.pop s.pq = some (top, rest) → I (visit P n W s top rest))
    (fuel : Nat) : ∀ s s1 : DState P, I s → dijkstraLoop P n W fuel s = some s1 →
      I s1 ∧ P.pop s1.pq = none := by
  induction fuel with
  | zero =>
    intro s s1 hI h
    cases hpop : P.pop s.pq with
    | none =>
      simp only [dijkstraLoop, hpop, Option.some.injEq] at h
      subst h
      exact ⟨hI, hpop⟩
    | some r => simp [dijkstraLoop, hpop] at h
  | succ fuel ih =>
    intro s s1 hI h
    cases hpop : P.pop s.pq with
    | none =>
      simp only [dijkstraLoop, hpop, Option.some.injEq] at h
      subst h
      exact ⟨hI, hpop⟩
    | some r =>
      obtain ⟨top, rest⟩ := r
      simp only [dijkstraLoop, hpop] at h
      exact ih _ s1 (hstep s top rest hI hpop) h

theorem contents_init (P : PriorityQueue) (hP : P.Lawful) (n sv : Nat) (e : Vertex) :
    e ∈ P.contents (dijkstraInit P n sv).pq ↔ e = ⟨0, sv⟩ := by
  simp only [dijkstraInit]
  rw [mem_contents_push P hP, hP.contents_empty]
  simp

theorem termInv_init (P : PriorityQueue) (hP : P.Lawful) (n : Nat) (W : IntMatrix) (sv : Nat)
    (hsv : sv < n) : TermInv P n W (dijkstraInit P n sv) := by
  refine ⟨?_, ?_⟩
  · intro e he
    rw [contents_init P hP] at he
    subst he
    exact hsv
  · intro u hu
    simp [dijkstraInit] at hu

theorem potential_init (P : PriorityQueue) (hP : P.Lawful) (n sv : Nat) :
    potential P n (dijkstraInit P n sv) = n * (n - 1) + 1 := by
  unfold potential
  simp only [dijkstraInit]
  rw [length_contents_push P hP, hP.contents_empty, unvisitedCount_nil, Nat.mul_comm]
  simp
  omega

/-- The call `dijkstra(W, sv)` returns: the queue is empty after at most
`n * (n - 1) + 1` pops, for every matrix of `int` values. -/
theorem dijkstra_returns (P : PriorityQueue) (hP : P.Lawful) (n : Nat) (W : IntMatrix)
    (sv : Nat) (hsv : sv < n) :
    ∃ s : DState P, dijkstraLoop P n W (n * (n - 1) + 1) (dijkstraInit P n sv) = some s ∧
      dijkstra P n W sv = some s.cost := by
  obtain ⟨s, hs⟩ := dijkstraLoop_terminates P hP n W (n * (n - 1) + 1) (dijkstraInit P n sv)
    (termInv_init P hP n W sv hsv) (le_of_eq (potential_init P hP n sv))
  exact ⟨s, hs, by simp [dijkstra, hs]⟩

/-! ## dijkstra: correctness on matrices with entries in `[0, INF]` -/

theorem IsWalk_concat (n : Nat) (E : Nat → Nat → Prop) (u : Nat) (p : List Nat) (v : Nat) :
    IsWalk n E u (p ++ [v]) ↔ IsWalk n E u p ∧ v < n ∧ E (walkEnd u p) v := by
  induction p generalizing u with
  | nil => simp [IsWalk, walkEnd]
  | cons a p ih =>
    show (a < n ∧ E u a ∧ IsWalk n E a (p ++ [v])) ↔
      (a < n ∧ E u a ∧ IsWalk n E a p) ∧ v < n ∧ E (walkEnd a p) v
    rw [ih a]
    tauto

theorem wrap32_cost_add (n : Nat) (W : IntMatrix) (hW : InRange n W) (x : Int) (u v : Nat)
    (hu : u < n) (hv : v < n) (h0 : 0 ≤ x) (h1 : x ≤ INF) :
    wrap32 (x + W u v) = x + W u v := by
  have := hW u v hu hv
  have hI := INF_eq
  exact wrap32_of_range _ (by omega) (by omega)

theorem dijInv_termInv (P : PriorityQueue) (n : Nat) (W : IntMatrix) (hW : InRange n W)
    (sv : Nat) (s : DState P) (hI : DijInv P n W sv s) : TermInv P n W s := by
  refine ⟨hI.vertex_lt, ?_⟩
  intro u hu v hv hE _
  have hun := hI.visited_lt u hu
  have hr := hI.range u hun
  rw [wrap32_cost_add n W hW _ u v hun hv hr.1 hr.2]
  exact hI.relaxed u hu v hv hE

theorem dijInv_init (P : PriorityQueue) (hP : P.Lawful) (n : Nat) (W : IntMatrix) (sv : Nat)
    (hsv : sv < n) : DijInv P n W sv (dijkstraInit P n sv) := by
  have hcost : ∀ v, v < n → (dijkstraInit P n sv).cost v = if v = sv then 0 else INF := by
    intro v hv
    simp only [dijkstraInit, initCost, setCost]
    split_ifs with h
    · rfl
    · have : ∀ m, ((List.range m).foldl (fun c i => setCost c i INF) (fun _ => 0)) v =
          if v < m then INF else 0 := by
        intro m
        refine foldl_range_inv (fun (c : IntArray) i => setCost c i INF)
          (fun k c => c v = if v < k then INF else 0) m _ (by simp) ?_
        intro k c _ hc
        simp only [setCost]
        split_ifs with h1 h2 h2
        · rfl
        · omega
        · rw [hc, if_pos (by omega)]
        · rw [hc, if_neg (by omega)]
      rw [this n, if_pos hv]
  have hI := INF_eq
  refine ⟨?_, ?_, ?_, ?_, ?_, ?_, ?_, ?_, ?_⟩
  · intro v hv
    rw [hcost v hv]
    split_ifs <;> omega
  · rw [hcost sv hsv, if_pos rfl]
  · intro v hv hlt
    rw [hcost v hv] at hlt ⊢
    split_ifs at hlt ⊢ with h
    · subst h; exact ⟨[], trivial, rfl, rfl⟩
    · exact absurd hlt (lt_irrefl _)
  · intro e he
    rw [contents_init P hP] at he
    subst he; exact hsv
  · intro u hu
    simp [dijkstraInit] at hu
  · intro u hu
    simp [dijkstraInit] at hu
  · intro v hv _ hlt
    rw [contents_init P hP]
    rw [hcost v hv] at hlt ⊢
    split_ifs at hlt ⊢ with h
    · subst h; rfl
    · exact absurd hlt (lt_irrefl _)
  · intro e he
    rw [contents_init P hP] at he
    subst he
    simp only
    rw [hcost sv hsv, if_pos rfl]
    omega
  · intro u hu
    simp [dijkstraInit] at hu

theorem visit_dijInv (P : PriorityQueue) (hP : P.Lawful) (n : Nat) (W : IntMatrix)
    (hW : InRange n W) (sv : Nat) (hsv : sv < n) (s : DState P) (top : Vertex) (rest : P.Q)
    (hI : DijInv P n W sv s) (hpop : P.pop s.pq = some (top, rest)) :
    DijInv P n W sv (visit P n W s top rest) := by
  have hT := dijInv_termInv P n W hW sv s hI
  have hmem := pop_mem P hP s.pq top rest hpop
  have htopmem : top ∈ P.contents s.pq := (hmem top).2 (Or.inl rfl)
  have hcurn : top.vertex < n := hI.vertex_lt top htopmem
  by_cases hst : top.vertex ∈ s.visited
  · rw [visit_stale P n W s top rest hT hst]
    refine ⟨hI.range, hI.source, hI.realized, ?_, ?_, ?_, ?_, ?_, ?_⟩
    · intro e he
      exact hI.vertex_lt e ((hmem e).2 (Or.inr he))
    · intro u hu
      rcases List.mem_cons.1 hu with rfl | hu
      · exact hcurn
      · exact hI.visited_lt u hu
    · intro u hu v hv hE
      have hu1 : u ∈ s.visited := by
        rcases List.mem_cons.1 hu with rfl | hu
        · exact hst
        · exact hu
      exact hI.relaxed u hu1 v hv hE
    · intro v hv hvv hlt
      have hv1 : v ∉ s.visited := fun h => hvv (List.mem_cons_of_mem _ h)
      rcases (hmem _).1 (hI.queued v hv hv1 hlt) with h | h
      · exfalso
        apply hv1
        have : v = top.vertex := by rw [← h]
        rw [this]; exact hst
      · exact h
    · intro e he
      exact hI.entry e ((hmem e).2 (Or.inr he))
    · intro u hu e he
      have hu1 : u ∈ s.visited := by
        rcases List.mem_cons.1 hu with rfl | hu
        · exact hst
        · exact hu
      exact hI.visited_le u hu1 e ((hmem e).2 (Or.inr he))
  · have hR := relaxInv_loop P hP W (top.vertex :: s.visited) top.vertex
      (List.mem_cons_self _ _) s.cost rest n
    have hentry := hI.entry top htopmem
    have hcr := hI.range top.vertex hcurn
    have hclt : s.cost top.vertex < INF := lt_of_le_of_lt hentry.1 hentry.2
    have hmin : ∀ e ∈ P.contents s.pq, top.weight ≤ e.weight := by
      intro e he
      have := (hP.pop_some s.pq top rest hpop).2 e he
      simp only [Vertex.lt, gt_iff_lt, not_lt] at this
      exact this
    have htw : top.weight = s.cost top.vertex := by
      have := hmin _ (hI.queued top.vertex hcurn hst hclt)
      simp only at this
      omega
    have hnw : ∀ x, x < n →
        wrap32 (s.cost top.vertex + W top.vertex x) = s.cost top.vertex + W top.vertex x :=
      fun x hx => wrap32_cost_add n W hW _ top.vertex x hcurn hx hcr.1 hcr.2
    have hrange : ∀ v, v < n → 0 ≤ (visit P n W s top rest).cost v ∧
        (visit P n W s top rest).cost v ≤ INF := by
      intro v hv
      have hle := hR.le v
      have hold := hI.range v hv
      simp only [visit]
      by_cases hc : ((List.range n).foldl (relaxEdge P W (top.vertex :: s.visited) top.vertex)
          (s.cost, rest)).1 v = s.cost v
      · rw [hc]; exact hold
      · obtain ⟨_, _, _, h4, _⟩ := hR.changed v hc
        rw [hnw v hv] at h4
        have := (hW top.vertex v hcurn hv).1
        constructor <;> omega
    refine ⟨hrange, ?_, ?_, ?_, ?_, ?_, ?_, ?_, ?_⟩
    · have h1 := (hrange sv hsv).1
      have h2 := hR.le sv
      have h3 := hI.source
      simp only [visit] at h1 ⊢
      omega
    · intro v hv hlt
      simp only [visit] at hlt ⊢
      by_cases hc : ((List.range n).foldl (relaxEdge P W (top.vertex :: s.visited) top.vertex)
          (s.cost, rest)).1 v = s.cost v
      · rw [hc] at hlt ⊢
        exact hI.realized v hv hlt
      · obtain ⟨_, _, hE, h4, _⟩ := hR.changed v hc
        rw [hnw v hv] at h4
        obtain ⟨p, hp1, hp2, hp3⟩ := hI.realized top.vertex hcurn hclt
        refine ⟨p ++ [v], ?_, walkEnd_concat sv p v, ?_⟩
        · rw [IsWalk_concat, hp2]
          exact ⟨hp1, hv, hE⟩
        · rw [walkWeight_append, hp2, hp3, h4]
          simp [walkWeight]
    · intro e he
      rcases hR.pushed e he with h1 | h1
      · exact hI.vertex_lt e ((hmem e).2 (Or.inr h1))
      · exact h1.1
    · intro u hu
      rcases List.mem_cons.1 hu with rfl | hu
      · exact hcurn
      · exact hI.visited_lt u hu
    · intro u hu v hv hE
      simp only [visit] at hu ⊢
      rw [hR.visited_eq u hu]
      rcases List.mem_cons.1 hu with rfl | hu1
      · by_cases hvv : v ∈ top.vertex :: s.visited
        · rw [hR.visited_eq v hvv]
          have hw0 := (hW top.vertex v hcurn hv).1
          rcases List.mem_cons.1 hvv with rfl | hv1
          · omega
          · have := hI.visited_le v hv1 top htopmem
            omega
        · have := hR.relaxed v hv hE hvv
          rw [hnw v hv] at this
          exact this
      · exact le_trans (hR.le v) (hI.relaxed u hu1 v hv hE)
    · intro v hv hvv hlt
      simp only [visit] at hvv hlt ⊢
      by_cases hc : ((List.range n).foldl (relaxEdge P W (top.vertex :: s.visited) top.vertex)
          (s.cost, rest)).1 v = s.cost v
      · rw [hc] at hlt ⊢
        have hv1 : v ∉ s.visited := fun h => hvv (List.mem_cons_of_mem _ h)
        rcases (hmem _).1 (hI.queued v hv hv1 hlt) with h | h
        · exfalso
          apply hvv
          have : v = top.vertex := by rw [← h]
          rw [this]; exact List.mem_cons_self _ _
        · exact hR.kept _ h
      · exact (hR.changed v hc).2.2.2.2
    · intro e he
      simp only [visit] at he ⊢
      rcases hR.pushed e he with h1 | ⟨h1, _, _, _, h5, h6⟩
      · have := hI.entry e ((hmem e).2 (Or.inr h1))
        exact ⟨le_trans (hR.le _) this.1, this.2⟩
      · have := (hI.range e.vertex h1).2
        exact ⟨le_of_eq h5.symm, by omega⟩
    · intro u hu e he
      simp only [visit] at hu he ⊢
      rw [hR.visited_eq u hu]
      have hu_le : s.cost u ≤ s.cost top.vertex := by
        rcases List.mem_cons.1 hu with rfl | hu1
        · exact le_refl _
        · have := hI.visited_le u hu1 top htopmem
          omega
      rcases hR.pushed e he with h1 | ⟨h1, _, _, h4, _, _⟩
      · have := hmin e ((hmem e).2 (Or.inr h1))
        omega
      · rw [hnw e.vertex h1] at h4
        have := (hW top.vertex e.vertex hcurn h1).1
        omega

theorem dijInv_final_lower (P : PriorityQueue) (n : Nat) (W : IntMatrix) (hW : InRange n W)
    (sv : Nat) (hsv : sv < n) (s : DState P) (hI : DijInv P n W sv s)
    (hempty : P.contents s.pq = []) (p : List Nat) (hp : IsWalk n (dijkstraEdge W) sv p) :
    s.cost (walkEnd sv p) ≤ walkWeight W sv p := by
  induction p using List.reverseRecOn with
  | nil => simp only [walkEnd, walkWeight]; exact le_of_eq hI.source
  | append_singleton p v ih =>
    rw [IsWalk_concat] at hp
    obtain ⟨hp1, hv, hE⟩ := hp
    have ih1 := ih hp1
    have hx : walkEnd sv p < n := walkEnd_lt n _ sv p hsv hp1
    rw [walkEnd_concat, walkWeight_append]
    simp only [walkWeight, add_zero]
    have hw0 := (hW (walkEnd sv p) v hx hv).1
    by_cases hvis : walkEnd sv p ∈ s.visited
    · have := hI.relaxed _ hvis v hv hE
      omega
    · have hinf : ¬ s.cost (walkEnd sv p) < INF := by
        intro hlt
        have := hI.queued _ hx hvis hlt
        rw [hempty] at this
        exact absurd this (List.not_mem_nil _)
      have := (hI.range v hv).2
      omega

/-- On a matrix with entries in `[0, INF]`, `dijkstra(W, sv)` returns, and every
entry of the returned array is the capped distance from `sv` over the edges that
`dijkstra` sees. -/
theorem dijkstra_capped_distance (P : PriorityQueue) (hP : P.Lawful) (n : Nat)
    (W : IntMatrix) (hW : InRange n W) (sv : Nat) (hsv : sv < n) :
    ∃ cost, dijkstra P n W sv = some cost ∧
      ∀ v, v < n → IsCappedDistance n W (dijkstraEdge W) sv v (cost v) := by
  obtain ⟨s, hs, hd⟩ := dijkstra_returns P hP n W sv hsv
  obtain ⟨hI, hnone⟩ := dijkstraLoop_inv P n W (DijInv P n W sv)
    (fun s top rest h hpop => visit_dijInv P hP n W hW sv hsv s top rest h hpop)
    _ _ s (dijInv_init P hP n W sv hsv) hs
  have hempty := (hP.pop_none s.pq).1 hnone
  refine ⟨s.cost, hd, ?_⟩
  intro v hv
  refine ⟨(hI.range v hv).2, ?_, hI.realized v hv⟩
  intro p hp hend
  rw [← hend]
  exact dijInv_final_lower P n W hW sv hsv s hI hempty p hp

/-! ## The list queue is a priority queue -/

theorem popMin_none (q : List Vertex) : popMin q = none ↔ q = [] := by
  cases q with
  | nil => simp [popMin]
  | cons v rest =>
    simp only [popMin]
    cases h : popMin rest with
    | none => simp
    | some r =>
      obtain ⟨m, r1⟩ := r
      by_cases hv : v.weight ≤ m.weight <;> simp [hv]

theorem popMin_some (q : List Vertex) (v : Vertex) (q1 : List Vertex)
    (h : popMin q = some (v, q1)) :
    (v :: q1).Perm q ∧ ∀ e ∈ q, ¬ Vertex.lt v e := by
  induction q generalizing v q1 with
  | nil => simp [popMin] at h
  | cons a rest ih =>
    simp only [popMin] at h
    cases hr : popMin rest with
    | none =>
      rw [hr] at h
      have hnil := (popMin_none rest).1 hr
      simp only [Option.some.injEq, Prod.mk.injEq] at h
      obtain ⟨rfl, rfl⟩ := h
      subst hnil
      simp [Vertex.lt]
    | some r =>
      obtain ⟨m, r1⟩ := r
      rw [hr] at h
      obtain ⟨hperm, hmin⟩ := ih m r1 hr
      by_cases hv : a.weight ≤ m.weight
      · simp only [hv, if_true, Option.some.injEq, Prod.mk.injEq] at h
        obtain ⟨rfl, rfl⟩ := h
        refine ⟨List.Perm.refl _, ?_⟩
        intro e he
        simp only [Vertex.lt, gt_iff_lt, not_lt]
        rcases List.mem_cons.1 he with rfl | he
        · exact le_refl _
        · have := hmin e he
          simp only [Vertex.lt, gt_iff_lt, not_lt] at this
          omega
      · simp only [hv, if_false, Option.some.injEq, Prod.mk.injEq] at h
        obtain ⟨rfl, rfl⟩ := h
        refine ⟨?_, ?_⟩
        · exact (List.Perm.swap a _ r1).trans (List.Perm.cons a hperm)
        · intro e he
          simp only [Vertex.lt, gt_iff_lt, not_lt]
          rcases List.mem_cons.1 he with rfl | he
          · omega
          · have := hmin e he
            simp only [Vertex.lt, gt_iff_lt, not_lt] at this
            exact this

theorem listQueue_lawful : listQueue.Lawful where
  contents_empty := rfl
  contents_push := fun _ _ => List.Perm.refl _
  pop_none := popMin_none
  pop_some := popMin_some

/-! ## Capped distances -/

theorem IsCappedDistance_unique (n : Nat) (W : IntMatrix) (E : Nat → Nat → Prop) (i j : Nat)
    (d e : Int) (hd : IsCappedDistance n W E i j d) (he : IsCappedDistance n W E i j e) :
    d = e := by
  obtain ⟨hd1, hd2, hd3⟩ := hd
  obtain ⟨he1, he2, he3⟩ := he
  have h1 : d ≤ e := by
    by_cases h : e < INF
    · obtain ⟨p, hp, hpe, hpw⟩ := he3 h
      rw [← hpw]; exact hd2 p hp hpe
    · omega
  have h2 : e ≤ d := by
    by_cases h : d < INF
    · obtain ⟨p, hp, hpe, hpw⟩ := hd3 h
      rw [← hpw]; exact he2 p hp hpe
    · omega
  omega

theorem IsCappedDistance_unreachable (n : Nat) (W : IntMatrix) (E : Nat → Nat → Prop)
    (i j : Nat) (d : Int) (hd : IsCappedDistance n W E i j d)
    (hno : ¬ ∃ p, IsWalk n E i p ∧ walkEnd i p = j) : d = INF := by
  obtain ⟨hd1, _, hd3⟩ := hd
  by_contra hne
  obtain ⟨p, hp, hpe, _⟩ := hd3 (lt_of_le_of_ne hd1 hne)
  exact hno ⟨p, hp, hpe⟩

theorem dijkstraEdge_floydEdge (n : Nat) (W : IntMatrix) (hW : InRange n W) (u v : Nat)
    (hu : u < n) (hv : v < n) (h : dijkstraEdge W u v) : floydEdge W u v := by
  have := (hW u v hu hv).2
  exact lt_of_le_of_ne this h.2

theorem IsWalk_dijkstra_floyd (n : Nat) (W : IntMatrix) (hW : InRange n W) (u : Nat)
    (hu : u < n) (p : List Nat) (hp : IsWalk n (dijkstraEdge W) u p) :
    IsWalk n (floydEdge W) u p := by
  induction p generalizing u with
  | nil => trivial
  | cons v p ih =>
    obtain ⟨h1, h2, h3⟩ := hp
    exact ⟨h1, dijkstraEdge_floydEdge n W hW u v hu h1 h2, ih v h1 h3⟩

theorem positive_inRange (n : Nat) (W : IntMatrix) (hD : ZeroDiag n W)
    (hpos : PositiveWeights n W) : InRange n W := by
  intro i j hi hj
  have hI := INF_eq
  by_cases h : i = j
  · subst h; rw [hD i hi]; omega
  · rcases hpos i j hi hj h with h1 | h1 <;> omega

/-- With positive weights a walk over the entries below `INF` only differs from a
walk over the edges `dijkstra` sees by zero-weight steps from a vertex to itself. -/
theorem walk_remove_loops (n : Nat) (W : IntMatrix) (hD : ZeroDiag n W)
    (hpos : PositiveWeights n W) (u : Nat) (hu : u < n) (p : List Nat)
    (hp : IsWalk n (floydEdge W) u p) :
    ∃ q, IsWalk n (dijkstraEdge W) u q ∧ walkEnd u q = walkEnd u p ∧
      walkWeight W u q = walkWeight W u p := by
  induction p generalizing u with
  | nil => exact ⟨[], trivial, rfl, rfl⟩
  | cons v p ih =>
    obtain ⟨h1, h2, h3⟩ := hp
    obtain ⟨q, hq1, hq2, hq3⟩ := ih v h1 h3
    by_cases huv : u = v
    · subst huv
      refine ⟨q, hq1, hq2, ?_⟩
      simp only [walkWeight, hD u hu, zero_add]
      exact hq3
    · refine ⟨v :: q, ⟨h1, ?_, hq1⟩, hq2, ?_⟩
      · unfold floydEdge at h2
        rcases hpos u v hu h1 huv with h | h
        · omega
        · exact ⟨by omega, by omega⟩
      · simp only [walkWeight, hq3]

theorem dijkstra_eq_floyd_aux (P : PriorityQueue) (hP : P.Lawful) (n : Nat) (W : IntMatrix)
    (hD : ZeroDiag n W) (hpos : PositiveWeights n W) (i : Nat) (hi : i < n) :
    ∃ cost, dijkstra P n W i = some cost ∧ ∀ j, j < n → cost j = floyd n W i j := by
  have hW := positive_inRange n W hD hpos
  obtain ⟨cost, hc, hdist⟩ := dijkstra_capped_distance P hP n W hW i hi
  refine ⟨cost, hc, ?_⟩
  intro j hj
  obtain ⟨hd1, hd2, hd3⟩ := hdist j hj
  obtain ⟨hf1, hf2, hf3⟩ := floyd_capped_distance n W hW hD i j hi hj
  have h1 : floyd n W i j ≤ cost j := by
    by_cases h : cost j < INF
    · obtain ⟨p, hp, hpe, hpw⟩ := hd3 h
      rw [← hpw]
      exact hf2 p (IsWalk_dijkstra_floyd n W hW i hi p hp) hpe
    · omega
  have h2 : cost j ≤ floyd n W i j := by
    by_cases h : floyd n W i j < INF
    · obtain ⟨p, hp, hpe, hpw⟩ := hf3 h
      obtain ⟨q, hq1, hq2, hq3⟩ := walk_remove_loops n W hD hpos i hi p hp
      rw [← hpw, ← hq3]
      exact hd2 q hq1 (by rw [hq2, hpe])
    · omega
  omega

/-! ## dijkstra reads the matrix through its edge test only -/

theorem relaxEdge_congr (P : PriorityQueue) (W V : IntMatrix)
    (h1 : ∀ a b, (W a b ≠ 0 ∧ W a b ≠ INF) → V a b = W a b)
    (h2 : ∀ a b, ¬ (W a b ≠ 0 ∧ W a b ≠ INF) → ¬ (V a b ≠ 0 ∧ V a b ≠ INF)) :
    relaxEdge P V = relaxEdge P W := by
  funext vis cur s adj
  unfold relaxEdge
  by_cases hE : W cur adj ≠ 0 ∧ W cur adj ≠ INF
  · rw [h1 cur adj hE]
  · rw [if_neg hE, if_neg (h2 cur adj hE)]

theorem dijkstra_congr (P : PriorityQueue) (n : Nat) (W V : IntMatrix) (sv : Nat)
    (h1 : ∀ a b, (W a b ≠ 0 ∧ W a b ≠ INF) → V a b = W a b)
    (h2 : ∀ a b, ¬ (W a b ≠ 0 ∧ W a b ≠ INF) → ¬ (V a b ≠ 0 ∧ V a b ≠ INF)) :
    dijkstra P n V sv = dijkstra P n W sv := by
  have hv : visit P n V = visit P n W := by
    funext s top rest
    unfold visit
    rw [relaxEdge_congr P W V h1 h2]
  have hl : ∀ fuel s, dijkstraLoop P n V fuel s = dijkstraLoop P n W fuel s := by
    intro fuel
    induction fuel with
    | zero => intro s; rfl
    | succ fuel ih =>
      intro s
      simp only [dijkstraLoop, hv]
      cases P.pop s.pq with
      | none => rfl
      | some r => exact ih _
  unfold dijkstra
  rw [hl]

theorem dijkstra_zeroToInf (P : PriorityQueue) (n : Nat) (W : IntMatrix) (sv : Nat) :
    dijkstra P n (zeroToInf W) sv = dijkstra P n W sv := by
  apply dijkstra_congr
  · intro a b h
    simp [zeroToInf, h.1]
  · intro a b h hc
    unfold zeroToInf at hc
    split_ifs at hc with h0
    · exact hc.2 rfl
    · exact h hc

theorem dijkstra_infToZero (P : PriorityQueue) (n : Nat) (W : IntMatrix) (sv : Nat) :
    dijkstra P n (infToZero W) sv = dijkstra P n W sv := by
  apply dijkstra_congr
  · intro a b h
    simp [infToZero, h.2]
  · intro a b h hc
    unfold infToZero at hc
    split_ifs at hc with h0
    · exact hc.1 rfl
    · exact h hc

/-! ## Independence of the queue implementation -/

theorem dijkstra_queue_independent (P Q : PriorityQueue) (hP : P.Lawful) (hQ : Q.Lawful)
    (n : Nat) (W : IntMatrix) (hW : InRange n W) (sv : Nat) (hsv : sv < n) :
    ∃ c d, dijkstra P n W sv = some c ∧ dijkstra Q n W sv = some d ∧
      ∀ v, v < n → c v = d v := by
  obtain ⟨c, hc, hcd⟩ := dijkstra_capped_distance P hP n W hW sv hsv
  obtain ⟨d, hd, hdd⟩ := dijkstra_capped_distance Q hQ n W hW sv hsv
  exact ⟨c, d, hc, hd, fun v hv =>
    IsCappedDistance_unique n W _ sv v _ _ (hcd v hv) (hdd v hv)⟩

theorem dijkstra_source_zero (P : PriorityQueue) (hP : P.Lawful) (n : Nat) (W : IntMatrix)
    (hW : InRange n W) (sv : Nat) (hsv : sv < n) :
    ∃ cost, dijkstra P n W sv = some cost ∧ cost sv = 0 := by
  obtain ⟨cost, hc, hdist⟩ := dijkstra_capped_distance P hP n W hW sv hsv
  refine ⟨cost, hc, ?_⟩
  obtain ⟨h1, h2, h3⟩ := hdist sv hsv
  have hle : cost sv ≤ 0 := h2 [] trivial rfl
  have hI := INF_eq
  obtain ⟨p, hp, _, hpw⟩ := h3 (by omega)
  have := walkWeight_nonneg_of_mem n W hW sv p hsv (IsWalk_mem_lt n _ sv p hp)
  omega

/-! ## Exact and wrapping arithmetic in floyd -/

theorem floydStep_eq_exact (n : Nat) (w : IntMatrix) (hw : InRange n w) (s : Nat × Nat × Nat)
    (hs : s.1 < n ∧ s.2.1 < n ∧ s.2.2 < n) : floydStep w s = floydStepExact w s := by
  have h1 := hw s.2.1 s.1 hs.2.1 hs.1
  have h2 := hw s.1 s.2.2 hs.1 hs.2.2
  have hI := INF_eq
  unfold floydStep floydStepExact floydRelax
  rw [wrap32_of_range _ (by omega) (by omega)]

theorem foldl_floydStep_exact (n : Nat) (l : List (Nat × Nat × Nat))
    (hl : ∀ s ∈ l, s.1 < n ∧ s.2.1 < n ∧ s.2.2 < n) (w : IntMatrix) (hw : InRange n w) :
    l.foldl floydStep w = l.foldl floydStepExact w := by
  induction l generalizing w with
  | nil => rfl
  | cons s l ih =>
    have hs := hl s (List.mem_cons_self _ _)
    simp only [List.foldl_cons]
    rw [← floydStep_eq_exact n w hw s hs]
    exact ih (fun t ht => hl t (List.mem_cons_of_mem _ ht)) _
      (floydRelax_inRange n w hw s.1 s.2.1 s.2.2 hs.1 hs.2.1 hs.2.2)

/-! ## The example graphs -/

theorem scenarioGraph_zeroDiag : ZeroDiag 4 scenarioGraph := by
  intro i _
  simp [scenarioGraph]

theorem scenarioGraph_positive : PositiveWeights 4 scenarioGraph := by
  intro i j hi hj hij
  interval_cases i <;> interval_cases j <;> first | exact absurd rfl hij | decide

theorem scenarioGraph_inRange : InRange 4 scenarioGraph :=
  positive_inRange 4 scenarioGraph scenarioGraph_zeroDiag scenarioGraph_positive

set_option maxRecDepth 100000 in
theorem scenario_floyd_values :
    floyd 4 scenarioGraph 0 2 = 5 ∧ floyd 4 scenarioGraph 0 3 = 6 ∧
    floyd 4 scenarioGraph 3 0 = INF := by decide

set_option maxRecDepth 100000 in
theorem scenario_listQueue_values :
    (dijkstra listQueue 4 scenarioGraph 0).map (fun c => (c 2, c 3)) = some (5, 6) ∧
    (dijkstra listQueue 4 scenarioGraph 3).map (fun c => c 0) = some INF := by decide

theorem noEdges_zeroDiag (n : Nat) : ZeroDiag n noEdges := by
  intro i _
  simp [noEdges]

theorem noEdges_inRange (n : Nat) : InRange n noEdges := by
  intro i j _ _
  have hI := INF_eq
  unfold noEdges
  split_ifs <;> omega

theorem noEdges_walk_end (n : Nat) (u : Nat) (p : List Nat)
    (hp : IsWalk n (floydEdge noEdges) u p) : walkEnd u p = u := by
  induction p generalizing u with
  | nil => rfl
  | cons v p ih =>
    obtain ⟨_, h2, h3⟩ := hp
    have huv : u = v := by
      by_contra hne
      unfold floydEdge noEdges at h2
      rw [if_neg hne] at h2
      exact lt_irrefl _ h2
    subst huv
    exact ih u h3

theorem zeroEdgeGraph_zeroDiag : ZeroDiag 2 zeroEdgeGraph := by
  intro i _
  simp [zeroEdgeGraph]

theorem zeroEdgeGraph_nonNeg : NonNegWeights 2 zeroEdgeGraph := by
  intro i j hi hj hij
  interval_cases i <;> interval_cases j <;> first | exact absurd rfl hij | decide

theorem noEdges_unreachable (n i j : Nat) (hij : i ≠ j) :
    ¬ ∃ p, IsWalk n (floydEdge noEdges) i p ∧ walkEnd i p = j := by
  rintro ⟨p, hp, hend⟩
  exact hij ((noEdges_walk_end n i p hp).symm.trans hend)

/-! ## Walks without repeated vertices -/

theorem IsWalk_of_append (n : Nat) (E : Nat → Nat → Prop) (u : Nat) (a b : List Nat)
    (h : IsWalk n E u (a ++ b)) : IsWalk n E (walkEnd u a) b := by
  induction a generalizing u with
  | nil => simpa [walkEnd] using h
  | cons v a ih =>
    obtain ⟨_, _, h3⟩ := h
    exact ih v h3

/-- On non-negative weights every walk can be cut down to a walk between the same
vertices that repeats no vertex and weighs no more. -/
theorem exists_simple_walk (n : Nat) (W : IntMatrix) (hW : InRange n W)
    (E : Nat → Nat → Prop) (u : Nat) (hu : u < n) (p : List Nat) (hp : IsWalk n E u p) :
    ∃ q, IsWalk n E u q ∧ walkEnd u q = walkEnd u p ∧
      walkWeight W u q ≤ walkWeight W u p ∧ (u :: q).Nodup := by
  induction p generalizing u with
  | nil => exact ⟨[], trivial, rfl, le_refl _, by simp⟩
  | cons v p ih =>
    obtain ⟨hv, hE, hp1⟩ := hp
    obtain ⟨q, hq1, hq2, hq3, hq4⟩ := ih v hv hp1
    have hwalk : IsWalk n E u (v :: q) := ⟨hv, hE, hq1⟩
    have hw0 := (hW u v hu hv).1
    by_cases hmem : u ∈ v :: q
    · obtain ⟨b, c, hbc, _⟩ := List.eq_append_cons_of_mem hmem
      have hsplit : v :: q = (b ++ [u]) ++ c := by rw [hbc]; simp
      have hend : walkEnd u (b ++ [u]) = u := walkEnd_concat u b u
      refine ⟨c, ?_, ?_, ?_, ?_⟩
      · have := IsWalk_of_append n E u (b ++ [u]) c (hsplit ▸ hwalk)
        rwa [hend] at this
      · have h1 : walkEnd u (v :: q) = walkEnd u c := by
          rw [hsplit, walkEnd_append, hend]
        rw [← h1]
        exact hq2
      · have h1 : walkWeight W u (v :: q) = walkWeight W u (b ++ [u]) + walkWeight W u c := by
          rw [hsplit, walkWeight_append, hend]
        have h2 : 0 ≤ walkWeight W u (b ++ [u]) := by
          apply walkWeight_nonneg_of_mem n W hW u _ hu
          intro x hx
          apply IsWalk_mem_lt n E u (v :: q) hwalk x
          rw [hsplit]
          exact List.mem_append_left _ hx
        have h3 : walkWeight W u (v :: q) = W u v + walkWeight W v q := rfl
        have h4 : walkWeight W u (v :: p) = W u v + walkWeight W v p := rfl
        omega
      · rw [hbc] at hq4
        exact (List.nodup_append.1 hq4).2.1
    · exact ⟨v :: q, hwalk, hq2, by simp only [walkWeight]; omega, List.nodup_cons.2 ⟨hmem, hq4⟩⟩

theorem IsCappedDistance_simple (n : Nat) (W : IntMatrix) (hW : InRange n W)
    (E : Nat → Nat → Prop) (i j : Nat) (hi : i < n) (d : Int)
    (hd : IsCappedDistance n W E i j d) (hlt : d < INF) :
    ∃ p, IsWalk n E i p ∧ walkEnd i p = j ∧ walkWeight W i p = d ∧ (i :: p).Nodup := by
  obtain ⟨_, h2, h3⟩ := hd
  obtain ⟨p, hp1, hp2, hp3⟩ := h3 hlt
  obtain ⟨q, hq1, hq2, hq3, hq4⟩ := exists_simple_walk n W hW E i hi p hp1
  have := h2 q hq1 (hq2.trans hp2)
  exact ⟨q, hq1, hq2.trans hp2, by omega, hq4⟩

theorem zeroEdgeGraph_inRange : InRange 2 zeroEdgeGraph := by
  intro i j _ _
  have hI := INF_eq
  unfold zeroEdgeGraph
  split_ifs <;> omega

/-- The distance `INF` from `0` to `1` on `zeroEdgeGraph` does not depend on the
priority queue. -/
theorem zeroEdgeGraph_dijkstra (P : PriorityQueue) (hP : P.Lawful) :
    ∃ cost, dijkstra P 2 zeroEdgeGraph 0 = some cost ∧ cost 1 = INF := by
  obtain ⟨c, d, hc, hd, h⟩ := dijkstra_queue_independent P listQueue hP listQueue_lawful
    2 zeroEdgeGraph zeroEdgeGraph_inRange 0 (by decide)
  have hl : (dijkstra listQueue 2 zeroEdgeGraph 0).map (fun c => c 1) = some INF := by decide
  rw [hd] at hl
  simp only [Option.map_some', Option.some.injEq] at hl
  exact ⟨c, hc, by rw [h 1 (by decide)]; exact hl⟩

/-! ## dijkstra: reachable states -/

theorem dReach_termInv (P : PriorityQueue) (hP : P.Lawful) (n : Nat) (W : IntMatrix)
    (sv : Nat) (hsv : sv < n) (s : DState P) (hs : DReach P n W sv s) : TermInv P n W s := by
  induction hs with
  | init => exact termInv_init P hP n W sv hsv
  | step s top rest _ hpop ih => exact (visit_termInv P hP n W s top rest ih hpop).1

theorem dReach_dijInv (P : PriorityQueue) (hP : P.Lawful) (n : Nat) (W : IntMatrix)
    (hW : InRange n W) (sv : Nat) (hsv : sv < n) (s : DState P) (hs : DReach P n W sv s) :
    DijInv P n W sv s := by
  induction hs with
  | init => exact dijInv_init P hP n W sv hsv
  | step s top rest _ hpop ih => exact visit_dijInv P hP n W hW sv hsv s top rest ih hpop

theorem dijkstraLoop_reach (P : PriorityQueue) (n : Nat) (W : IntMatrix) (sv : Nat)
    (fuel : Nat) (s s1 : DState P) (hs : DReach P n W sv s)
    (h : dijkstraLoop P n W fuel s = some s1) : DReach P n W sv s1 :=
  (dijkstraLoop_inv P n W (DReach P n W sv)
    (fun s top rest h hpop => DReach.step s top rest h hpop) fuel s s1 hs h).1

theorem visit_visited_cost (P : PriorityQueue) (hP : P.Lawful) (n : Nat) (W : IntMatrix)
    (s : DState P) (top : Vertex) (rest : P.Q) (u : Nat)
    (hu : u ∈ top.vertex :: s.visited) : (visit P n W s top rest).cost u = s.cost u :=
  (relaxInv_loop P hP W (top.vertex :: s.visited) top.vertex (List.mem_cons_self _ _)
    s.cost rest n).visited_eq u hu

theorem visit_push_bound (P : PriorityQueue) (hP : P.Lawful) (n : Nat) (W : IntMatrix)
    (s : DState P) (top : Vertex) (rest : P.Q) (htop : top.vertex < n) :
    (P.contents (visit P n W s top rest).pq).length ≤ (P.contents rest).length + (n - 1) := by
  have h := (relaxInv_loop P hP W (top.vertex :: s.visited) top.vertex (List.mem_cons_self _ _)
    s.cost rest n).size
  rw [if_pos htop] at h
  exact h

theorem dijkstraPops_of_loop (P : PriorityQueue) (n : Nat) (W : IntMatrix) (fuel : Nat) :
    ∀ s s1 : DState P, dijkstraLoop P n W fuel s = some s1 →
      ∃ k, k ≤ fuel ∧ dijkstraPops P n W fuel s = some k := by
  induction fuel with
  | zero =>
    intro s s1 h
    cases hpop : P.pop s.pq with
    | none => exact ⟨0, le_refl _, by simp [dijkstraPops, hpop]⟩
    | some r => simp [dijkstraLoop, hpop] at h
  | succ fuel ih =>
    intro s s1 h
    cases hpop : P.pop s.pq with
    | none => exact ⟨0, Nat.zero_le _, by simp [dijkstraPops, hpop]⟩
    | some r =>
      obtain ⟨top, rest⟩ := r
      simp only [dijkstraLoop, hpop] at h
      obtain ⟨k, hk, hk1⟩ := ih _ s1 h
      exact ⟨k + 1, by omega, by simp [dijkstraPops, hpop, hk1]⟩

/-! ## dijkstra: the skipping variant -/

theorem relaxEdge_visited_congr (P : PriorityQueue) (W : IntMatrix) (vis vis1 : List Nat)
    (h : ∀ x, x ∈ vis ↔ x ∈ vis1) (cur : Nat) :
    relaxEdge P W vis cur = relaxEdge P W vis1 cur := by
  funext t adj
  unfold relaxEdge
  by_cases h1 : W cur adj ≠ 0 ∧ W cur adj ≠ INF
  · by_cases h2 : adj ∉ vis
    · have h3 : adj ∉ vis1 := fun hc => h2 ((h adj).2 hc)
      rw [if_pos h1, if_pos h1, if_pos h2, if_pos h3]
    · have h3 : ¬ adj ∉ vis1 := fun hc => h2 (fun hx => hc ((h adj).1 hx))
      rw [if_pos h1, if_pos h1, if_neg h2, if_neg h3]
  · rw [if_neg h1, if_neg h1]

theorem dijkstraLoopSkip_eq (P : PriorityQueue) (hP : P.Lawful) (n : Nat) (W : IntMatrix)
    (fuel : Nat) : ∀ s t : DState P, TermInv P n W s → s.cost = t.cost → s.pq = t.pq →
      (∀ x, x ∈ s.visited ↔ x ∈ t.visited) →
      (dijkstraLoopSkip P n W fuel t).map (fun r => r.cost) =
        (dijkstraLoop P n W fuel s).map (fun r => r.cost) := by
  induction fuel with
  | zero =>
    intro s t _ hc hq _
    simp only [dijkstraLoop, dijkstraLoopSkip, ← hq]
    cases P.pop s.pq with
    | none => simp [hc]
    | some r => rfl
  | succ fuel ih =>
    intro s t hT hc hq hv
    simp only [dijkstraLoop, dijkstraLoopSkip, ← hq]
    cases hpop : P.pop s.pq with
    | none => simp [hc]
    | some r =>
      obtain ⟨top, rest⟩ := r
      simp only
      have hT1 := (visit_termInv P hP n W s top rest hT hpop).1
      by_cases hst : top.vertex ∈ s.visited
      · rw [if_pos ((hv _).1 hst)]
        apply ih _ _ hT1
        · rw [visit_stale P n W s top rest hT hst]; exact hc
        · rw [visit_stale P n W s top rest hT hst]
        · rw [visit_stale P n W s top rest hT hst]
          intro x
          simp only [List.mem_cons]
          constructor
          · rintro (rfl | hx)
            · exact (hv _).1 hst
            · exact (hv x).1 hx
          · intro hx; exact Or.inr ((hv x).2 hx)
      · rw [if_neg (fun hc1 => hst ((hv _).2 hc1))]
        have hvis : ∀ x, x ∈ top.vertex :: s.visited ↔ x ∈ top.vertex :: t.visited := by
          intro x; simp only [List.mem_cons, hv x]
        apply ih _ _ hT1
        · simp only [visit]
          rw [relaxEdge_visited_congr P W _ _ hvis, hc]
        · simp only [visit]
          rw [relaxEdge_visited_congr P W _ _ hvis, hc]
        · intro x
          simp only [visit]
          exact hvis x

theorem dijkstraSkip_eq (P : PriorityQueue) (hP : P.Lawful) (n : Nat) (W : IntMatrix)
    (sv : Nat) (hsv : sv < n) : dijkstraSkip P n W sv = dijkstra P n W sv := by
  unfold dijkstraSkip dijkstra
  exact dijkstraLoopSkip_eq P hP n W _ _ _ (termInv_init P hP n W sv hsv) rfl rfl
    (fun _ => Iff.rfl)

theorem relaxPrefix_bounds (P : PriorityQueue) (hP : P.Lawful) (n : Nat) (W : IntMatrix)
    (hW : InRange n W) (sv : Nat) (s : DState P) (hI : DijInv P n W sv s)
    (top : Vertex) (rest : P.Q) (hpop : P.pop s.pq = some (top, rest)) (adj : Nat)
    (hadj : adj < n) :
    top.vertex < n ∧ s.cost top.vertex < INF ∧
    (∀ v, v < n → 0 ≤ (relaxPrefix P W s top rest adj).1 v ∧
      (relaxPrefix P W s top rest adj).1 v ≤ INF) ∧
    (dijkstraEdge W top.vertex adj →
      0 ≤ (relaxPrefix P W s top rest adj).1 top.vertex + W top.vertex adj ∧
      (relaxPrefix P W s top rest adj).1 top.vertex + W top.vertex adj ≤ 2 * INF - 2 ∧
      wrap32 ((relaxPrefix P W s top rest adj).1 top.vertex + W top.vertex adj) =
        (relaxPrefix P W s top rest adj).1 top.vertex + W top.vertex adj) := by
  have htopmem : top ∈ P.contents s.pq := (pop_mem P hP s.pq top rest hpop top).2 (Or.inl rfl)
  have hcurn : top.vertex < n := hI.vertex_lt top htopmem
  have hentry := hI.entry top htopmem
  have hcr := hI.range top.vertex hcurn
  have hclt : s.cost top.vertex < INF := lt_of_le_of_lt hentry.1 hentry.2
  have hR := relaxInv_loop P hP W (top.vertex :: s.visited) top.vertex
    (List.mem_cons_self _ _) s.cost rest adj
  have hcur : (relaxPrefix P W s top rest adj).1 top.vertex = s.cost top.vertex :=
    hR.visited_eq top.vertex (List.mem_cons_self _ _)
  have hI0 := INF_eq
  refine ⟨hcurn, hclt, ?_, ?_⟩
  · intro v hv
    have hold := hI.range v hv
    have hle : (relaxPrefix P W s top rest adj).1 v ≤ s.cost v := hR.le v
    by_cases hc : (relaxPrefix P W s top rest adj).1 v = s.cost v
    · rw [hc]; exact hold
    · obtain ⟨_, _, _, h4, _⟩ := hR.changed v hc
      rw [wrap32_cost_add n W hW _ top.vertex v hcurn hv hcr.1 hcr.2] at h4
      have := (hW top.vertex v hcurn hv).1
      have h5 : (relaxPrefix P W s top rest adj).1 v = s.cost top.vertex + W top.vertex v := h4
      constructor <;> omega
  · intro hE
    rw [hcur]
    have hw := hW top.vertex adj hcurn hadj
    have hne : W top.vertex adj ≠ INF := hE.2
    refine ⟨by omega, by omega, wrap32_of_range _ (by omega) (by omega)⟩

theorem longPathGraph_zeroDiag : ZeroDiag 3 longPathGraph := by
  intro i _
  simp [longPathGraph]

theorem longPathGraph_positive : PositiveWeights 3 longPathGraph := by
  intro i j hi hj hij
  interval_cases i <;> interval_cases j <;> first | exact absurd rfl hij | decide

set_option maxRecDepth 100000 in
theorem longPathGraph_values :
    floyd 3 longPathGraph 0 2 = INF ∧
    (dijkstra listQueue 3 longPathGraph 0).map (fun c => c 2) = some INF := by decide

/-! ## floyd: idempotence -/

theorem foldl_floydStep_preserves (n : Nat) (I : IntMatrix → Prop)
    (hstep : ∀ w i j k, i < n → j < n → k < n → InRange n w → I w → I (floydRelax i j w k))
    (l : List (Nat × Nat × Nat)) (hl : ∀ s ∈ l, s.1 < n ∧ s.2.1 < n ∧ s.2.2 < n) :
    ∀ w, InRange n w → I w → I (l.foldl floydStep w) := by
  induction l with
  | nil => intro w _ h; exact h
  | cons s l ih =>
    intro w hw h
    obtain ⟨h1, h2, h3⟩ := hl s (List.mem_cons_self _ _)
    simp only [List.foldl_cons]
    exact ih (fun t ht => hl t (List.mem_cons_of_mem _ ht)) _
      (floydRelax_inRange n w hw s.1 s.2.1 s.2.2 h1 h2 h3)
      (hstep w s.1 s.2.1 s.2.2 h1 h2 h3 hw h)

theorem floyd_preserves (n : Nat) (W : IntMatrix) (hW : InRange n W) (I : IntMatrix → Prop)
    (h0 : I (copyMatrix n W))
    (hstep : ∀ w i j k, i < n → j < n → k < n → InRange n w → I w → I (floydRelax i j w k)) :
    I (floyd n W) := by
  rw [floyd_eq_steps]
  exact foldl_floydStep_preserves n I hstep (floydSteps n) (mem_floydSteps n) _
    (copyMatrix_inRange n W hW) h0

theorem floyd_realizedSteps (n : Nat) (W : IntMatrix) (hW : InRange n W) :
    RealizedSteps n W (floyd n W) := by
  apply floyd_preserves n W hW (RealizedSteps n W)
  · intro a b ha hb hlt
    rw [copyMatrix_apply n W a b ha hb] at hlt ⊢
    exact ⟨[], by simp, by simp [walkWeight]⟩
  · intro w i j k hi hj hk hw hr a b ha hb
    rw [floydRelax_apply n w hw i j k hi hj hk]
    split_ifs with h
    · obtain ⟨rfl, rfl⟩ := h
      intro hlt
      have h1 := hw a i ha hi
      have h2 := hw i b hi hb
      rcases le_total (w a b) (w a i + w i b) with hle | hle
      · rw [min_eq_left hle] at hlt ⊢
        exact hr a b ha hb hlt
      · rw [min_eq_right hle] at hlt ⊢
        obtain ⟨p, hp1, hp2⟩ := hr a i ha hi (by omega)
        obtain ⟨q, hq1, hq2⟩ := hr i b hi hb (by omega)
        refine ⟨p ++ i :: q, ?_, ?_⟩
        · intro v hv
          rcases List.mem_append.1 hv with hv | hv
          · exact hp1 v hv
          · rcases List.mem_cons.1 hv with rfl | hv
            · exact hi
            · exact hq1 v hv
        · have hsplit : (p ++ i :: q) ++ [b] = (p ++ [i]) ++ (q ++ [b]) := by simp
          rw [hsplit, walkWeight_append, walkEnd_concat, hp2, hq2]
    · exact hr a b ha hb

theorem floyd_outside (n : Nat) (W : IntMatrix) (hW : InRange n W) (a b : Nat)
    (h : ¬ (a < n ∧ b < n)) : floyd n W a b = 0 := by
  apply floyd_preserves n W hW (fun w => w a b = 0)
  · rw [copyMatrix_spec, if_neg h]
  · intro w i j k _ hj hk _ hw
    have hne : ¬ (a = j ∧ b = k) := by
      rintro ⟨rfl, rfl⟩
      exact h ⟨hj, hk⟩
    unfold floydRelax setEntry
    rw [if_neg hne]
    exact hw

/-- The triangle inequality of the result of `floyd`, zero diagonal or not. -/
theorem floyd_triangle_general (n : Nat) (W : IntMatrix) (hW : InRange n W)
    (i j k : Nat) (hi : i < n) (hj : j < n) (hk : k < n) :
    floyd n W j k ≤ floyd n W j i + floyd n W i k := by
  obtain ⟨hR, _, _, hC⟩ := floyd_main n W hW
  have hreal := floyd_realizedSteps n W hW
  have hjk := hR j k hj hk
  have hji := hR j i hj hi
  have hik := hR i k hi hk
  by_cases h1 : floyd n W j i < INF
  · by_cases h2 : floyd n W i k < INF
    · obtain ⟨p, hp1, hp2⟩ := hreal j i hj hi h1
      obtain ⟨q, hq1, hq2⟩ := hreal i k hi hk h2
      have hmem : ∀ v ∈ p ++ i :: q, v < n := by
        intro v hv
        rcases List.mem_append.1 hv with hv | hv
        · exact hp1 v hv
        · rcases List.mem_cons.1 hv with rfl | hv
          · exact hi
          · exact hq1 v hv
      have := hC j k hj hk (p ++ i :: q) hmem
      have hsplit : (p ++ i :: q) ++ [k] = (p ++ [i]) ++ (q ++ [k]) := by simp
      rw [hsplit, walkWeight_append, walkEnd_concat, hp2, hq2] at this
      exact this
    · omega
  · omega

theorem floydRelax_noop (n : Nat) (w : IntMatrix) (hw : InRange n w) (i j k : Nat)
    (hi : i < n) (hj : j < n) (hk : k < n) (h : w j k ≤ w j i + w i k) :
    floydRelax i j w k = w := by
  funext a b
  rw [floydRelax_apply n w hw i j k hi hj hk]
  split_ifs with hab
  · obtain ⟨rfl, rfl⟩ := hab
    exact min_eq_left h
  · rfl

theorem foldl_floydStep_noop (n : Nat) (w : IntMatrix) (hw : InRange n w)
    (htri : ∀ i j k, i < n → j < n → k < n → w j k ≤ w j i + w i k)
    (l : List (Nat × Nat × Nat)) (hl : ∀ s ∈ l, s.1 < n ∧ s.2.1 < n ∧ s.2.2 < n) :
    l.foldl floydStep w = w := by
  induction l with
  | nil => rfl
  | cons s l ih =>
    obtain ⟨h1, h2, h3⟩ := hl s (List.mem_cons_self _ _)
    simp only [List.foldl_cons]
    have : floydStep w s = w :=
      floydRelax_noop n w hw s.1 s.2.1 s.2.2 h1 h2 h3 (htri s.1 s.2.1 s.2.2 h1 h2 h3)
    rw [this]
    exact ih (fun t ht => hl t (List.mem_cons_of_mem _ ht))

theorem floyd_idempotent_aux (n : Nat) (W : IntMatrix) (hW : InRange n W) :
    floyd n (floyd n W) = floyd n W := by
  have hR := (floyd_main n W hW).1
  have hcopy : copyMatrix n (floyd n W) = floyd n W := by
    funext a b
    rw [copyMatrix_spec]
    split_ifs with h
    · rfl
    · exact (floyd_outside n W hW a b h).symm
  rw [floyd_eq_steps n (floyd n W)]
  unfold floydAfter
  rw [hcopy]
  exact foldl_floydStep_noop n (floyd n W) hR
    (fun i j k hi hj hk => floyd_triangle_general n W hW i j k hi hj hk)
    (floydSteps n) (mem_floydSteps n)

theorem allFive_inRange (n : Nat) : InRange n allFive := by
  intro i j _ _
  have hI := INF_eq
  unfold allFive
  omega

/-! ## readAdjMatrix: the initial matrix and the records -/

theorem initRow_spec (n : Nat) (W : IntMatrix) (i a b : Nat) :
    initRow n W i a b = if a = i ∧ b < n then (if i = b then 0 else INF) else W a b := by
  unfold initRow
  refine foldl_range_inv (fun W j => setEntry W i j (if i = j then 0 else INF))
    (fun m t => t a b = if a = i ∧ b < m then (if i = b then 0 else INF) else W a b)
    n W (by simp) ?_
  intro k t _ ht
  simp only [setEntry]
  by_cases h : a = i ∧ b = k
  · obtain ⟨rfl, rfl⟩ := h; simp
  · rw [if_neg h, ht]
    by_cases ha : a = i
    · subst ha
      have hb : b ≠ k := fun hb => h ⟨rfl, hb⟩
      have : (b < k + 1) ↔ b < k := by omega
      simp [this]
    · simp [ha]

theorem initMatrix_spec (n : Nat) (a b : Nat) :
    initMatrix n a b = if a < n ∧ b < n then (if a = b then 0 else INF) else 0 := by
  unfold initMatrix
  refine foldl_range_inv (initRow n)
    (fun m t => t a b = if a < m ∧ b < n then (if a = b then 0 else INF) else 0)
    n freshMatrix (by simp [freshMatrix]) ?_
  intro k t _ ht
  rw [initRow_spec, ht]
  by_cases ha : a = k
  · subst ha
    by_cases hb : b < n <;> simp [hb]
  · have : (a < k + 1) ↔ a < k := by omega
    simp [ha, this]

theorem initMatrix_apply (n : Nat) (a b : Nat) (ha : a < n) (hb : b < n) :
    initMatrix n a b = if a = b then 0 else INF := by
  rw [initMatrix_spec, if_pos ⟨ha, hb⟩]

theorem applyRecords_append (recs : List (Nat × Nat × Int)) (r : Nat × Nat × Int)
    (W : IntMatrix) :
    applyRecords (recs ++ [r]) W = setEntry (applyRecords recs W) r.1 r.2.1 r.2.2 := by
  unfold applyRecords
  rw [List.foldl_append]
  rfl

theorem lastWeight_append (recs : List (Nat × Nat × Int)) (r : Nat × Nat × Int) (i j : Nat) :
    lastWeight (recs ++ [r]) i j =
      if r.1 = i ∧ r.2.1 = j then some r.2.2 else lastWeight recs i j := by
  unfold lastWeight
  rw [List.reverse_append]
  simp only [List.reverse_cons, List.reverse_nil, List.nil_append, List.singleton_append,
    List.find?_cons]
  by_cases h : r.1 = i ∧ r.2.1 = j
  · simp [h]
  · simp [h]

/-- After the assignments of a list of records an entry holds the weight of the
last record for it, and its former value when there is none. -/
theorem applyRecords_last (recs : List (Nat × Nat × Int)) (W : IntMatrix) (i j : Nat) :
    applyRecords recs W i j = (lastWeight recs i j).getD (W i j) := by
  induction recs using List.reverseRecOn with
  | nil => rfl
  | append_singleton recs r ih =>
    rw [applyRecords_append, lastWeight_append]
    unfold setEntry
    by_cases h : r.1 = i ∧ r.2.1 = j
    · rw [if_pos ⟨h.1.symm, h.2.symm⟩, if_pos h]
      rfl
    · have h1 : ¬ (i = r.1 ∧ j = r.2.1) := fun hc => h ⟨hc.1.symm, hc.2.symm⟩
      rw [if_neg h1, if_neg h]
      exact ih

theorem lastWeight_mem (recs : List (Nat × Nat × Int)) (i j : Nat) (w : Int)
    (h : lastWeight recs i j = some w) : (i, j, w) ∈ recs := by
  unfold lastWeight at h
  rw [Option.map_eq_some'] at h
  obtain ⟨r, hr, hw⟩ := h
  have hmem := List.mem_of_find?_eq_some hr
  have hp := List.find?_some hr
  simp only [decide_eq_true_eq] at hp
  obtain ⟨r1, r2, r3⟩ := r
  simp only at hp hw
  obtain ⟨rfl, rfl⟩ := hp
  subst hw
  exact List.mem_reverse.1 hmem

/-! ## readAdjMatrix: the line parser -/

theorem findSpace_lt (line : List Char) (p : Nat) (h : findSpace line = some p) :
    p < line.length := by
  induction line generalizing p with
  | nil => simp [findSpace] at h
  | cons c cs ih =>
    simp only [findSpace] at h
    split_ifs at h with hc
    · simp only [Option.some.injEq] at h
      subst h
      simp
    · rw [Option.map_eq_some'] at h
      obtain ⟨q, hq, rfl⟩ := h
      have := ih q hq
      simp only [List.length_cons]
      omega

theorem eraseTo_length_le (line : List Char) : (eraseTo line).length ≤ line.length := by
  unfold eraseTo
  cases h : findSpace line with
  | none => exact le_refl _
  | some p => simp only [List.length_drop]; omega

theorem eraseTo_length_lt (line : List Char) (p : Nat) (h : findSpace line = some p) :
    (eraseTo line).length < line.length := by
  have := findSpace_lt line p h
  unfold eraseTo
  rw [h]
  simp only [List.length_drop]
  omega

theorem assign_cases (n : Nat) (st : LoadState) (current neighbor weight : Int) :
    (0 ≤ current ∧ current < n ∧ 0 ≤ neighbor ∧ neighbor < n ∧
      assign n st current neighbor weight =
        Run.ok ⟨setEntry st.W current.toNat neighbor.toNat weight,
          st.records ++ [(current.toNat, neighbor.toNat, weight)]⟩) ∨
    assign n st current neighbor weight = Run.outOfBounds := by
  unfold assign
  by_cases h : 0 ≤ current ∧ current < n ∧ 0 ≤ neighbor ∧ neighbor < n
  · left
    rw [if_pos h]
    exact ⟨h.1, h.2.1, h.2.2.1, h.2.2.2, rfl⟩
  · right
    rw [if_neg h]

/-- The loop of lines 108-114 ends within as many iterations as the line has
characters. -/
theorem parsePairs_fuel (n : Nat) (current : Int) (fuel : Nat) :
    ∀ (line : List Char) (st : LoadState), line.length ≤ fuel →
      (parsePairs n current fuel line st).outcome ≠ Outcome.outOfFuel := by
  induction fuel with
  | zero =>
    intro line st hlen
    have : line = [] := List.length_eq_zero.1 (Nat.le_zero.1 hlen)
    subst this
    simp [parsePairs, findSpace, Run.outcome]
  | succ fuel ih =>
    intro line st hlen
    simp only [parsePairs]
    cases hfs : findSpace line with
    | none => simp [Run.outcome]
    | some p =>
      simp only
      cases h1 : stoi (substrTo line) with
      | none => simp [Run.outcome]
      | some nb =>
        simp only
        cases h2 : stoi (substrTo (eraseTo line)) with
        | none => simp [Run.outcome]
        | some w =>
          simp only
          rcases assign_cases n st current nb w with ⟨_, _, _, _, h3⟩ | h3
          · rw [h3]
            simp only
            apply ih
            have := eraseTo_length_lt line p hfs
            have := eraseTo_length_le (eraseTo line)
            omega
          · rw [h3]
            simp [Run.outcome]

theorem parsePairs_ok_inv (n : Nat) (I : LoadState → Prop)
    (hassign : ∀ st cur nb w st1, I st → assign n st cur nb w = Run.ok st1 → I st1)
    (current : Int) (fuel : Nat) :
    ∀ (line : List Char) (st st1 : LoadState), I st →
      parsePairs n current fuel line st = Run.ok st1 → I st1 := by
  induction fuel with
  | zero =>
    intro line st st1 hI h
    simp only [parsePairs] at h
    cases hfs : findSpace line with
    | none =>
      rw [hfs] at h
      simp only [Run.ok.injEq] at h
      exact h ▸ hI
    | some p =>
      rw [hfs] at h
      simp at h
  | succ fuel ih =>
    intro line st st1 hI h
    simp only [parsePairs] at h
    cases hfs : findSpace line with
    | none =>
      rw [hfs] at h
      simp only [Run.ok.injEq] at h
      exact h ▸ hI
    | some p =>
      rw [hfs] at h
      simp only at h
      cases h1 : stoi (substrTo line) with
      | none => rw [h1] at h; simp at h
      | some nb =>
        rw [h1] at h
        simp only at h
        cases h2 : stoi (substrTo (eraseTo line)) with
        | none => rw [h2] at h; simp at h
        | some w =>
          rw [h2] at h
          simp only at h
          rcases assign_cases n st current nb w with ⟨_, _, _, _, h3⟩ | h3
          · rw [h3] at h
            simp only at h
            exact ih _ _ st1 (hassign st current nb w _ hI h3) h
          · rw [h3] at h
            simp at h

theorem parseLine_ok_inv (n : Nat) (I : LoadState → Prop)
    (hassign : ∀ st cur nb w st1, I st → assign n st cur nb w = Run.ok st1 → I st1)
    (line : List Char) (st st1 : LoadState) (hI : I st)
    (h : parseLine n line st = Run.ok st1) : I st1 := by
  unfold parseLine at h
  cases h1 : stoi (substrTo line) with
  | none => rw [h1] at h; simp at h
  | some cur =>
    rw [h1] at h
    exact parsePairs_ok_inv n I hassign cur _ _ st st1 hI h

theorem readLines_ok_inv (n : Nat) (I : LoadState → Prop)
    (hassign : ∀ st cur nb w st1, I st → assign n st cur nb w = Run.ok st1 → I st1)
    (lines : List (List Char)) :
    ∀ (st st1 : LoadState), I st → readLines n lines st = Run.ok st1 → I st1 := by
  induction lines with
  | nil =>
    intro st st1 hI h
    simp only [readLines, Run.ok.injEq] at h
    exact h ▸ hI
  | cons line rest ih =>
    intro st st1 hI h
    simp only [readLines] at h
    cases h1 : parseLine n line st with
    | ok st2 =>
      rw [h1] at h
      exact ih st2 st1 (parseLine_ok_inv n I hassign line st st2 hI h1) h
    | raised => rw [h1] at h; simp at h
    | outOfBounds => rw [h1] at h; simp at h
    | outOfFuel => rw [h1] at h; simp at h

theorem assign_loadInv (n : Nat) (st : LoadState) (cur nb w : Int) (st1 : LoadState)
    (hI : LoadInv n st) (h : assign n st cur nb w = Run.ok st1) : LoadInv n st1 := by
  rcases assign_cases n st cur nb w with ⟨h1, h2, h3, h4, h5⟩ | h5
  · rw [h5] at h
    simp only [Run.ok.injEq] at h
    subst h
    refine ⟨?_, ?_⟩
    · simp only
      rw [applyRecords_append, ← hI.1]
    · intro r hr
      simp only [List.mem_append, List.mem_singleton] at hr
      rcases hr with hr | rfl
      · exact hI.2 r hr
      · simp only
        omega
  · rw [h5] at h
    simp at h

/-- A run of `readAdjMatrix` that ends normally returns the initial matrix of its
`num_verts` with the recorded assignments applied, all of them inside the matrix. -/
theorem readAdjMatrix_ok (file : Option (List (List Char))) (L : Loaded)
    (h : readAdjMatrix file = Run.ok L) :
    L.W = applyRecords L.records (initMatrix L.numVerts) ∧
    ∀ r ∈ L.records, r.1 < L.numVerts ∧ r.2.1 < L.numVerts := by
  unfold readAdjMatrix at h
  cases file with
  | none =>
    simp only [Run.ok.injEq] at h
    subst h
    exact ⟨rfl, by simp⟩
  | some lines =>
    simp only at h
    cases h1 : stoi (lines.headD []) with
    | none => rw [h1] at h; simp at h
    | some nv =>
      rw [h1] at h
      simp only at h
      by_cases hneg : nv < 0
      · rw [if_pos hneg] at h; simp at h
      · rw [if_neg hneg] at h
        cases h2 : readLines nv.toNat lines.tail ⟨initMatrix nv.toNat, []⟩ with
        | ok st =>
          rw [h2] at h
          simp only [Run.ok.injEq] at h
          subst h
          have hinit : LoadInv nv.toNat ⟨initMatrix nv.toNat, []⟩ := ⟨rfl, by simp⟩
          exact readLines_ok_inv nv.toNat (LoadInv nv.toNat) (assign_loadInv nv.toNat)
            lines.tail _ st hinit h2
        | raised => rw [h2] at h; simp at h
        | outOfBounds => rw [h2] at h; simp at h
        | outOfFuel => rw [h2] at h; simp at h

/-! ## readAdjMatrix: lines of tokens -/

theorem findSpace_token (t rest : List Char) (ht : spaceChar ∉ t) :
    findSpace (t ++ spaceChar :: rest) = some t.length := by
  induction t with
  | nil => simp [findSpace]
  | cons c cs ih =>
    have hc : c ≠ spaceChar := fun h => ht (h ▸ List.mem_cons_self _ _)
    have hcs : spaceChar ∉ cs := fun h => ht (List.mem_cons_of_mem _ h)
    show findSpace (c :: (cs ++ spaceChar :: rest)) = some (cs.length + 1)
    rw [findSpace, if_neg hc, ih hcs]
    rfl

theorem findSpace_none (t : List Char) (ht : spaceChar ∉ t) : findSpace t = none := by
  induction t with
  | nil => rfl
  | cons c cs ih =>
    have hc : c ≠ spaceChar := fun h => ht (h ▸ List.mem_cons_self _ _)
    have hcs : spaceChar ∉ cs := fun h => ht (List.mem_cons_of_mem _ h)
    simp only [findSpace, if_neg hc, ih hcs, Option.map_none']

theorem substrTo_token (t rest : List Char) (ht : spaceChar ∉ t) :
    substrTo (t ++ spaceChar :: rest) = t := by
  unfold substrTo
  rw [findSpace_token t rest ht]
  simp

theorem eraseTo_token (t rest : List Char) (ht : spaceChar ∉ t) :
    eraseTo (t ++ spaceChar :: rest) = rest := by
  unfold eraseTo
  rw [findSpace_token t rest ht]
  simp

theorem joinTokens_cons (t : List Char) (l : List (List Char)) (hl : l ≠ []) :
    joinTokens (t :: l) = t ++ spaceChar :: joinTokens l := by
  cases l with
  | nil => exact absurd rfl hl
  | cons u ts => rfl

theorem pairTokens_cons (p : (List Char × Int) × (List Char × Int))
    (ps : List ((List Char × Int) × (List Char × Int))) (l : List (List Char)) :
    pairTokens (p :: ps) ++ l = p.1.1 :: p.2.1 :: (pairTokens ps ++ l) := by
  simp [pairTokens]

theorem applyRecords_cons (r : Nat × Nat × Int) (recs : List (Nat × Nat × Int))
    (W : IntMatrix) :
    applyRecords (r :: recs) W = applyRecords recs (setEntry W r.1 r.2.1 r.2.2) := rfl

theorem parsePairs_no_space (n : Nat) (current : Int) (fuel : Nat) (line : List Char)
    (st : LoadState) (h : findSpace line = none) :
    parsePairs n current fuel line st = Run.ok st := by
  cases fuel <;> simp [parsePairs, h]

theorem parsePairs_step (n : Nat) (current : Int) (fuel : Nat) (a b rest : List Char)
    (nb w : Int) (st : LoadState) (ha : IsIntToken a nb) (hb : IsIntToken b w)
    (hc0 : 0 ≤ current) (hc1 : current < n) (hn0 : 0 ≤ nb) (hn1 : nb < n) :
    parsePairs n current (fuel + 1) (a ++ spaceChar :: (b ++ spaceChar :: rest)) st =
      parsePairs n current fuel rest
        ⟨setEntry st.W current.toNat nb.toNat w,
          st.records ++ [(current.toNat, nb.toNat, w)]⟩ := by
  have h1 : findSpace (a ++ spaceChar :: (b ++ spaceChar :: rest)) = some a.length :=
    findSpace_token a _ ha.1
  have h2 : substrTo (a ++ spaceChar :: (b ++ spaceChar :: rest)) = a :=
    substrTo_token a _ ha.1
  have h3 : eraseTo (a ++ spaceChar :: (b ++ spaceChar :: rest)) = b ++ spaceChar :: rest :=
    eraseTo_token a _ ha.1
  have h4 : substrTo (b ++ spaceChar :: rest) = b := substrTo_token b _ hb.1
  have h5 : eraseTo (b ++ spaceChar :: rest) = rest := eraseTo_token b _ hb.1
  have h6 : assign n st current nb w = Run.ok ⟨setEntry st.W current.toNat nb.toNat w,
      st.records ++ [(current.toNat, nb.toNat, w)]⟩ := by
    unfold assign
    rw [if_pos ⟨hc0, hc1, hn0, hn1⟩]
  simp only [parsePairs, h1, h2, h3, h4, h5, ha.2, hb.2, h6]

/-- On a line of complete pairs followed by one more token, with no space after
it, the loop of lines 108-114 makes the assignments of the pairs in order and
leaves the last token unread. -/
theorem parsePairs_odd (n : Nat) (current : Int) (hc0 : 0 ≤ current) (hc1 : current < n)
    (last : List Char) (hlast : spaceChar ∉ last)
    (pairs : List ((List Char × Int) × (List Char × Int))) :
    (∀ p ∈ pairs, IsIntToken p.1.1 p.1.2 ∧ IsIntToken p.2.1 p.2.2 ∧ 0 ≤ p.1.2 ∧ p.1.2 < n) →
    ∀ (fuel : Nat) (st : LoadState),
      (joinTokens (pairTokens pairs ++ [last])).length ≤ fuel →
      parsePairs n current fuel (joinTokens (pairTokens pairs ++ [last])) st =
        Run.ok ⟨applyRecords (pairRecords current pairs) st.W,
          st.records ++ pairRecords current pairs⟩ := by
  induction pairs with
  | nil =>
    intro _ fuel st _
    have : joinTokens (pairTokens [] ++ [last]) = last := rfl
    rw [this, parsePairs_no_space n current fuel last st (findSpace_none last hlast)]
    simp [pairRecords, applyRecords]
  | cons p ps ih =>
    intro hps fuel st hlen
    obtain ⟨hp1, hp2, hp3, hp4⟩ := hps p (List.mem_cons_self _ _)
    have hline : joinTokens (pairTokens (p :: ps) ++ [last]) =
        p.1.1 ++ spaceChar :: (p.2.1 ++ spaceChar :: joinTokens (pairTokens ps ++ [last])) := by
      rw [pairTokens_cons, joinTokens_cons _ _ (by simp), joinTokens_cons _ _ (by simp)]
    rw [hline] at hlen ⊢
    cases fuel with
    | zero => simp at hlen
    | succ fuel =>
      rw [parsePairs_step n current fuel _ _ _ p.1.2 p.2.2 st hp1 hp2 hc0 hc1 hp3 hp4]
      rw [ih (fun q hq => hps q (List.mem_cons_of_mem _ hq)) fuel _
        (by simp only [List.length_append, List.length_cons] at hlen; omega)]
      simp [pairRecords, applyRecords_cons]

/-- With a space after the last token the loop reads it as a neighbor and then
calls `std::stoi` on the empty rest of the line, which throws. -/
theorem parsePairs_odd_trailing (n : Nat) (current : Int) (hc0 : 0 ≤ current)
    (hc1 : current < n) (last : List Char) (hlast : spaceChar ∉ last)
    (pairs : List ((List Char × Int) × (List Char × Int))) :
    (∀ p ∈ pairs, IsIntToken p.1.1 p.1.2 ∧ IsIntToken p.2.1 p.2.2 ∧ 0 ≤ p.1.2 ∧ p.1.2 < n) →
    ∀ (fuel : Nat) (st : LoadState),
      (joinTokens (pairTokens pairs ++ [last]) ++ [spaceChar]).length ≤ fuel →
      parsePairs n current fuel (joinTokens (pairTokens pairs ++ [last]) ++ [spaceChar]) st =
        Run.raised := by
  induction pairs with
  | nil =>
    intro _ fuel st hlen
    have hj : joinTokens (pairTokens [] ++ [last]) = last := rfl
    rw [hj] at hlen ⊢
    cases fuel with
    | zero => simp at hlen
    | succ fuel =>
      have h1 : findSpace (last ++ [spaceChar]) = some last.length :=
        findSpace_token last [] hlast
      have h2 : substrTo (last ++ [spaceChar]) = last := substrTo_token last [] hlast
      have h3 : eraseTo (last ++ [spaceChar]) = [] := eraseTo_token last [] hlast
      have h4 : stoi (substrTo []) = none := by decide
      simp only [parsePairs, h1, h2, h3, h4]
      cases stoi last <;> rfl
  | cons p ps ih =>
    intro hps fuel st hlen
    obtain ⟨hp1, hp2, hp3, hp4⟩ := hps p (List.mem_cons_self _ _)
    have hline : joinTokens (pairTokens (p :: ps) ++ [last]) ++ [spaceChar] =
        p.1.1 ++ spaceChar :: (p.2.1 ++ spaceChar ::
          (joinTokens (pairTokens ps ++ [last]) ++ [spaceChar])) := by
      rw [pairTokens_cons, joinTokens_cons _ _ (by simp), joinTokens_cons _ _ (by simp)]
      simp
    rw [hline] at hlen ⊢
    cases fuel with
    | zero => simp at hlen
    | succ fuel =>
      rw [parsePairs_step n current fuel _ _ _ p.1.2 p.2.2 st hp1 hp2 hc0 hc1 hp3 hp4]
      exact ih (fun q hq => hps q (List.mem_cons_of_mem _ hq)) fuel _
        (by simp only [List.length_append, List.length_cons] at hlen ⊢; omega)

theorem parseLine_odd (n : Nat) (st : LoadState) (srcTok : List Char) (src : Int)
    (hsrc : IsIntToken srcTok src) (hc0 : 0 ≤ src) (hc1 : src < n)
    (pairs : List ((List Char × Int) × (List Char × Int)))
    (hps : ∀ p ∈ pairs, IsIntToken p.1.1 p.1.2 ∧ IsIntToken p.2.1 p.2.2 ∧
      0 ≤ p.1.2 ∧ p.1.2 < n)
    (last : List Char) (hlast : spaceChar ∉ last) :
    parseLine n (joinTokens (srcTok :: (pairTokens pairs ++ [last]))) st =
      Run.ok ⟨applyRecords (pairRecords src pairs) st.W, st.records ++ pairRecords src pairs⟩ ∧
    parseLine n (joinTokens (srcTok :: (pairTokens pairs ++ [last])) ++ [spaceChar]) st =
      Run.raised := by
  have hline : joinTokens (srcTok :: (pairTokens pairs ++ [last])) =
      srcTok ++ spaceChar :: joinTokens (pairTokens pairs ++ [last]) :=
    joinTokens_cons _ _ (by simp)
  constructor
  · rw [hline]
    unfold parseLine
    rw [substrTo_token srcTok _ hsrc.1, hsrc.2, eraseTo_token srcTok _ hsrc.1]
    simp only
    exact parsePairs_odd n src hc0 hc1 last hlast pairs hps _ st
      (by simp only [List.length_append, List.length_cons]; omega)
  · rw [hline]
    unfold parseLine
    have happ : (srcTok ++ spaceChar :: joinTokens (pairTokens pairs ++ [last])) ++ [spaceChar] =
        srcTok ++ spaceChar :: (joinTokens (pairTokens pairs ++ [last]) ++ [spaceChar]) := by
      simp
    rw [happ, substrTo_token srcTok _ hsrc.1, hsrc.2, eraseTo_token srcTok _ hsrc.1]
    simp only
    exact parsePairs_odd_trailing n src hc0 hc1 last hlast pairs hps _ st
      (by simp only [List.length_append, List.length_cons]; omega)

/-! ## readAdjMatrix never exhausts the bound of its inner loop -/

theorem parseLine_fuel (n : Nat) (line : List Char) (st : LoadState) :
    (parseLine n line st).outcome ≠ Outcome.outOfFuel := by
  unfold parseLine
  cases stoi (substrTo line) with
  | none => simp [Run.outcome]
  | some cur => exact parsePairs_fuel n cur _ _ st (eraseTo_length_le line)

theorem readLines_fuel (n : Nat) (lines : List (List Char)) :
    ∀ st : LoadState, (readLines n lines st).outcome ≠ Outcome.outOfFuel := by
  induction lines with
  | nil => intro st; simp [readLines, Run.outcome]
  | cons line rest ih =>
    intro st
    simp only [readLines]
    have := parseLine_fuel n line st
    cases h : parseLine n line st with
    | ok st1 => exact ih st1
    | raised => simp [Run.outcome]
    | outOfBounds => simp [Run.outcome]
    | outOfFuel => rw [h] at this; simp [Run.outcome] at this

theorem readAdjMatrix_fuel (file : Option (List (List Char))) :
    (readAdjMatrix file).outcome ≠ Outcome.outOfFuel := by
  unfold readAdjMatrix
  cases file with
  | none => simp [Run.outcome]
  | some lines =>
    simp only
    cases stoi (lines.headD []) with
    | none => simp [Run.outcome]
    | some nv =>
      simp only
      by_cases hneg : nv < 0
      · rw [if_pos hneg]; simp [Run.outcome]
      · rw [if_neg hneg]
        have := readLines_fuel nv.toNat lines.tail ⟨initMatrix nv.toNat, []⟩
        cases h : readLines nv.toNat lines.tail ⟨initMatrix nv.toNat, []⟩ with
        | ok st => simp [Run.outcome]
        | raised => simp [Run.outcome]
        | outOfBounds => simp [Run.outcome]
        | outOfFuel => rw [h] at this; simp [Run.outcome] at this

/-! ## The comparison of the driver -/

theorem compareRow_eq (A B : IntMatrix) (i : Nat) (js : List Nat) (equal : Bool) :
    compareRow A B i js equal = (equal && js.all (fun j => decide (A i j = B i j))) := by
  induction js with
  | nil => simp [compareRow]
  | cons j js ih =>
    simp only [compareRow, List.all_cons]
    by_cases h : A i j = B i j
    · simp [h, ih]
    · simp [h]

theorem compareAll_eq (n : Nat) (A B : IntMatrix) :
    compareAll n A B =
      (List.range n).all (fun i => (List.range n).all (fun j => decide (A i j = B i j))) := by
  unfold compareAll
  have key : ∀ (l : List Nat) (b : Bool),
      l.foldl (fun equal i => compareRow A B i (List.range n) equal) b =
        (b && l.all (fun i => (List.range n).all (fun j => decide (A i j = B i j)))) := by
    intro l
    induction l with
    | nil => intro b; simp
    | cons i l ih =>
      intro b
      simp only [List.foldl_cons, List.all_cons]
      rw [ih, compareRow_eq, Bool.and_assoc]
  rw [key]
  simp

theorem compareAll_iff (n : Nat) (A B : IntMatrix) :
    compareAll n A B = true ↔ ∀ i j, i < n → j < n → A i j = B i j := by
  rw [compareAll_eq]
  simp only [List.all_eq_true, List.mem_range, decide_eq_true_eq]
  constructor
  · intro h i j hi hj; exact h i hi j hj
  · intro h i hi j hj; exact h i j hi hj

theorem Run.exists_of_outcome_ok {α : Type} (r : Run α) (h : r.outcome = Outcome.ok) :
    ∃ a, r = Run.ok a := by
  cases r with
  | ok a => exact ⟨a, rfl⟩
  | raised => simp [Run.outcome] at h
  | outOfBounds => simp [Run.outcome] at h
  | outOfFuel => simp [Run.outcome] at h

theorem report_equal_iff (b : Bool) : report b = "equal" ↔ b = true := by
  cases b
  · simp [report]
  · simp [report]

theorem report_different_iff (b : Bool) : report b = "different" ↔ b = false := by
  cases b
  · simp [report]
  · simp [report]

theorem twoVertexFile_loaded :
    ∃ L, readAdjMatrix twoVertexFile = Run.ok L ∧ L.numVerts = 2 ∧
      L.records = [(0, 1, 5), (1, 1, 0), (0, 1, 7)] := by
  obtain ⟨L, hL⟩ := Run.exists_of_outcome_ok (readAdjMatrix twoVertexFile) (by decide)
  have hv : (readAdjMatrix twoVertexFile).value.map (fun L => (L.numVerts, L.records)) =
      some (2, [(0, 1, 5), (1, 1, 0), (0, 1, 7)]) := by decide
  rw [hL] at hv
  simp only [Run.value, Option.map_some', Option.some.injEq, Prod.mk.injEq] at hv
  exact ⟨L, hL, hv.1, hv.2⟩

/-! ## readAdjMatrix: the loader against the records written in the file -/

theorem splitSpaces_no_space (line : List Char) (h : findSpace line = none) :
    splitSpaces line = [line] := by
  induction line with
  | nil => rfl
  | cons c cs ih =>
    simp only [findSpace] at h
    by_cases hc : c = spaceChar
    · rw [if_pos hc] at h; simp at h
    · rw [if_neg hc] at h
      have hcs : findSpace cs = none := by
        cases hf : findSpace cs with
        | none => rfl
        | some q => rw [hf] at h; simp at h
      simp only [splitSpaces, if_neg hc, ih hcs]

theorem splitSpaces_space (line : List Char) (p : Nat) (h : findSpace line = some p) :
    splitSpaces line = line.take p :: splitSpaces (line.drop (p + 1)) := by
  induction line generalizing p with
  | nil => simp [findSpace] at h
  | cons c cs ih =>
    simp only [findSpace] at h
    by_cases hc : c = spaceChar
    · rw [if_pos hc] at h
      simp only [Option.some.injEq] at h
      subst h
      simp [splitSpaces, hc]
    · rw [if_neg hc] at h
      rw [Option.map_eq_some'] at h
      obtain ⟨q, hq, rfl⟩ := h
      simp only [splitSpaces, if_neg hc, ih q hq, List.take_succ_cons, List.drop_succ_cons]

theorem substrTo_eq_head (line : List Char) : substrTo line = (splitSpaces line).headD [] := by
  unfold substrTo
  cases h : findSpace line with
  | none => rw [splitSpaces_no_space line h]; rfl
  | some p => rw [splitSpaces_space line p h]; rfl

theorem splitSpaces_eraseTo (line : List Char) (p : Nat) (h : findSpace line = some p) :
    splitSpaces (eraseTo line) = (splitSpaces line).tail := by
  unfold eraseTo
  rw [h, splitSpaces_space line p h]
  rfl

theorem splitSpaces_ne_nil (line : List Char) : splitSpaces line ≠ [] := by
  cases h : findSpace line with
  | none => rw [splitSpaces_no_space line h]; simp
  | some p => rw [splitSpaces_space line p h]; simp

theorem splitSpaces_head_tail (line : List Char) :
    splitSpaces line = (splitSpaces line).headD [] :: (splitSpaces line).tail := by
  cases h : splitSpaces line with
  | nil => exact absurd h (splitSpaces_ne_nil line)
  | cons f fs => rfl

theorem eraseTo_no_space (line : List Char) (h : findSpace line = none) : eraseTo line = line := by
  unfold eraseTo; rw [h]

/-- The loop of lines 108-114 does to the rest of a line what `evalPairs` does to
its pairs of fields. -/
theorem parsePairs_eq_evalPairs (n : Nat) (current : Int) (fuel : Nat) :
    ∀ (line : List Char) (st : LoadState), line.length ≤ fuel →
      parsePairs n current fuel line st = evalPairs n current (pairUp (splitSpaces line)) st := by
  induction fuel with
  | zero =>
    intro line st hlen
    have : line = [] := List.length_eq_zero.1 (Nat.le_zero.1 hlen)
    subst this
    rfl
  | succ fuel ih =>
    intro line st hlen
    cases h1 : findSpace line with
    | none =>
      rw [parsePairs_no_space n current _ line st h1, splitSpaces_no_space line h1]
      rfl
    | some p =>
      have hlt := eraseTo_length_lt line p h1
      have hs1 : splitSpaces line =
          substrTo line :: splitSpaces (eraseTo line) := by
        rw [splitSpaces_eraseTo line p h1, substrTo_eq_head]
        exact splitSpaces_head_tail line
      have hs2 : splitSpaces (eraseTo line) =
          substrTo (eraseTo line) :: (splitSpaces (eraseTo line)).tail := by
        rw [substrTo_eq_head]
        exact splitSpaces_head_tail _
      have hrec : ∀ st1 : LoadState,
          parsePairs n current fuel (eraseTo (eraseTo line)) st1 =
            evalPairs n current (pairUp (splitSpaces (eraseTo line)).tail) st1 := by
        intro st1
        cases h2 : findSpace (eraseTo line) with
        | none =>
          rw [eraseTo_no_space _ h2, parsePairs_no_space n current _ _ st1 h2,
            splitSpaces_no_space _ h2]
          rfl
        | some q =>
          have hlt2 := eraseTo_length_lt (eraseTo line) q h2
          rw [ih _ st1 (by omega), splitSpaces_eraseTo _ q h2]
      rw [hs1, hs2]
      simp only [parsePairs, h1, pairUp, evalPairs]
      cases stoi (substrTo line) with
      | none => rfl
      | some nb =>
        simp only
        cases stoi (substrTo (eraseTo line)) with
        | none => rfl
        | some w =>
          simp only
          unfold assign
          by_cases hr : 0 ≤ current ∧ current < n ∧ 0 ≤ nb ∧ nb < n
          · rw [if_pos hr, if_pos hr]
            exact hrec _
          · rw [if_neg hr, if_neg hr]

theorem parseLine_eq_evalPairs (n : Nat) (line : List Char) (st : LoadState) :
    parseLine n line st =
      match lineSource line with
      | none => Run.raised
      | some src => evalPairs n src (linePairs line) st := by
  unfold parseLine lineSource linePairs
  rw [← substrTo_eq_head]
  cases stoi (substrTo line) with
  | none => rfl
  | some src =>
    simp only
    cases h1 : findSpace line with
    | none =>
      rw [eraseTo_no_space line h1, parsePairs_no_space n src _ line st h1,
        splitSpaces_no_space line h1]
      rfl
    | some p =>
      rw [parsePairs_eq_evalPairs n src _ _ st (eraseTo_length_le line),
        splitSpaces_eraseTo line p h1]

theorem applyRecords_concat (a b : List (Nat × Nat × Int)) (W : IntMatrix) :
    applyRecords (a ++ b) W = applyRecords b (applyRecords a W) := by
  unfold applyRecords
  rw [List.foldl_append]

theorem loadState_nil (st : LoadState) :
    (⟨applyRecords [] st.W, st.records ++ []⟩ : LoadState) = st := by
  cases st
  simp [applyRecords]

theorem pairValues_some (p : List Char × List Char) (nb w : Int) (h1 : stoi p.1 = some nb)
    (h2 : stoi p.2 = some w) : pairValues p = some (nb, w) := by
  unfold pairValues
  rw [h1, h2]

theorem pairValues_none_left (p : List Char × List Char) (h1 : stoi p.1 = none) :
    pairValues p = none := by
  unfold pairValues
  rw [h1]

theorem pairValues_none_right (p : List Char × List Char) (h2 : stoi p.2 = none) :
    pairValues p = none := by
  unfold pairValues
  rw [h2]
  cases stoi p.1 <;> rfl

theorem evalPairs_ok_iff (n : Nat) (src : Int) (ps : List (List Char × List Char)) :
    ∀ (st st1 : LoadState), evalPairs n src ps st = Run.ok st1 ↔
      (∀ p ∈ ps, ∃ v, pairValues p = some v ∧ 0 ≤ src ∧ src < n ∧ 0 ≤ v.1 ∧ v.1 < n) ∧
      st1 = ⟨applyRecords (pairsRecords src ps) st.W, st.records ++ pairsRecords src ps⟩ := by
  induction ps with
  | nil =>
    intro st st1
    simp only [evalPairs, Run.ok.injEq, List.not_mem_nil, false_implies, implies_true,
      true_and, pairsRecords, List.filterMap_nil]
    rw [loadState_nil]
    exact eq_comm
  | cons p ps ih =>
    intro st st1
    simp only [evalPairs]
    cases h1 : stoi p.1 with
    | none =>
      simp only
      constructor
      · intro h; simp at h
      · rintro ⟨h, _⟩
        obtain ⟨v, hv, _⟩ := h p (List.mem_cons_self _ _)
        rw [pairValues_none_left p h1] at hv
        simp at hv
    | some nb =>
      simp only
      cases h2 : stoi p.2 with
      | none =>
        simp only
        constructor
        · intro h; simp at h
        · rintro ⟨h, _⟩
          obtain ⟨v, hv, _⟩ := h p (List.mem_cons_self _ _)
          rw [pairValues_none_right p h2] at hv
          simp at hv
      | some w =>
        simp only
        have hpv := pairValues_some p nb w h1 h2
        have hrecs : pairsRecords src (p :: ps) =
            (src.toNat, nb.toNat, w) :: pairsRecords src ps := by
          simp [pairsRecords, hpv]
        by_cases hr : 0 ≤ src ∧ src < n ∧ 0 ≤ nb ∧ nb < n
        · rw [if_pos hr, ih, hrecs]
          constructor
          · rintro ⟨h, rfl⟩
            refine ⟨?_, ?_⟩
            · intro q hq
              rcases List.mem_cons.1 hq with rfl | hq
              · exact ⟨(nb, w), hpv, hr⟩
              · exact h q hq
            · simp [applyRecords_cons]
          · rintro ⟨h, rfl⟩
            refine ⟨fun q hq => h q (List.mem_cons_of_mem _ hq), ?_⟩
            simp [applyRecords_cons]
        · rw [if_neg hr]
          constructor
          · intro h; simp at h
          · rintro ⟨h, _⟩
            obtain ⟨v, hv, hv1⟩ := h p (List.mem_cons_self _ _)
            rw [hpv] at hv
            simp only [Option.some.injEq] at hv
            subst hv
            exact absurd hv1 hr

theorem lineRecords_eq (line : List Char) (src : Int) (h : lineSource line = some src) :
    lineRecords line = pairsRecords src (linePairs line) := by
  unfold lineRecords
  rw [h]

theorem parseLine_ok_iff (n : Nat) (line : List Char) (st st1 : LoadState) :
    parseLine n line st = Run.ok st1 ↔
      LineParses n line ∧
      st1 = ⟨applyRecords (lineRecords line) st.W, st.records ++ lineRecords line⟩ := by
  rw [parseLine_eq_evalPairs]
  unfold LineParses
  cases h : lineSource line with
  | none => simp
  | some src =>
    simp only [Option.some.injEq, exists_eq_left']
    rw [evalPairs_ok_iff, lineRecords_eq line src h]

theorem readLines_ok_iff (n : Nat) (lines : List (List Char)) :
    ∀ (st st1 : LoadState), readLines n lines st = Run.ok st1 ↔
      (∀ line ∈ lines, LineParses n line) ∧
      st1 = ⟨applyRecords (lines.map lineRecords).flatten st.W,
        st.records ++ (lines.map lineRecords).flatten⟩ := by
  induction lines with
  | nil =>
    intro st st1
    simp only [readLines, Run.ok.injEq, List.not_mem_nil, false_implies, implies_true,
      true_and, List.map_nil, List.flatten_nil]
    rw [loadState_nil]
    exact eq_comm
  | cons line rest ih =>
    intro st st1
    simp only [readLines]
    cases h : parseLine n line st with
    | ok st2 =>
      simp only
      have h2 := (parseLine_ok_iff n line st st2).1 h
      rw [ih]
      obtain ⟨hl, rfl⟩ := h2
      simp only [List.mem_cons, forall_eq_or_imp, List.map_cons, List.flatten_cons,
        applyRecords_concat, List.append_assoc]
      constructor
      · rintro ⟨h3, rfl⟩; exact ⟨⟨hl, h3⟩, rfl⟩
      · rintro ⟨⟨_, h3⟩, rfl⟩; exact ⟨h3, rfl⟩
    | raised =>
      simp only [reduceCtorEq, false_iff, not_and]
      intro hall
      have := (parseLine_ok_iff n line st _).2 ⟨hall line (List.mem_cons_self _ _), rfl⟩
      rw [h] at this
      simp at this
    | outOfBounds =>
      simp only [reduceCtorEq, false_iff, not_and]
      intro hall
      have := (parseLine_ok_iff n line st _).2 ⟨hall line (List.mem_cons_self _ _), rfl⟩
      rw [h] at this
      simp at this
    | outOfFuel =>
      simp only [reduceCtorEq, false_iff, not_and]
      intro hall
      have := (parseLine_ok_iff n line st _).2 ⟨hall line (List.mem_cons_self _ _), rfl⟩
      rw [h] at this
      simp at this

/-- A run of `readAdjMatrix` ends normally exactly on a graph file, and then it
returns the count written on the first line and the initial matrix with the
records written on the other lines applied in order. -/
theorem readAdjMatrix_ok_iff (file : Option (List (List Char))) (L : Loaded) :
    readAdjMatrix file = Run.ok L ↔
      FileParses file L.numVerts ∧
      L.W = applyRecords (fileRecords file) (initMatrix L.numVerts) ∧
      L.records = fileRecords file := by
  cases file with
  | none =>
    obtain ⟨n, W, recs⟩ := L
    simp only [readAdjMatrix, Run.ok.injEq, Loaded.mk.injEq, FileParses, fileRecords]
    constructor
    · rintro ⟨rfl, rfl, rfl⟩
      exact ⟨rfl, rfl, rfl⟩
    · rintro ⟨rfl, rfl, rfl⟩
      exact ⟨rfl, rfl, rfl⟩
  | some lines =>
    obtain ⟨n, W, recs⟩ := L
    simp only [readAdjMatrix, FileParses, fileRecords]
    cases h : stoi (lines.headD []) with
    | none => simp
    | some nv =>
      simp only [Option.some.injEq]
      by_cases hneg : nv < 0
      · rw [if_pos hneg]
        simp only [reduceCtorEq, false_iff, not_and]
        intro hnv
        omega
      · rw [if_neg hneg]
        have hnv : ((nv.toNat : Nat) : Int) = nv := Int.toNat_of_nonneg (by omega)
        cases h2 : readLines nv.toNat lines.tail ⟨initMatrix nv.toNat, []⟩ with
        | ok st =>
          simp only [Run.ok.injEq, Loaded.mk.injEq]
          obtain ⟨hall, rfl⟩ := (readLines_ok_iff nv.toNat lines.tail _ st).1 h2
          simp only [List.nil_append]
          constructor
          · rintro ⟨rfl, rfl, rfl⟩
            exact ⟨⟨hnv.symm, hall⟩, rfl, rfl⟩
          · rintro ⟨⟨hn, _⟩, rfl, rfl⟩
            have : nv.toNat = n := by omega
            subst this
            exact ⟨rfl, rfl, rfl⟩
        | raised =>
          simp only [reduceCtorEq, false_iff, not_and]
          rintro ⟨hn, hall⟩
          have hn1 : nv.toNat = n := by omega
          subst hn1
          have := (readLines_ok_iff nv.toNat lines.tail ⟨initMatrix nv.toNat, []⟩ _).2
            ⟨hall, rfl⟩
          rw [h2] at this
          simp at this
        | outOfBounds =>
          simp only [reduceCtorEq, false_iff, not_and]
          rintro ⟨hn, hall⟩
          have hn1 : nv.toNat = n := by omega
          subst hn1
          have := (readLines_ok_iff nv.toNat lines.tail ⟨initMatrix nv.toNat, []⟩ _).2
            ⟨hall, rfl⟩
          rw [h2] at this
          simp at this
        | outOfFuel =>
          simp only [reduceCtorEq, false_iff, not_and]
          rintro ⟨hn, hall⟩
          have hn1 : nv.toNat = n := by omega
          subst hn1
          have := (readLines_ok_iff nv.toNat lines.tail ⟨initMatrix nv.toNat, []⟩ _).2
            ⟨hall, rfl⟩
          rw [h2] at this
          simp at this

theorem fileRecords_inRange (file : Option (List (List Char))) (n : Nat)
    (h : FileParses file n) : ∀ r ∈ fileRecords file, r.1 < n ∧ r.2.1 < n := by
  cases file with
  | none => intro r hr; simp [fileRecords] at hr
  | some lines =>
    intro r hr
    simp only [fileRecords, List.mem_flatten, List.mem_map] at hr
    obtain ⟨l, ⟨line, hline, rfl⟩, hr⟩ := hr
    obtain ⟨src, hsrc, hall⟩ := h.2 line hline
    rw [lineRecords_eq line src hsrc] at hr
    simp only [pairsRecords, List.mem_filterMap, Option.map_eq_some'] at hr
    obtain ⟨p, hp, v, hv, rfl⟩ := hr
    obtain ⟨v1, hv1, h0, h1, h2, h3⟩ := hall p hp
    rw [hv] at hv1
    simp only [Option.some.injEq] at hv1
    subst hv1
    simp only
    omega

/-- A file is loaded normally with `num_verts = n` exactly when it is a graph file
for `n` vertices. -/
theorem readAdjMatrix_returns_iff (file : Option (List (List Char))) (n : Nat) :
    FileParses file n ↔ ∃ L, readAdjMatrix file = Run.ok L ∧ L.numVerts = n := by
  constructor
  · intro h
    exact ⟨⟨n, applyRecords (fileRecords file) (initMatrix n), fileRecords file⟩,
      (readAdjMatrix_ok_iff file _).2 ⟨h, rfl, rfl⟩, rfl⟩
  · rintro ⟨L, hL, rfl⟩
    exact ((readAdjMatrix_ok_iff file L).1 hL).1

/-- The matrix a normal run of `readAdjMatrix` returns, entry by entry, from the
records written in the file. -/
theorem loader_last_aux (file : Option (List (List Char))) (L : Loaded)
    (h : readAdjMatrix file = Run.ok L) :
    L.records = fileRecords file ∧
    (∀ r ∈ fileRecords file, r.1 < L.numVerts ∧ r.2.1 < L.numVerts) ∧
    ∀ i j, i < L.numVerts → j < L.numVerts →
      L.W i j = (lastWeight (fileRecords file) i j).getD (if i = j then 0 else INF) := by
  obtain ⟨hfile, hW, hrec⟩ := (readAdjMatrix_ok_iff file L).1 h
  refine ⟨hrec, fileRecords_inRange file L.numVerts hfile, ?_⟩
  intro i j hi hj
  rw [hW, applyRecords_last, initMatrix_apply _ i j hi hj]

theorem loader_diag_file_aux (file : Option (List (List Char))) (L : Loaded)
    (h : readAdjMatrix file = Run.ok L)
    (hself : ∀ r ∈ fileRecords file, r.1 = r.2.1 → r.2.2 = 0) (i : Nat)
    (hi : i < L.numVerts) : L.W i i = 0 := by
  rw [(loader_last_aux file L h).2.2 i i hi hi, if_pos rfl]
  cases hl : lastWeight (fileRecords file) i i with
  | none => rfl
  | some w =>
    have := hself _ (lastWeight_mem (fileRecords file) i i w hl) rfl
    simpa using this

/-! ## The records written on a line of tokens -/

theorem splitSpaces_joinTokens (t : List Char) (ts : List (List Char))
    (h : ∀ u ∈ t :: ts, spaceChar ∉ u) : splitSpaces (joinTokens (t :: ts)) = t :: ts := by
  induction ts generalizing t with
  | nil =>
    exact splitSpaces_no_space t (findSpace_none t (h t (List.mem_cons_self _ _)))
  | cons u us ih =>
    have ht : spaceChar ∉ t := h t (List.mem_cons_self _ _)
    rw [joinTokens_cons t (u :: us) (by simp),
      splitSpaces_space _ t.length (findSpace_token t _ ht)]
    simp only [List.take_left', List.drop_left', List.cons.injEq, true_and]
    have : List.drop (t.length + 1) (t ++ spaceChar :: joinTokens (u :: us)) =
        joinTokens (u :: us) := by
      rw [List.drop_append_eq_append_drop]
      simp
    rw [this]
    exact ih u (fun v hv => h v (List.mem_cons_of_mem _ hv))

theorem pairUp_pairTokens (pairs : List ((List Char × Int) × (List Char × Int)))
    (tl : List (List Char)) (htl : tl.length ≤ 1) :
    pairUp (pairTokens pairs ++ tl) = pairs.map (fun p => (p.1.1, p.2.1)) := by
  induction pairs with
  | nil =>
    match tl, htl with
    | [], _ => rfl
    | [_], _ => rfl
  | cons p ps ih =>
    rw [pairTokens_cons, pairUp, ih, List.map_cons]

theorem pairsRecords_tokens (src : Int)
    (pairs : List ((List Char × Int) × (List Char × Int)))
    (hps : ∀ p ∈ pairs, IsIntToken p.1.1 p.1.2 ∧ IsIntToken p.2.1 p.2.2) :
    pairsRecords src (pairs.map (fun p => (p.1.1, p.2.1))) = pairRecords src pairs := by
  induction pairs with
  | nil => rfl
  | cons p ps ih =>
    have hp := hps p (List.mem_cons_self _ _)
    have hv : pairValues (p.1.1, p.2.1) = some (p.1.2, p.2.2) :=
      pairValues_some _ _ _ hp.1.2 hp.2.2
    have ih1 := ih (fun q hq => hps q (List.mem_cons_of_mem _ hq))
    unfold pairsRecords at ih1 ⊢
    rw [List.map_cons, List.filterMap_cons, hv]
    simp only [Option.map_some']
    rw [ih1]
    rfl

/-- On a line of tokens separated by single spaces, a source followed by
(neighbor, weight) pairs and at most one more token, the records written on the
line are those of the pairs of tokens, with the integers the tokens hold. -/
theorem lineRecords_tokens (srcTok : List Char) (src : Int) (hsrc : IsIntToken srcTok src)
    (pairs : List ((List Char × Int) × (List Char × Int)))
    (hps : ∀ p ∈ pairs, IsIntToken p.1.1 p.1.2 ∧ IsIntToken p.2.1 p.2.2)
    (tl : List (List Char)) (htl : tl.length ≤ 1) (hsp : ∀ u ∈ tl, spaceChar ∉ u) :
    lineRecords (joinTokens (srcTok :: (pairTokens pairs ++ tl))) = pairRecords src pairs := by
  have hall : ∀ u ∈ srcTok :: (pairTokens pairs ++ tl), spaceChar ∉ u := by
    intro u hu
    rcases List.mem_cons.1 hu with rfl | hu
    · exact hsrc.1
    · rcases List.mem_append.1 hu with hu | hu
      · simp only [pairTokens, List.mem_flatten, List.mem_map] at hu
        obtain ⟨l, ⟨p, hp, rfl⟩, hu⟩ := hu
        simp only [List.mem_cons, List.mem_singleton, List.not_mem_nil, or_false] at hu
        rcases hu with rfl | rfl
        · exact (hps p hp).1.1
        · exact (hps p hp).2.1
      · exact hsp u hu
  have hsplit := splitSpaces_joinTokens srcTok (pairTokens pairs ++ tl) hall
  have hs : lineSource (joinTokens (srcTok :: (pairTokens pairs ++ tl))) = some src := by
    unfold lineSource
    rw [hsplit]
    exact hsrc.2
  rw [lineRecords_eq _ src hs]
  unfold linePairs
  rw [hsplit, List.tail_cons, pairUp_pairTokens pairs tl htl, pairsRecords_tokens src pairs hps]

theorem twoVertexFile_records :
    fileRecords twoVertexFile = [(0, 1, 5), (1, 1, 0), (0, 1, 7)] := by decide

/-! # The claims -/

/-- C1 (counterexample): on the two-vertex graph with zero diagonal whose only
edge is `0 → 1` of weight `0`, an input the claim admits, `floyd` reports distance
`0` from `0` to `1` while `dijkstra` reports `INF`. -/
theorem dijkstra_ne_floyd_zero_edge :
    ZeroDiag 2 zeroEdgeGraph ∧ NonNegWeights 2 zeroEdgeGraph ∧
    floyd 2 zeroEdgeGraph 0 1 = 0 ∧
    (dijkstra listQueue 2 zeroEdgeGraph 0).map (fun c => c 1) = some INF ∧
    (dijkstra listQueue 2 zeroEdgeGraph 0).map (fun c => c 1) ≠
      some (floyd 2 zeroEdgeGraph 0 1) :=
  ⟨zeroEdgeGraph_zeroDiag, zeroEdgeGraph_nonNeg, by decide, by decide, by decide⟩

/-- C1 (amended): for every `n` and every `n × n` matrix with zero diagonal whose
off-diagonal entries are each `INF` or a positive integer below `INF`, and every
lawful priority queue, `dijkstra(W, i)` returns and `dijkstra(W, i)[j]` equals
`floyd(W)[i][j]` for all `i, j < n`. -/
theorem dijkstra_eq_floyd_positive (P : PriorityQueue) (hP : P.Lawful) (n : Nat)
    (W : IntMatrix) (hD : ZeroDiag n W) (hpos : PositiveWeights n W) (i : Nat) (hi : i < n) :
    ∃ cost, dijkstra P n W i = some cost ∧ ∀ j, j < n → cost j = floyd n W i j :=
  dijkstra_eq_floyd_aux P hP n W hD hpos i hi

/-- C1 (witness): the four-vertex scenario graph on the list queue, source `0`. -/
theorem dijkstra_eq_floyd_positive_witness :
    listQueue.Lawful ∧ ZeroDiag 4 scenarioGraph ∧ PositiveWeights 4 scenarioGraph ∧
    ∃ cost, dijkstra listQueue 4 scenarioGraph 0 = some cost ∧
      ∀ j, j < 4 → cost j = floyd 4 scenarioGraph 0 j :=
  ⟨listQueue_lawful, scenarioGraph_zeroDiag, scenarioGraph_positive,
    dijkstra_eq_floyd_positive listQueue listQueue_lawful 4 scenarioGraph
      scenarioGraph_zeroDiag scenarioGraph_positive 0 (by decide)⟩

/-- C2: for every `n × n` matrix with zero diagonal and entries in `[0, INF]`,
`floyd(W)[i][j]` is the least total weight of a directed walk from `i` to `j`
over the entries below `INF` (the empty walk counts for `i = j`), capped at `INF`:
it is at most `INF`, at most the weight of every such walk, attained by such a
walk that repeats no vertex when it is below `INF`, and `INF` when there is no
such walk. -/
theorem floyd_min_path_weight (n : Nat) (W : IntMatrix) (hW : InRange n W)
    (hD : ZeroDiag n W) (i j : Nat) (hi : i < n) (hj : j < n) :
    IsCappedDistance n W (floydEdge W) i j (floyd n W i j) ∧
    (floyd n W i j < INF → ∃ p, IsWalk n (floydEdge W) i p ∧ walkEnd i p = j ∧
      walkWeight W i p = floyd n W i j ∧ (i :: p).Nodup) ∧
    ((¬ ∃ p, IsWalk n (floydEdge W) i p ∧ walkEnd i p = j) → floyd n W i j = INF) :=
  ⟨floyd_capped_distance n W hW hD i j hi hj,
    IsCappedDistance_simple n W hW _ i j hi _ (floyd_capped_distance n W hW hD i j hi hj),
    floyd_unreachable n W hW i j hi hj⟩

/-- C2 (witness): the four-vertex scenario graph, from `0` to `2`. -/
theorem floyd_min_path_weight_witness :
    InRange 4 scenarioGraph ∧ ZeroDiag 4 scenarioGraph ∧
    IsCappedDistance 4 scenarioGraph (floydEdge scenarioGraph) 0 2 (floyd 4 scenarioGraph 0 2) ∧
    (floyd 4 scenarioGraph 0 2 < INF →
      ∃ p, IsWalk 4 (floydEdge scenarioGraph) 0 p ∧ walkEnd 0 p = 2 ∧
        walkWeight scenarioGraph 0 p = floyd 4 scenarioGraph 0 2 ∧ (0 :: p).Nodup) ∧
    ((¬ ∃ p, IsWalk 4 (floydEdge scenarioGraph) 0 p ∧ walkEnd 0 p = 2) →
      floyd 4 scenarioGraph 0 2 = INF) :=
  ⟨scenarioGraph_inRange, scenarioGraph_zeroDiag,
    floyd_min_path_weight 4 scenarioGraph scenarioGraph_inRange scenarioGraph_zeroDiag 0 2
      (by decide) (by decide)⟩

/-- C3: for every `n × n` matrix with entries in `[0, INF]`, every source
`sv < n` and every lawful priority queue, `dijkstra(W, sv)` returns an array in
which `cost[v]`, for `v < n`, is the least total weight of a directed walk from
`sv` to `v` over the entries that are neither `0` nor `INF`, capped at `INF`: it
is at most `INF`, at most the weight of every such walk, attained by such a walk
that repeats no vertex when it is below `INF`, and `INF` when `v` is unreachable
from `sv`. -/
theorem dijkstra_shortest_distance (P : PriorityQueue) (hP : P.Lawful) (n : Nat)
    (W : IntMatrix) (hW : InRange n W) (sv : Nat) (hsv : sv < n) :
    ∃ cost, dijkstra P n W sv = some cost ∧ ∀ v, v < n →
      IsCappedDistance n W (dijkstraEdge W) sv v (cost v) ∧
      (cost v < INF → ∃ p, IsWalk n (dijkstraEdge W) sv p ∧ walkEnd sv p = v ∧
        walkWeight W sv p = cost v ∧ (sv :: p).Nodup) ∧
      ((¬ ∃ p, IsWalk n (dijkstraEdge W) sv p ∧ walkEnd sv p = v) → cost v = INF) := by
  obtain ⟨cost, hc, hdist⟩ := dijkstra_capped_distance P hP n W hW sv hsv
  exact ⟨cost, hc, fun v hv => ⟨hdist v hv,
    IsCappedDistance_simple n W hW _ sv v hsv _ (hdist v hv),
    IsCappedDistance_unreachable n W _ sv v (cost v) (hdist v hv)⟩⟩

/-- C3 (witness): the four-vertex scenario graph on the list queue, source `0`. -/
theorem dijkstra_shortest_distance_witness :
    listQueue.Lawful ∧ InRange 4 scenarioGraph ∧
    ∃ cost, dijkstra listQueue 4 scenarioGraph 0 = some cost ∧ ∀ v, v < 4 →
      IsCappedDistance 4 scenarioGraph (dijkstraEdge scenarioGraph) 0 v (cost v) ∧
      (cost v < INF → ∃ p, IsWalk 4 (dijkstraEdge scenarioGraph) 0 p ∧ walkEnd 0 p = v ∧
        walkWeight scenarioGraph 0 p = cost v ∧ (0 :: p).Nodup) ∧
      ((¬ ∃ p, IsWalk 4 (dijkstraEdge scenarioGraph) 0 p ∧ walkEnd 0 p = v) →
        cost v = INF) :=
  ⟨listQueue_lawful, scenarioGraph_inRange,
    dijkstra_shortest_distance listQueue listQueue_lawful 4 scenarioGraph
      scenarioGraph_inRange 0 (by decide)⟩

/-- C4: `dijkstra` treats an entry `0` as no edge: for every matrix of `int`
values, every source `sv < n` and every lawful priority queue, `dijkstra(W, sv)`
returns, and it returns the same array on `W` with every `0` replaced by `INF`
and on `W` with every `INF` replaced by `0`. -/
theorem dijkstra_zero_is_no_edge (P : PriorityQueue) (hP : P.Lawful) (n : Nat)
    (W : IntMatrix) (sv : Nat) (hsv : sv < n) :
    ∃ cost, dijkstra P n W sv = some cost ∧
      dijkstra P n (zeroToInf W) sv = some cost ∧
      dijkstra P n (infToZero W) sv = some cost := by
  obtain ⟨s, _, hd⟩ := dijkstra_returns P hP n W sv hsv
  exact ⟨s.cost, hd, by rw [dijkstra_zeroToInf, hd], by rw [dijkstra_infToZero, hd]⟩

/-- C4 (witness): the two-vertex graph with one zero-weight edge, source `0`. -/
theorem dijkstra_zero_is_no_edge_witness :
    listQueue.Lawful ∧
    ∃ cost, dijkstra listQueue 2 zeroEdgeGraph 0 = some cost ∧
      dijkstra listQueue 2 (zeroToInf zeroEdgeGraph) 0 = some cost ∧
      dijkstra listQueue 2 (infToZero zeroEdgeGraph) 0 = some cost :=
  ⟨listQueue_lawful,
    dijkstra_zero_is_no_edge listQueue listQueue_lawful 2 zeroEdgeGraph 0 (by decide)⟩

/-- C5: for every `n × n` matrix with zero diagonal and entries in `[0, INF]` and
every `i < n`, both results have a zero diagonal entry: `floyd(W)[i][i] = 0`, and
`dijkstra(W, i)` returns with `dijkstra(W, i)[i] = 0`. -/
theorem zero_diagonal_results (P : PriorityQueue) (hP : P.Lawful) (n : Nat) (W : IntMatrix)
    (hW : InRange n W) (hD : ZeroDiag n W) (i : Nat) (hi : i < n) :
    floyd n W i i = 0 ∧ ∃ cost, dijkstra P n W i = some cost ∧ cost i = 0 :=
  ⟨floyd_diag n W hW hD i hi, dijkstra_source_zero P hP n W hW i hi⟩

/-- C5 (witness): the graph with one vertex and no edges. -/
theorem zero_diagonal_results_witness :
    listQueue.Lawful ∧ InRange 1 noEdges ∧ ZeroDiag 1 noEdges ∧
    floyd 1 noEdges 0 0 = 0 ∧ ∃ cost, dijkstra listQueue 1 noEdges 0 = some cost ∧ cost 0 = 0 :=
  ⟨listQueue_lawful, noEdges_inRange 1, noEdges_zeroDiag 1,
    zero_diagonal_results listQueue listQueue_lawful 1 noEdges (noEdges_inRange 1)
      (noEdges_zeroDiag 1) 0 (by decide)⟩

/-- C6: for every `n × n` matrix with entries in `[0, INF]` and all `i, j < n`
such that no directed walk over the entries below `INF` leads from `i` to `j`,
`floyd(W)[i][j] = INF`, and `dijkstra(W, i)` returns with `dijkstra(W, i)[j] = INF`. -/
theorem unreachable_is_INF (P : PriorityQueue) (hP : P.Lawful) (n : Nat) (W : IntMatrix)
    (hW : InRange n W) (i j : Nat) (hi : i < n) (hj : j < n)
    (hno : ¬ ∃ p, IsWalk n (floydEdge W) i p ∧ walkEnd i p = j) :
    floyd n W i j = INF ∧ ∃ cost, dijkstra P n W i = some cost ∧ cost j = INF := by
  refine ⟨floyd_unreachable n W hW i j hi hj hno, ?_⟩
  obtain ⟨cost, hc, hdist⟩ := dijkstra_capped_distance P hP n W hW i hi
  refine ⟨cost, hc, IsCappedDistance_unreachable n W _ i j (cost j) (hdist j hj) ?_⟩
  rintro ⟨p, hp, hend⟩
  exact hno ⟨p, IsWalk_dijkstra_floyd n W hW i hi p hp, hend⟩

/-- C6 (witness): every off-diagonal pair of the three-vertex graph without edges. -/
theorem unreachable_is_INF_witness :
    listQueue.Lawful ∧ InRange 3 noEdges ∧
    (floyd 3 noEdges 0 1 = INF ∧ ∃ cost, dijkstra listQueue 3 noEdges 0 = some cost ∧ cost 1 = INF) ∧
    (floyd 3 noEdges 0 2 = INF ∧ ∃ cost, dijkstra listQueue 3 noEdges 0 = some cost ∧ cost 2 = INF) ∧
    (floyd 3 noEdges 1 0 = INF ∧ ∃ cost, dijkstra listQueue 3 noEdges 1 = some cost ∧ cost 0 = INF) ∧
    (floyd 3 noEdges 1 2 = INF ∧ ∃ cost, dijkstra listQueue 3 noEdges 1 = some cost ∧ cost 2 = INF) ∧
    (floyd 3 noEdges 2 0 = INF ∧ ∃ cost, dijkstra listQueue 3 noEdges 2 = some cost ∧ cost 0 = INF) ∧
    (floyd 3 noEdges 2 1 = INF ∧ ∃ cost, dijkstra listQueue 3 noEdges 2 = some cost ∧ cost 1 = INF) :=
  ⟨listQueue_lawful, noEdges_inRange 3,
    unreachable_is_INF listQueue listQueue_lawful 3 noEdges (noEdges_inRange 3) 0 1
      (by decide) (by decide) (noEdges_unreachable 3 0 1 (by decide)),
    unreachable_is_INF listQueue listQueue_lawful 3 noEdges (noEdges_inRange 3) 0 2
      (by decide) (by decide) (noEdges_unreachable 3 0 2 (by decide)),
    unreachable_is_INF listQueue listQueue_lawful 3 noEdges (noEdges_inRange 3) 1 0
      (by decide) (by decide) (noEdges_unreachable 3 1 0 (by decide)),
    unreachable_is_INF listQueue listQueue_lawful 3 noEdges (noEdges_inRange 3) 1 2
      (by decide) (by decide) (noEdges_unreachable 3 1 2 (by decide)),
    unreachable_is_INF listQueue listQueue_lawful 3 noEdges (noEdges_inRange 3) 2 0
      (by decide) (by decide) (noEdges_unreachable 3 2 0 (by decide)),
    unreachable_is_INF listQueue listQueue_lawful 3 noEdges (noEdges_inRange 3) 2 1
      (by decide) (by decide) (noEdges_unreachable 3 2 1 (by decide))⟩

/-- C7: for every `n × n` matrix with zero diagonal and entries in `[0, INF]`, the
result `D = floyd(W)` satisfies `D[i][j] ≤ D[i][k] + D[k][j]` for all `i, j, k < n`. -/
theorem floyd_triangle_inequality (n : Nat) (W : IntMatrix) (hW : InRange n W)
    (hD : ZeroDiag n W) (i j k : Nat) (hi : i < n) (hj : j < n) (hk : k < n) :
    floyd n W i j ≤ floyd n W i k + floyd n W k j :=
  floyd_triangle_aux n W hW hD i j k hi hj hk

/-- C7 (witness): the four-vertex scenario graph, from `0` to `3` through `2`. -/
theorem floyd_triangle_inequality_witness :
    InRange 4 scenarioGraph ∧ ZeroDiag 4 scenarioGraph ∧
    floyd 4 scenarioGraph 0 3 ≤ floyd 4 scenarioGraph 0 2 + floyd 4 scenarioGraph 2 3 :=
  ⟨scenarioGraph_inRange, scenarioGraph_zeroDiag,
    floyd_triangle_inequality 4 scenarioGraph scenarioGraph_inRange scenarioGraph_zeroDiag
      0 3 2 (by decide) (by decide) (by decide)⟩

/-- C8: on the four-vertex graph with zero diagonal, `W[0][1] = 2`, `W[1][2] = 3`,
`W[0][2] = 10`, `W[2][3] = 1` and every other off-diagonal entry `INF`, both
algorithms give `D[0][2] = 5`, `D[0][3] = 6` and `D[3][0] = INF`, whichever lawful
priority queue `dijkstra` runs on. -/
theorem scenario_four_vertices (P : PriorityQueue) (hP : P.Lawful) :
    floyd 4 scenarioGraph 0 2 = 5 ∧ floyd 4 scenarioGraph 0 3 = 6 ∧
    floyd 4 scenarioGraph 3 0 = INF ∧
    ∃ c0 c3, dijkstra P 4 scenarioGraph 0 = some c0 ∧ dijkstra P 4 scenarioGraph 3 = some c3 ∧
      c0 2 = 5 ∧ c0 3 = 6 ∧ c3 0 = INF := by
  obtain ⟨hf1, hf2, hf3⟩ := scenario_floyd_values
  obtain ⟨hl0, hl3⟩ := scenario_listQueue_values
  obtain ⟨c0, d0, hc0, hd0, h0⟩ := dijkstra_queue_independent P listQueue hP listQueue_lawful
    4 scenarioGraph scenarioGraph_inRange 0 (by decide)
  obtain ⟨c3, d3, hc3, hd3, h3⟩ := dijkstra_queue_independent P listQueue hP listQueue_lawful
    4 scenarioGraph scenarioGraph_inRange 3 (by decide)
  rw [hd0] at hl0
  rw [hd3] at hl3
  simp only [Option.map_some', Option.some.injEq, Prod.mk.injEq] at hl0 hl3
  refine ⟨hf1, hf2, hf3, c0, c3, hc0, hc3, ?_, ?_, ?_⟩
  · rw [h0 2 (by decide)]; exact hl0.1
  · rw [h0 3 (by decide)]; exact hl0.2
  · rw [h3 0 (by decide)]; exact hl3

/-- C8 (witness): the scenario on the list queue. -/
theorem scenario_four_vertices_witness :
    listQueue.Lawful ∧
    floyd 4 scenarioGraph 0 2 = 5 ∧ floyd 4 scenarioGraph 0 3 = 6 ∧
    floyd 4 scenarioGraph 3 0 = INF ∧
    ∃ c0 c3, dijkstra listQueue 4 scenarioGraph 0 = some c0 ∧
      dijkstra listQueue 4 scenarioGraph 3 = some c3 ∧
      c0 2 = 5 ∧ c0 3 = 6 ∧ c3 0 = INF :=
  ⟨listQueue_lawful, scenario_four_vertices listQueue listQueue_lawful⟩

/-- C9: `floyd` works on its own copy: whatever the freshly allocated `w` holds,
running the body of `floyd` leaves every entry of the argument `W` unchanged, the
matrix returned is `floyd(W)`, and a second run on the same argument returns the
same `n × n` entries. -/
theorem floyd_preserves_input (n : Nat) (W w0 w1 : IntMatrix) :
    (floydStore n ⟨W, w0⟩).W = W ∧
    (floydStore n ⟨W, freshMatrix⟩).w = floyd n W ∧
    AgreeOn n (floydStore n ⟨W, w0⟩).w (floyd n W) ∧
    AgreeOn n (floydStore n ⟨(floydStore n ⟨W, w0⟩).W, w1⟩).w (floydStore n ⟨W, w0⟩).w := by
  have hW : (floydStore n ⟨W, w0⟩).W = W := by rw [floydStore_eq]
  refine ⟨hW, floydStore_fresh n W, floydStore_agree n W w0, ?_⟩
  rw [hW]
  intro a b ha hb
  rw [floydStore_agree n W w1 a b ha hb, floydStore_agree n W w0 a b ha hb]

/-- C10: `INF = 1073741823` satisfies `INF + INF ≤ 2^31 - 1`, and for every
`n × n` matrix with entries in `[0, INF]` every sum `w[j][i] + w[i][k]` that
`floyd` computes lies in `[0, 2^31 - 1]`, so that the 32-bit wrap leaves it
unchanged, `floyd` computes the same matrix in exact integer arithmetic, and
every entry of `floyd(W)` lies in `[0, INF]`. -/
theorem floyd_no_overflow (n : Nat) (W : IntMatrix) (hW : InRange n W) :
    INF = 1073741823 ∧ INF + INF ≤ 2 ^ 31 - 1 ∧
    floyd n W = floydAfter n W (floydSteps n) ∧
    (∀ pre post i j k, floydSteps n = pre ++ (i, j, k) :: post →
      0 ≤ floydAfter n W pre j i + floydAfter n W pre i k ∧
      floydAfter n W pre j i + floydAfter n W pre i k ≤ 2 ^ 31 - 1 ∧
      wrap32 (floydAfter n W pre j i + floydAfter n W pre i k) =
        floydAfter n W pre j i + floydAfter n W pre i k) ∧
    floyd n W = (floydSteps n).foldl floydStepExact (copyMatrix n W) ∧
    InRange n (floyd n W) := by
  refine ⟨INF_eq, by decide, floyd_eq_steps n W, ?_, ?_, (floyd_main n W hW).1⟩
  · intro pre post i j k hsplit
    exact floyd_sum_bound n W hW pre post i j k hsplit
  · rw [floyd_eq_steps]
    exact foldl_floydStep_exact n (floydSteps n) (mem_floydSteps n) _
      (copyMatrix_inRange n W hW)

/-- C10 (witness): the four-vertex scenario graph. -/
theorem floyd_no_overflow_witness :
    InRange 4 scenarioGraph ∧
    (INF = 1073741823 ∧ INF + INF ≤ 2 ^ 31 - 1 ∧
    floyd 4 scenarioGraph = floydAfter 4 scenarioGraph (floydSteps 4) ∧
    (∀ pre post i j k, floydSteps 4 = pre ++ (i, j, k) :: post →
      0 ≤ floydAfter 4 scenarioGraph pre j i + floydAfter 4 scenarioGraph pre i k ∧
      floydAfter 4 scenarioGraph pre j i + floydAfter 4 scenarioGraph pre i k ≤ 2 ^ 31 - 1 ∧
      wrap32 (floydAfter 4 scenarioGraph pre j i + floydAfter 4 scenarioGraph pre i k) =
        floydAfter 4 scenarioGraph pre j i + floydAfter 4 scenarioGraph pre i k) ∧
    floyd 4 scenarioGraph = (floydSteps 4).foldl floydStepExact (copyMatrix 4 scenarioGraph) ∧
    InRange 4 (floyd 4 scenarioGraph)) :=
  ⟨scenarioGraph_inRange, floyd_no_overflow 4 scenarioGraph scenarioGraph_inRange⟩

/-- C11 (the code at the failing inputs): `main` calls `dijkstra(W, 2)` whatever
`num_verts` is.  When the file does not open `num_verts` is `0` and the only call
is the one with source `2`; for `num_verts` equal to `0`, `1` or `2` the demo
source `2` is not below `num_verts`.  The sources of the loop over all vertices
are always below `num_verts`, and all sources are exactly when `num_verts ≥ 3`. -/
theorem driver_demo_source_out_of_range :
    (readAdjMatrix none).value.map (fun L => driverSources L.numVerts) = some [2] ∧
    driverSources 2 = [2, 0, 1] ∧
    ¬ (∀ sv ∈ driverSources 0, sv < 0) ∧
    ¬ (∀ sv ∈ driverSources 1, sv < 1) ∧
    ¬ (∀ sv ∈ driverSources 2, sv < 2) ∧
    (∀ n, ∀ sv ∈ List.range n, sv < n) ∧
    (∀ n, (∀ sv ∈ driverSources n, sv < n) ↔ 3 ≤ n) := by
  refine ⟨by decide, by decide, by decide, by decide, by decide,
    fun n sv h => List.mem_range.1 h, ?_⟩
  intro n
  unfold driverSources startVert
  constructor
  · intro h
    have := h 2 (List.mem_cons_self _ _)
    omega
  · intro h sv hsv
    rcases List.mem_cons.1 hsv with rfl | hsv
    · omega
    · exact List.mem_range.1 hsv

/-- C12: a file is loaded normally with `num_verts = n` exactly when its first line
holds the integer `n` and every other line is a source followed by (neighbor,
weight) pairs of integers with source and neighbor in `[0, n)`; the assignments
the run made are then the records written in the file, in order, and the matrix
returned holds at `(i, j)`, for `i, j < n`, the weight of the last record of the
file with source `i` and neighbor `j` if there is one, and otherwise `0` when
`i = j` and `INF` when `i ≠ j`. -/
theorem loader_last_record (file : Option (List (List Char))) (n : Nat) :
    (FileParses file n ↔ ∃ L, readAdjMatrix file = Run.ok L ∧ L.numVerts = n) ∧
    ∀ L, readAdjMatrix file = Run.ok L → L.numVerts = n →
      L.records = fileRecords file ∧
      (∀ r ∈ fileRecords file, r.1 < n ∧ r.2.1 < n) ∧
      ∀ i j, i < n → j < n →
        L.W i j = (lastWeight (fileRecords file) i j).getD (if i = j then 0 else INF) :=
  ⟨readAdjMatrix_returns_iff file n, fun L h hn => hn ▸ loader_last_aux file L h⟩

/-- C12 (witness): the file `2`, `0 1 5`, `1 1 0`, `0 1 7` is a graph file for two
vertices with the records `(0, 1, 5)`, `(1, 1, 0)`, `(0, 1, 7)`; the entry `(0, 1)`
of the matrix returned holds the weight `7` of the last record for it, and the
entries without a record hold `0` and `INF`. -/
theorem loader_last_record_witness :
    FileParses twoVertexFile 2 ∧
    fileRecords twoVertexFile = [(0, 1, 5), (1, 1, 0), (0, 1, 7)] ∧
    ∃ L, readAdjMatrix twoVertexFile = Run.ok L ∧ L.numVerts = 2 ∧
      L.W 0 0 = 0 ∧ L.W 0 1 = 7 ∧ L.W 1 0 = INF ∧ L.W 1 1 = 0 := by
  obtain ⟨L, hL, hn, _⟩ := twoVertexFile_loaded
  have h := ((loader_last_record twoVertexFile 2).2 L hL hn).2.2
  rw [twoVertexFile_records] at h
  refine ⟨((loader_last_record twoVertexFile 2).1).2 ⟨L, hL, hn⟩, twoVertexFile_records,
    L, hL, hn, ?_, ?_, ?_, ?_⟩
  · rw [h 0 0 (by omega) (by omega)]; decide
  · rw [h 0 1 (by omega) (by omega)]; decide
  · rw [h 1 0 (by omega) (by omega)]; decide
  · rw [h 1 1 (by omega) (by omega)]; decide

/-- C13 (counterexample): the file with the lines `1` and `0 0 5` parses
successfully, with `num_verts = 1`, and the matrix returned has `W[0][0] = 5`. -/
theorem loader_self_loop_diagonal :
    (readAdjMatrix selfLoopFile).outcome = Outcome.ok ∧
    (readAdjMatrix selfLoopFile).value.map (fun L => (L.numVerts, L.records, L.W 0 0)) =
      some (1, [(0, 0, 5)], 5) :=
  ⟨by decide, by decide⟩

/-- C13 (amended): for every file that `readAdjMatrix` parses successfully and in
which no line lists its source as its own neighbor with a weight other than `0`,
that is, every record `(source, neighbor, weight)` written in the file with
`source = neighbor` has `weight = 0`, the matrix returned has `W[i][i] = 0` for
all `i < num_verts`. -/
theorem loader_zero_diagonal (file : Option (List (List Char))) (L : Loaded)
    (h : readAdjMatrix file = Run.ok L)
    (hself : ∀ r ∈ fileRecords file, r.1 = r.2.1 → r.2.2 = 0) (i : Nat)
    (hi : i < L.numVerts) :
    L.W i i = 0 :=
  loader_diag_file_aux file L h hself i hi

/-- C13 (witness): the file `2`, `0 1 5`, `1 1 0`, `0 1 7`, whose only record with
the source as its own neighbor is `(1, 1, 0)`. -/
theorem loader_zero_diagonal_witness :
    fileRecords twoVertexFile = [(0, 1, 5), (1, 1, 0), (0, 1, 7)] ∧
    (∀ r ∈ fileRecords twoVertexFile, r.1 = r.2.1 → r.2.2 = 0) ∧
    ∃ L, readAdjMatrix twoVertexFile = Run.ok L ∧ L.numVerts = 2 ∧
      L.W 0 0 = 0 ∧ L.W 1 1 = 0 := by
  obtain ⟨L, hL, hn, _⟩ := twoVertexFile_loaded
  have hself : ∀ r ∈ fileRecords twoVertexFile, r.1 = r.2.1 → r.2.2 = 0 := by
    rw [twoVertexFile_records]; decide
  exact ⟨twoVertexFile_records, hself, L, hL, hn,
    loader_zero_diagonal twoVertexFile L hL hself 0 (by omega),
    loader_zero_diagonal twoVertexFile L hL hself 1 (by omega)⟩

/-- C14: the flag `equal` computed by the nested loops with the inner `break` is
`true` if and only if `A[i][j] = B[i][j]` for all `i, j < n`; `main` prints
`equal` exactly in that case and `different` otherwise. -/
theorem comparison_reports_equal_iff (n : Nat) (A B : IntMatrix) :
    (compareAll n A B = true ↔ ∀ i j, i < n → j < n → A i j = B i j) ∧
    (report (compareAll n A B) = "equal" ↔ ∀ i j, i < n → j < n → A i j = B i j) ∧
    (report (compareAll n A B) = "different" ↔ ¬ ∀ i j, i < n → j < n → A i j = B i j) := by
  refine ⟨compareAll_iff n A B, ?_, ?_⟩
  · rw [report_equal_iff, compareAll_iff]
  · rw [report_different_iff, ← compareAll_iff, Bool.not_eq_true]

/-- C15: stale queue entries are harmless: for every matrix of `int` values, every
source `sv < n` and every lawful priority queue, an iteration of the `while` loop
that pops an entry whose vertex is already visited leaves `cost` unchanged and
leaves in the queue exactly what the pop left, and `dijkstra(W, sv)` returns the
same array as the variant that skips popped vertices already visited. -/
theorem stale_entries_harmless (P : PriorityQueue) (hP : P.Lawful) (n : Nat)
    (W : IntMatrix) (sv : Nat) (hsv : sv < n) :
    (∀ s top rest, DReach P n W sv s → P.pop s.pq = some (top, rest) →
      top.vertex ∈ s.visited →
      (visit P n W s top rest).cost = s.cost ∧ (visit P n W s top rest).pq = rest) ∧
    ∃ cost, dijkstra P n W sv = some cost ∧ dijkstraSkip P n W sv = some cost := by
  constructor
  · intro s top rest hs _ hst
    rw [visit_stale P n W s top rest (dReach_termInv P hP n W sv hsv s hs) hst]
    exact ⟨rfl, rfl⟩
  · obtain ⟨s, _, hd⟩ := dijkstra_returns P hP n W sv hsv
    exact ⟨s.cost, hd, by rw [dijkstraSkip_eq P hP n W sv hsv, hd]⟩

/-- C15 (witness): the four-vertex scenario graph on the list queue, source `0`. -/
theorem stale_entries_harmless_witness :
    listQueue.Lawful ∧
    (∀ s top rest, DReach listQueue 4 scenarioGraph 0 s →
      listQueue.pop s.pq = some (top, rest) → top.vertex ∈ s.visited →
      (visit listQueue 4 scenarioGraph s top rest).cost = s.cost ∧
      (visit listQueue 4 scenarioGraph s top rest).pq = rest) ∧
    ∃ cost, dijkstra listQueue 4 scenarioGraph 0 = some cost ∧
      dijkstraSkip listQueue 4 scenarioGraph 0 = some cost :=
  ⟨listQueue_lawful,
    stale_entries_harmless listQueue listQueue_lawful 4 scenarioGraph 0 (by decide)⟩

/-- C16: `dijkstra` terminates on every input: for every matrix of `int` values
(negative weights and weights above `INF` included, with wrapping addition),
every source `sv < n` and every lawful priority queue, the `while` loop finds the
queue empty after `k ≤ n * (n - 1) + 1` pops and `dijkstra(W, sv)` returns; along
the way the cost of a visited vertex never changes, an iteration that pops a
visited vertex pushes nothing, and any iteration pushes at most `n - 1` entries. -/
theorem dijkstra_terminates (P : PriorityQueue) (hP : P.Lawful) (n : Nat)
    (W : IntMatrix) (sv : Nat) (hsv : sv < n) :
    (∃ k s, k ≤ n * (n - 1) + 1 ∧
      dijkstraPops P n W (n * (n - 1) + 1) (dijkstraInit P n sv) = some k ∧
      dijkstraLoop P n W (n * (n - 1) + 1) (dijkstraInit P n sv) = some s ∧
      P.contents s.pq = [] ∧ dijkstra P n W sv = some s.cost) ∧
    (∀ s top rest, DReach P n W sv s → P.pop s.pq = some (top, rest) →
      (∀ u, u ∈ s.visited → (visit P n W s top rest).cost u = s.cost u) ∧
      (top.vertex ∈ s.visited → (visit P n W s top rest).pq = rest) ∧
      (P.contents (visit P n W s top rest).pq).length ≤ (P.contents rest).length + (n - 1)) := by
  constructor
  · obtain ⟨s, hs, hd⟩ := dijkstra_returns P hP n W sv hsv
    obtain ⟨k, hk, hk1⟩ := dijkstraPops_of_loop P n W _ _ s hs
    have hnone := (dijkstraLoop_inv P n W (fun _ => True) (fun _ _ _ _ _ => trivial)
      _ _ s trivial hs).2
    exact ⟨k, s, hk, hk1, hs, (hP.pop_none s.pq).1 hnone, hd⟩
  · intro s top rest hs hpop
    have hT := dReach_termInv P hP n W sv hsv s hs
    have htop : top.vertex < n :=
      hT.vertex_lt top ((pop_mem P hP s.pq top rest hpop top).2 (Or.inl rfl))
    refine ⟨fun u hu => visit_visited_cost P hP n W s top rest u (List.mem_cons_of_mem _ hu),
      ?_, visit_push_bound P hP n W s top rest htop⟩
    intro hst
    rw [visit_stale P n W s top rest hT hst]

/-- C16 (witness): the four-vertex scenario graph on the list queue, source `0`. -/
theorem dijkstra_terminates_witness :
    listQueue.Lawful ∧
    ∃ k s, k ≤ 4 * (4 - 1) + 1 ∧
      dijkstraPops listQueue 4 scenarioGraph (4 * (4 - 1) + 1)
        (dijkstraInit listQueue 4 0) = some k ∧
      dijkstraLoop listQueue 4 scenarioGraph (4 * (4 - 1) + 1)
        (dijkstraInit listQueue 4 0) = some s ∧
      listQueue.contents s.pq = [] ∧ dijkstra listQueue 4 scenarioGraph 0 = some s.cost :=
  ⟨listQueue_lawful,
    (dijkstra_terminates listQueue listQueue_lawful 4 scenarioGraph 0 (by decide)).1⟩

/-- C17: when no zero-weight edge and no self-loop is present the two algorithms
agree: for every `n × n` matrix with zero diagonal and every off-diagonal entry
`INF` or in `[1, INF)`, every lawful priority queue and all `i, j < n`,
`dijkstra(W, i)` returns and `dijkstra(W, i)[j] = floyd(W)[i][j]`; when every walk
from `i` to `j` has total weight `INF` or more, both report `INF`. -/
theorem positive_weights_agree (P : PriorityQueue) (hP : P.Lawful) (n : Nat)
    (W : IntMatrix) (hD : ZeroDiag n W) (hpos : PositiveWeights n W) (i : Nat) (hi : i < n) :
    ∃ cost, dijkstra P n W i = some cost ∧ ∀ j, j < n →
      cost j = floyd n W i j ∧
      ((∀ p, IsWalk n (dijkstraEdge W) i p → walkEnd i p = j → INF ≤ walkWeight W i p) →
        cost j = INF ∧ floyd n W i j = INF) := by
  have hW := positive_inRange n W hD hpos
  obtain ⟨cost, hc, heq⟩ := dijkstra_eq_floyd_aux P hP n W hD hpos i hi
  obtain ⟨cost1, hc1, hdist⟩ := dijkstra_capped_distance P hP n W hW i hi
  have hcc : cost1 = cost := by
    rw [hc] at hc1
    exact (Option.some.inj hc1).symm
  subst hcc
  refine ⟨cost1, hc, fun j hj => ⟨heq j hj, ?_⟩⟩
  intro hlong
  obtain ⟨h1, _, h3⟩ := hdist j hj
  have hINF : cost1 j = INF := by
    by_contra hne
    obtain ⟨p, hp, hpe, hpw⟩ := h3 (lt_of_le_of_ne h1 hne)
    have := hlong p hp hpe
    omega
  exact ⟨hINF, by rw [← heq j hj]; exact hINF⟩

/-- C17 (witness): the path `0 → 1 → 2` of total weight `2 * INF - 2`. -/
theorem positive_weights_agree_witness :
    listQueue.Lawful ∧ ZeroDiag 3 longPathGraph ∧ PositiveWeights 3 longPathGraph ∧
    (floyd 3 longPathGraph 0 2 = INF ∧
      (dijkstra listQueue 3 longPathGraph 0).map (fun c => c 2) = some INF) ∧
    ∃ cost, dijkstra listQueue 3 longPathGraph 0 = some cost ∧ ∀ j, j < 3 →
      cost j = floyd 3 longPathGraph 0 j ∧
      ((∀ p, IsWalk 3 (dijkstraEdge longPathGraph) 0 p → walkEnd 0 p = j →
          INF ≤ walkWeight longPathGraph 0 p) →
        cost j = INF ∧ floyd 3 longPathGraph 0 j = INF) :=
  ⟨listQueue_lawful, longPathGraph_zeroDiag, longPathGraph_positive, longPathGraph_values,
    positive_weights_agree listQueue listQueue_lawful 3 longPathGraph
      longPathGraph_zeroDiag longPathGraph_positive 0 (by decide)⟩

/-- C18: `floyd` is idempotent: for every `n × n` matrix with entries in
`[0, INF]`, zero diagonal or not, `floyd(floyd(W)) = floyd(W)`. -/
theorem floyd_idempotent (n : Nat) (W : IntMatrix) (hW : InRange n W) :
    floyd n (floyd n W) = floyd n W :=
  floyd_idempotent_aux n W hW

/-- C18 (witness): the two-vertex matrix with every entry `5`, diagonal included. -/
theorem floyd_idempotent_witness :
    InRange 2 allFive ∧ floyd 2 allFive 0 0 = 5 ∧
    floyd 2 (floyd 2 allFive) = floyd 2 allFive :=
  ⟨allFive_inRange 2, by decide, floyd_idempotent 2 allFive (allFive_inRange 2)⟩

/-- C19: for every `n × n` matrix with entries in `[0, INF]`, every source
`sv < n` and every lawful priority queue, at every state the `while` loop of
`dijkstra` reaches every entry of `cost` is in `[0, INF]`, every popped vertex has
cost below `INF`, inside the loop over `adjacent` every entry of `cost` stays in
`[0, INF]` and every sum `cost[current] + W[current][adjacent]` taken for an edge
is in `[0, 2 * INF - 2]`, which is below `2^31`, so that the 32-bit wrap leaves it
unchanged; the array returned has its entries in `[0, INF]`. -/
theorem dijkstra_no_overflow (P : PriorityQueue) (hP : P.Lawful) (n : Nat)
    (W : IntMatrix) (hW : InRange n W) (sv : Nat) (hsv : sv < n) :
    2 * INF - 2 ≤ 2 ^ 31 - 1 ∧
    (∀ s, DReach P n W sv s →
      (∀ v, v < n → 0 ≤ s.cost v ∧ s.cost v ≤ INF) ∧
      ∀ top rest, P.pop s.pq = some (top, rest) →
        top.vertex < n ∧ s.cost top.vertex < INF ∧
        ∀ adj, adj < n →
          (∀ v, v < n → 0 ≤ (relaxPrefix P W s top rest adj).1 v ∧
            (relaxPrefix P W s top rest adj).1 v ≤ INF) ∧
          (dijkstraEdge W top.vertex adj →
            0 ≤ (relaxPrefix P W s top rest adj).1 top.vertex + W top.vertex adj ∧
            (relaxPrefix P W s top rest adj).1 top.vertex + W top.vertex adj ≤ 2 * INF - 2 ∧
            wrap32 ((relaxPrefix P W s top rest adj).1 top.vertex + W top.vertex adj) =
              (relaxPrefix P W s top rest adj).1 top.vertex + W top.vertex adj)) ∧
    ∃ cost, dijkstra P n W sv = some cost ∧ ∀ v, v < n → 0 ≤ cost v ∧ cost v ≤ INF := by
  refine ⟨by decide, ?_, ?_⟩
  · intro s hs
    have hI := dReach_dijInv P hP n W hW sv hsv s hs
    refine ⟨hI.range, ?_⟩
    intro top rest hpop
    have h0 := relaxPrefix_bounds P hP n W hW sv s hI top rest hpop
    have hn : 0 < n := by omega
    refine ⟨(h0 0 hn).1, (h0 0 hn).2.1, fun adj hadj => (h0 adj hadj).2.2⟩
  · obtain ⟨s, hs, hd⟩ := dijkstra_returns P hP n W sv hsv
    have hr := dijkstraLoop_reach P n W sv _ _ s DReach.init hs
    exact ⟨s.cost, hd, (dReach_dijInv P hP n W hW sv hsv s hr).range⟩

/-- C19 (witness): the four-vertex scenario graph on the list queue, source `0`. -/
theorem dijkstra_no_overflow_witness :
    listQueue.Lawful ∧ InRange 4 scenarioGraph ∧
    2 * INF - 2 ≤ 2 ^ 31 - 1 ∧
    ∃ cost, dijkstra listQueue 4 scenarioGraph 0 = some cost ∧
      ∀ v, v < 4 → 0 ≤ cost v ∧ cost v ≤ INF :=
  ⟨listQueue_lawful, scenarioGraph_inRange,
    (dijkstra_no_overflow listQueue listQueue_lawful 4 scenarioGraph scenarioGraph_inRange
      0 (by decide)).1,
    (dijkstra_no_overflow listQueue listQueue_lawful 4 scenarioGraph scenarioGraph_inRange
      0 (by decide)).2.2⟩

/-- C20 (counterexample): on a matrix for three vertices the line `0 1 5 2`
followed by a space makes the parse loop throw, and so does the line `0 1  5 2`
with two spaces between tokens; the line `0 1 5 2` itself is parsed without error
with the single assignment `W[0][1] = 5`. -/
theorem odd_line_trailing_space_raises :
    (parseLine 3 (oddLine ++ [spaceChar]) ⟨initMatrix 3, []⟩).outcome = Outcome.raised ∧
    (parseLine 3 "0 1  5 2".toList ⟨initMatrix 3, []⟩).outcome = Outcome.raised ∧
    (parseLine 3 oddLine ⟨initMatrix 3, []⟩).value.map (fun st => (st.records, st.W 0 1)) =
      some ([(0, 1, 5)], 5) :=
  ⟨by decide, by decide, by decide⟩

/-- C20 (amended): for every edge line made of a source token followed by an odd
number of tokens, separated by single spaces and with no space after the last
one, where the source and every neighbor are integers in `[0, n)` and every
weight is an integer, the parse loop makes the assignment
`W[source][neighbor] = weight` for each complete (neighbor, weight) pair in order,
leaves the final unpaired token unread, and ends without raising an error. -/
theorem odd_line_last_token_ignored (n : Nat) (st : LoadState) (srcTok : List Char)
    (src : Int) (hsrc : IsIntToken srcTok src) (hc0 : 0 ≤ src) (hc1 : src < n)
    (pairs : List ((List Char × Int) × (List Char × Int)))
    (hps : ∀ p ∈ pairs, IsIntToken p.1.1 p.1.2 ∧ IsIntToken p.2.1 p.2.2 ∧
      0 ≤ p.1.2 ∧ p.1.2 < n)
    (last : List Char) (hlast : spaceChar ∉ last) :
    parseLine n (joinTokens (srcTok :: (pairTokens pairs ++ [last]))) st =
      Run.ok ⟨applyRecords (pairRecords src pairs) st.W,
        st.records ++ pairRecords src pairs⟩ :=
  (parseLine_odd n st srcTok src hsrc hc0 hc1 pairs hps last hlast).1

/-- C20 (witness): the line `0 1 5 2` on a matrix for three vertices. -/
theorem odd_line_last_token_ignored_witness :
    IsIntToken "0".toList 0 ∧ IsIntToken "1".toList 1 ∧ IsIntToken "5".toList 5 ∧
    spaceChar ∉ "2".toList ∧
    joinTokens ("0".toList :: (pairTokens [(("1".toList, 1), ("5".toList, 5))] ++
      ["2".toList])) = oddLine ∧
    parseLine 3 (joinTokens ("0".toList :: (pairTokens [(("1".toList, 1), ("5".toList, 5))] ++
      ["2".toList]))) ⟨initMatrix 3, []⟩ =
      Run.ok ⟨applyRecords (pairRecords 0 [(("1".toList, 1), ("5".toList, 5))]) (initMatrix 3),
        [] ++ pairRecords 0 [(("1".toList, 1), ("5".toList, 5))]⟩ :=
  ⟨by decide, by decide, by decide, by decide, by decide,
    odd_line_last_token_ignored 3 ⟨initMatrix 3, []⟩ "0".toList 0 (by decide) (by decide)
      (by decide) [(("1".toList, 1), ("5".toList, 5))] (by decide) "2".toList (by decide)⟩

end ShortestPaths
